import Mathlib

/-!
# Verification of the instrumented sorting engine

A shallow embedding of the sorting-visualizer engine: the nine instrumented
sorting algorithms of `algorithm_visualizer.py` (array plus `comparisons` /
`swaps` counters), the controller operations (`start_sorting`,
`on_speed_change`, `process_custom_array`), a cancellable variant of the
engine (a stop request observed at a suspension point), and the
`bubble_sort_steps` generator of `bubble_sort_visual.py` modelled over an
explicit store of list cells.

Modelling conventions:
* The Python list `self.array` is a `List Nat`; an index read `a[i]` is
  `lget a i = a.getD i 0` and every read performed by the source is
  in bounds, an assignment `a[i] = v` is `a.set i v`, and the simultaneous
  assignment `a[i], a[j] = a[j], a[i]` is `lswap a i j`.
* In a run that is never cancelled, `visualize_step` always returns `True`
  and mutates neither the array nor the counters, so the completion-run
  embedding of each algorithm drops those calls; the cancellable embedding
  (`CState`, `visualize_step`) keeps them, with a stop request modelled as
  a fuel counter of suspension-point checks that remain before the stop is
  observed.
* `for`/`while` loops are recursions; a loop whose trip count is not a
  structural argument takes an explicit fuel argument that every caller
  instantiates with a value at least the trip count.
* Python's `i = low - 1` in `partition` (which can be `-1`) is represented
  by the natural number `bi = i + 1`; the insertion-sort index `j` (which
  ends at `-1`) is represented by `jp = j + 1`.
-/

namespace AlgoViz

/-- Array State: the sequence under sort plus the two run counters
(`self.array`, `self.comparisons`, `self.swaps`). -/
structure SState where
  arr : List Nat
  comparisons : Nat
  swaps : Nat
deriving Repr, DecidableEq

/-- Read `a[i]` (every read the source performs is in bounds). -/
def lget (l : List Nat) (i : Nat) : Nat := l.getD i 0

/-- The simultaneous swap `a[i], a[j] = a[j], a[i]`. -/
def lswap (l : List Nat) (i j : Nat) : List Nat :=
  (l.set i (lget l j)).set j (lget l i)

/-- Write the elements of `ws` into consecutive cells of `l` starting at
index `k` (the shape of the write-back loops in `merge`, `counting_sort`
and `counting_sort_by_digit`). -/
def setSeq (l : List Nat) (k : Nat) : List Nat → List Nat
  | [] => l
  | w :: ws => setSeq (l.set k w) (k + 1) ws

/-- `max(self.array)` for a list of naturals (the source only calls it on
nonempty lists, where `foldr max 0` agrees with Python's `max`). -/
def maxOf (l : List Nat) : Nat := l.foldr max 0

/-- The index-level statement that `l` is sorted ascending on positions
`[a, b]`. -/
def sortedOn (l : List Nat) (a b : Nat) : Prop :=
  ∀ p q, a ≤ p → p < q → q ≤ b → q < l.length → lget l p ≤ lget l q

/-! ## Bubble Sort (`bubble_sort`, lines 988-1022) -/

/-- Inner pass `for j in range(0, n - i - 1)`: `rem` iterations remain and
`j` is the current index; returns the state and the `swapped` flag. -/
def bubbleInner : SState → Nat → Nat → Bool → SState × Bool
  | s, _, 0, swapped => (s, swapped)
  | s, j, rem + 1, swapped =>
    let s := { s with comparisons := s.comparisons + 1 }
    if lget s.arr j > lget s.arr (j + 1) then
      bubbleInner { s with arr := lswap s.arr j (j + 1), swaps := s.swaps + 1 }
        (j + 1) rem true
    else
      bubbleInner s (j + 1) rem swapped

/-- Outer loop `for i in range(n)` with the `if not swapped: break` early
exit; `rem = n - i` iterations remain. -/
def bubbleOuter (n : Nat) : SState → Nat → Nat → SState
  | s, _, 0 => s
  | s, i, rem + 1 =>
    let r := bubbleInner s 0 (n - i - 1) false
    if r.2 then bubbleOuter n r.1 (i + 1) rem else r.1

/-- `bubble_sort(self)`. -/
def bubble_sort (s : SState) : SState :=
  bubbleOuter s.arr.length s 0 s.arr.length

/-- One full run of Bubble Sort: `start_sorting` resets both counters and
then the worker executes the algorithm. -/
def bubbleRun (l : List Nat) : SState := bubble_sort ⟨l, 0, 0⟩

/-! ## Selection Sort (`selection_sort`, lines 1024-1058) -/

/-- Inner scan `for j in range(i + 1, n)`: only `min_idx` and the
comparison counter change. -/
def selInner : SState → Nat → Nat → Nat → SState × Nat
  | s, _, 0, min_idx => (s, min_idx)
  | s, j, rem + 1, min_idx =>
    let s := { s with comparisons := s.comparisons + 1 }
    if lget s.arr j < lget s.arr min_idx then
      selInner s (j + 1) rem j
    else
      selInner s (j + 1) rem min_idx

/-- Outer loop `for i in range(n)`: scan for the minimum of the unsorted
suffix, then swap it to position `i` if it moved. -/
def selOuter (n : Nat) : SState → Nat → Nat → SState
  | s, _, 0 => s
  | s, i, rem + 1 =>
    let r := selInner s (i + 1) (n - (i + 1)) i
    let s := r.1
    let min_idx := r.2
    let s :=
      if min_idx ≠ i then
        { s with arr := lswap s.arr i min_idx, swaps := s.swaps + 1 }
      else s
    selOuter n s (i + 1) rem

/-- `selection_sort(self)`. -/
def selection_sort (s : SState) : SState :=
  selOuter s.arr.length s 0 s.arr.length

/-- One full run of Selection Sort from reset counters. -/
def selectionRun (l : List Nat) : SState := selection_sort ⟨l, 0, 0⟩

/-! ## Insertion Sort (`insertion_sort`, lines 1060-1094) -/

/-- The shifting loop `while j >= 0 and self.array[j] > key`; the index is
represented as `jp = j + 1` so it stays a natural number.  Each executed
body increments `comparisons`, shifts `a[j]` into `a[j + 1]` and
increments `swaps`. -/
def insWhile (key : Nat) : SState → Nat → SState × Nat
  | s, 0 => (s, 0)
  | s, jp + 1 =>
    if lget s.arr jp > key then
      insWhile key
        { s with comparisons := s.comparisons + 1,
                 arr := s.arr.set (jp + 1) (lget s.arr jp),
                 swaps := s.swaps + 1 } jp
    else (s, jp + 1)

/-- Outer loop `for i in range(1, len(self.array))`: after the shifts the
key is written at `a[j + 1]` (no counter change for that final write). -/
def insOuter : SState → Nat → Nat → SState
  | s, _, 0 => s
  | s, i, rem + 1 =>
    let key := lget s.arr i
    let r := insWhile key s i
    let s := { r.1 with arr := r.1.arr.set r.2 key }
    insOuter s (i + 1) rem

/-- `insertion_sort(self)`. -/
def insertion_sort (s : SState) : SState :=
  insOuter s 1 (s.arr.length - 1)

/-- One full run of Insertion Sort from reset counters. -/
def insertionRun (l : List Nat) : SState := insertion_sort ⟨l, 0, 0⟩

/-! ## Merge Sort (`merge_sort` / `merge`, lines 1096-1147) -/

/-- The merge loops of `merge`: the two index cursors `i`, `j` into the
copies `left_arr`, `right_arr` are represented by the suffixes not yet
consumed; `k` is the write cursor into `self.array`.  Covers the main
`while` and the two drain `while`s; every placement increments `swaps`.
`fuel` bounds the iterations and the caller passes the total length. -/
def mergeLoop : Nat → SState → List Nat → List Nat → Nat → SState
  | 0, s, _, _, _ => s
  | fuel + 1, s, x :: xs, y :: ys, k =>
    let s := { s with comparisons := s.comparisons + 1 }
    if x ≤ y then
      mergeLoop fuel { s with arr := s.arr.set k x, swaps := s.swaps + 1 } xs (y :: ys) (k + 1)
    else
      mergeLoop fuel { s with arr := s.arr.set k y, swaps := s.swaps + 1 } (x :: xs) ys (k + 1)
  | fuel + 1, s, [], y :: ys, k =>
    mergeLoop fuel { s with arr := s.arr.set k y, swaps := s.swaps + 1 } [] ys (k + 1)
  | fuel + 1, s, x :: xs, [], k =>
    mergeLoop fuel { s with arr := s.arr.set k x, swaps := s.swaps + 1 } xs [] (k + 1)
  | _ + 1, s, [], [], _ => s

/-- `merge(self, left, mid, right)`: copy the two halves, then merge them
back into `self.array[left..right]`. -/
def mergeStep (s : SState) (left mid right : Nat) : SState :=
  let left_arr := (s.arr.drop left).take (mid + 1 - left)
  let right_arr := (s.arr.drop (mid + 1)).take (right + 1 - (mid + 1))
  mergeLoop (left_arr.length + right_arr.length) s left_arr right_arr left

/-- `merge_sort(self, left, right)`; `fuel` bounds the recursion depth and
every caller passes at least `right + 1 - left`. -/
def merge_sortF : Nat → SState → Nat → Nat → SState
  | 0, s, _, _ => s
  | fuel + 1, s, left, right =>
    if left < right then
      let mid := (left + right) / 2
      let s := merge_sortF fuel s left mid
      let s := merge_sortF fuel s (mid + 1) right
      mergeStep s left mid right
    else s

/-- The top-level Merge Sort call `self.merge_sort(0, len(self.array) - 1)`. -/
def merge_sort (s : SState) : SState :=
  merge_sortF s.arr.length s 0 (s.arr.length - 1)

/-- One full run of Merge Sort from reset counters. -/
def mergeRun (l : List Nat) : SState := merge_sort ⟨l, 0, 0⟩

/-! ## Quick Sort (`quick_sort` / `partition`, lines 1149-1190) -/

/-- The partition scan `for j in range(low, high)`; the boundary
`i = low - 1` is represented as `bi = i + 1`, so the body's
`i += 1; swap(a[i], a[j])` becomes a swap at `bi` followed by `bi + 1`. -/
def partLoop (pivot : Nat) : SState → Nat → Nat → Nat → SState × Nat
  | s, bi, _, 0 => (s, bi)
  | s, bi, j, rem + 1 =>
    let s := { s with comparisons := s.comparisons + 1 }
    if lget s.arr j ≤ pivot then
      partLoop pivot
        { s with arr := lswap s.arr bi j, swaps := s.swaps + 1 }
        (bi + 1) (j + 1) rem
    else
      partLoop pivot s bi (j + 1) rem

/-- `partition(self, low, high)`: pivot is the last element of the range;
after the scan the pivot is swapped to `i + 1 = bi`, which is returned. -/
def partitionStep (s : SState) (low high : Nat) : SState × Nat :=
  let pivot := lget s.arr high
  let r := partLoop pivot s low low (high - low)
  let s := r.1
  let bi := r.2
  ({ s with arr := lswap s.arr bi high, swaps := s.swaps + 1 }, bi)

/-- `quick_sort(self, low, high)` (in an uncancelled run `partition` never
returns `None`); `fuel` bounds the recursion depth and every caller passes
at least `high + 1 - low`. -/
def quick_sortF : Nat → SState → Nat → Nat → SState
  | 0, s, _, _ => s
  | fuel + 1, s, low, high =>
    if low < high then
      let r := partitionStep s low high
      let s := quick_sortF fuel r.1 low (r.2 - 1)
      quick_sortF fuel s (r.2 + 1) high
    else s

/-- The top-level Quick Sort call `self.quick_sort(0, len(self.array) - 1)`. -/
def quick_sort (s : SState) : SState :=
  quick_sortF s.arr.length s 0 (s.arr.length - 1)

/-- One full run of Quick Sort from reset counters. -/
def quickRun (l : List Nat) : SState := quick_sort ⟨l, 0, 0⟩

/-! ## Heap Sort (`heap_sort` / `heapify`, lines 1192-1245) -/

/-- `heapify(self, n, i)`: compare both children, pick the larger, swap and
recurse if a swap occurred; `fuel` bounds the recursion depth and every
caller passes at least `n - i`. -/
def heapifyF : Nat → SState → Nat → Nat → SState
  | 0, s, _, _ => s
  | fuel + 1, s, n, i =>
    let left := 2 * i + 1
    let right := 2 * i + 2
    let r1 :=
      if left < n then
        let s := { s with comparisons := s.comparisons + 1 }
        if lget s.arr left > lget s.arr i then (s, left) else (s, i)
      else (s, i)
    let r2 :=
      if right < n then
        let s := { r1.1 with comparisons := r1.1.comparisons + 1 }
        if lget s.arr right > lget s.arr r1.2 then (s, right) else (s, r1.2)
      else r1
    let s := r2.1
    let largest := r2.2
    if largest ≠ i then
      heapifyF fuel
        { s with arr := lswap s.arr i largest, swaps := s.swaps + 1 } n largest
    else s

/-- The build phase `for i in range(n // 2 - 1, -1, -1)`: `cnt` is the
number of indices still to process, so the current index is `cnt - 1`. -/
def buildLoop (n : Nat) : SState → Nat → SState
  | s, 0 => s
  | s, cnt + 1 => buildLoop n (heapifyF n s n cnt) cnt

/-- The extraction phase `for i in range(n - 1, 0, -1)`: swap the root with
`a[i]`, then re-heapify the prefix of length `i`. -/
def extractLoop (n : Nat) : SState → Nat → SState
  | s, 0 => s
  | s, i + 1 =>
    let s := { s with arr := lswap s.arr 0 (i + 1), swaps := s.swaps + 1 }
    let s := heapifyF n s (i + 1) 0
    extractLoop n s i

/-- `heap_sort(self)`. -/
def heap_sort (s : SState) : SState :=
  let n := s.arr.length
  let s := buildLoop n s (n / 2)
  extractLoop n s (n - 1)

/-- One full run of Heap Sort from reset counters. -/
def heapRun (l : List Nat) : SState := heap_sort ⟨l, 0, 0⟩

/-! ## Counting Sort (`counting_sort`, lines 1247-1276) -/

/-- The counting loop `for val in self.array`: one `count[val] += 1` and
one `comparisons += 1` per element. -/
def countUp : SState → List Nat → List Nat → SState × List Nat
  | s, count, [] => (s, count)
  | s, count, v :: rest =>
    countUp { s with comparisons := s.comparisons + 1 }
      (count.set v (lget count v + 1)) rest

/-- The inner rebuild loop `while count[val] > 0`: write `val` at `idx`,
advance `idx`; recursion is on the remaining count `c`. -/
def rebuildVal (v : Nat) : SState → Nat → Nat → SState × Nat
  | s, idx, 0 => (s, idx)
  | s, idx, c + 1 =>
    rebuildVal v { s with arr := s.arr.set idx v, swaps := s.swaps + 1 } (idx + 1) c

/-- The outer rebuild loop `for val in range(len(count))`, walking the
count table structurally with `v` the current value. -/
def rebuildLoop : SState → Nat → Nat → List Nat → SState
  | s, _, _, [] => s
  | s, idx, v, c :: rest =>
    let r := rebuildVal v s idx c
    rebuildLoop r.1 r.2 (v + 1) rest

/-- `counting_sort(self)` (empty arrays return immediately). -/
def counting_sort (s : SState) : SState :=
  if s.arr = [] then s
  else
    let max_val := maxOf s.arr
    let count := List.replicate (max_val + 1) 0
    let r := countUp s count s.arr
    rebuildLoop r.1 0 0 r.2

/-- One full run of Counting Sort from reset counters. -/
def countingRun (l : List Nat) : SState := counting_sort ⟨l, 0, 0⟩

/-! ## Radix Sort (`radix_sort` / `counting_sort_by_digit`,
lines 1278-1319) -/

/-- The base-10 digit of `x` selected by the exponent: `(x // exp) % 10`. -/
def digOf (exp x : Nat) : Nat := x / exp % 10

/-- First loop of `counting_sort_by_digit`: histogram the digits (also one
`comparisons += 1` per element). -/
def countDigits (exp : Nat) : SState → List Nat → List Nat → SState × List Nat
  | s, count, [] => (s, count)
  | s, count, x :: rest =>
    countDigits exp { s with comparisons := s.comparisons + 1 }
      (count.set (digOf exp x) (lget count (digOf exp x) + 1)) rest

/-- Second loop `for i in range(1, 10)`: in-place prefix sums of the digit
counts (`rem` iterations remain, `i` is the current index). -/
def psumLoop : List Nat → Nat → Nat → List Nat
  | count, _, 0 => count
  | count, i, rem + 1 =>
    psumLoop (count.set i (lget count i + lget count (i - 1))) (i + 1) rem

/-- Third loop `for i in range(n - 1, -1, -1)`: place `a[i]` into `output`
at `count[digit] - 1` and decrement that count; `m` is the number of
elements still to place, so the current index is `m - 1`. -/
def fillLoop (exp : Nat) (a : List Nat) :
    SState → List Nat → List Nat → Nat → SState × List Nat × List Nat
  | s, output, count, 0 => (s, output, count)
  | s, output, count, m + 1 =>
    let x := lget a m
    let d := digOf exp x
    let output := output.set (lget count d - 1) x
    let count := count.set d (lget count d - 1)
    fillLoop exp a { s with swaps := s.swaps + 1 } output count m

/-- `counting_sort_by_digit(self, exp)`: histogram, prefix sums, stable
right-to-left fill, then copy `output` back into `self.array`. -/
def counting_sort_by_digit (s : SState) (exp : Nat) : SState :=
  let n := s.arr.length
  let output := List.replicate n 0
  let count := List.replicate 10 0
  let r := countDigits exp s count s.arr
  let count := psumLoop r.2 1 9
  let r := fillLoop exp r.1.arr r.1 output count n
  { r.1 with arr := setSeq r.1.arr 0 r.2.1 }

/-- The digit loop `while max_val // exp > 0` of `radix_sort`; `fuel`
bounds the number of passes and every caller passes at least the number of
base-10 digits of `max_val`. -/
def radixLoop (max_val : Nat) : Nat → SState → Nat → SState
  | 0, s, _ => s
  | fuel + 1, s, exp =>
    if max_val / exp > 0 then
      radixLoop max_val fuel (counting_sort_by_digit s exp) (exp * 10)
    else s

/-- `radix_sort(self)` (empty arrays return immediately). -/
def radix_sort (s : SState) : SState :=
  if s.arr = [] then s
  else radixLoop (maxOf s.arr) (maxOf s.arr + 1) s 1

/-- One full run of Radix Sort from reset counters. -/
def radixRun (l : List Nat) : SState := radix_sort ⟨l, 0, 0⟩

/-! ## Shell Sort (`shell_sort`, lines 1321-1353) -/

/-- The gapped shifting loop `while j >= gap and self.array[j - gap] > temp`;
`fuel` bounds the iterations and every caller passes at least `j`. -/
def shWhile (gap temp : Nat) : Nat → SState → Nat → SState × Nat
  | 0, s, j => (s, j)
  | fuel + 1, s, j =>
    if gap ≤ j ∧ lget s.arr (j - gap) > temp then
      shWhile gap temp fuel
        { s with comparisons := s.comparisons + 1,
                 arr := s.arr.set j (lget s.arr (j - gap)),
                 swaps := s.swaps + 1 } (j - gap)
    else (s, j)

/-- The insertion loop `for i in range(gap, n)`: shift the gapped chain,
then write `temp` at the final `j` (no counter change for that write). -/
def shIter (gap : Nat) : SState → Nat → Nat → SState
  | s, _, 0 => s
  | s, i, rem + 1 =>
    let temp := lget s.arr i
    let r := shWhile gap temp i s i
    let s := { r.1 with arr := r.1.arr.set r.2 temp }
    shIter gap s (i + 1) rem

/-- The gap loop `while gap > 0`, halving the gap each time; `fuel` bounds
the iterations and every caller passes at least `gap + 1`. -/
def shGapLoop (n : Nat) : Nat → SState → Nat → SState
  | 0, s, _ => s
  | fuel + 1, s, gap =>
    if gap > 0 then shGapLoop n fuel (shIter gap s gap (n - gap)) (gap / 2)
    else s

/-- `shell_sort(self)`. -/
def shell_sort (s : SState) : SState :=
  let n := s.arr.length
  shGapLoop n (n / 2 + 1) s (n / 2)

/-- One full run of Shell Sort from reset counters. -/
def shellRun (l : List Nat) : SState := shell_sort ⟨l, 0, 0⟩

/-! ## Controller operations -/

/-- `on_speed_change` (lines 489-500): the delay in milliseconds derived
from the speed slider value, `self.speed = max(1, 101 - speed)`. -/
def on_speed_change (speed : Int) : Int := max 1 (101 - speed)

/-- The controller state visible to `start_sorting` and
`process_custom_array`: the array, both counters, the two run flags and
the status-label text (the only user-visible message channel these
operations touch). -/
structure VisState where
  array : List Int
  comparisons : Nat
  swaps : Nat
  is_running : Bool
  is_paused : Bool
  status : String
deriving Repr, DecidableEq

/-- `start_sorting` (lines 568-591): returns early when a run is active
(changing nothing and launching nothing); otherwise resets both counters,
marks the run active and launches the worker.  The second component records
whether a worker thread was launched. -/
def start_sorting (s : VisState) : VisState × Bool :=
  if s.is_running then (s, false)
  else
    ({ s with is_running := true, is_paused := false,
              comparisons := 0, swaps := 0, status := "Sorting..." }, true)

/-- The per-element body of the parsing loop of `process_custom_array`
(lines 778-786): reject numbers below 1, clamp numbers above 1000. -/
def parseNums : List Int → Except Unit (List Int)
  | [] => .ok []
  | p :: rest =>
    if p < 1 then .error ()
    else do
      let num := if p > 1000 then (1000 : Int) else p
      let nums ← parseNums rest
      return num :: nums

/-- `process_custom_array` (lines 770-809) after the textual split: the
already-tokenised integers are validated, clamped, required to number at
least 2, truncated to 200, and only then replace the array and reset the
counters; any `ValueError` leaves the state untouched. -/
def process_custom_array (parts : List Int) (s : VisState) : VisState :=
  match parseNums parts with
  | .error _ => s
  | .ok numbers =>
    if numbers.length < 2 then s
    else
      let numbers := if numbers.length > 200 then numbers.take 200 else numbers
      { s with array := numbers, comparisons := 0, swaps := 0,
               status := "Array Imported" }

/-! ## Cancellable engine (`visualize_step`, lines 811-835)

A `Stop()` request flips `is_running`, and the worker observes it at the
next suspension-point check.  `checksLeft` counts the suspension-point
checks that will still succeed before the stop is observed; an uncancelled
run is one whose `checksLeft` never reaches 0. -/

/-- Cancellable array state: `SState` plus the shared `is_running` flag and
the stop budget. -/
structure CState where
  arr : List Nat
  comparisons : Nat
  swaps : Nat
  is_running : Bool
  checksLeft : Nat
deriving Repr, DecidableEq

/-- `visualize_step` for an unpaused run: returns `False` (and the worker
aborts) as soon as the stop is observed, `True` otherwise. -/
def visualize_step (s : CState) : CState × Bool :=
  if s.is_running = false ∨ s.checksLeft = 0 then
    ({ s with is_running := false }, false)
  else
    ({ s with checksLeft := s.checksLeft - 1 }, true)

/-- Cancellable inner bubble pass; the second result is the `swapped` flag
and the third records whether the pass aborted via `return`. -/
def bubbleInnerC : CState → Nat → Nat → Bool → CState × Bool × Bool
  | s, _, 0, swapped => (s, swapped, false)
  | s, j, rem + 1, swapped =>
    let s := { s with comparisons := s.comparisons + 1 }
    let v := visualize_step s
    if v.2 = false then (v.1, swapped, true)
    else
      let s := v.1
      if lget s.arr j > lget s.arr (j + 1) then
        let s := { s with arr := lswap s.arr j (j + 1), swaps := s.swaps + 1 }
        let v2 := visualize_step s
        if v2.2 = false then (v2.1, true, true)
        else bubbleInnerC v2.1 (j + 1) rem true
      else bubbleInnerC s (j + 1) rem swapped

/-- Cancellable outer bubble loop, with the suspension check at the top of
each pass and on the early-exit path. -/
def bubbleOuterC (n : Nat) : CState → Nat → Nat → CState
  | s, _, 0 => s
  | s, i, rem + 1 =>
    let v := visualize_step s
    if v.2 = false then v.1
    else
      let r := bubbleInnerC v.1 0 (n - i - 1) false
      if r.2.2 then r.1
      else if r.2.1 then bubbleOuterC n r.1 (i + 1) rem
      else (visualize_step r.1).1

/-- Cancellable `bubble_sort`. -/
def bubble_sortC (s : CState) : CState :=
  bubbleOuterC s.arr.length s 0 s.arr.length

/-- A Bubble Sort run that is stopped after `k` successful suspension
checks. -/
def bubbleCancelRun (l : List Nat) (k : Nat) : CState :=
  bubble_sortC ⟨l, 0, 0, true, k⟩

/-- Cancellable main merge loop: returns the state, the unconsumed
suffixes, the write cursor, and whether the loop aborted via `return`
(rather than merely exiting because `is_running` went false); `fuel`
bounds the iterations and the caller passes the sum of the two lengths. -/
def mergeMainC : Nat → CState → List Nat → List Nat → Nat →
    CState × List Nat × List Nat × Nat × Bool
  | fuel + 1, s, x :: xs, y :: ys, k =>
    if s.is_running then
      let s := { s with comparisons := s.comparisons + 1 }
      let v := visualize_step s
      if v.2 = false then (v.1, x :: xs, y :: ys, k, true)
      else
        let s := v.1
        if x ≤ y then
          let s := { s with arr := s.arr.set k x }
          let v2 := visualize_step s
          if v2.2 = false then (v2.1, xs, y :: ys, k, true)
          else mergeMainC fuel { v2.1 with swaps := v2.1.swaps + 1 } xs (y :: ys) (k + 1)
        else
          let s := { s with arr := s.arr.set k y }
          let v2 := visualize_step s
          if v2.2 = false then (v2.1, x :: xs, ys, k, true)
          else mergeMainC fuel { v2.1 with swaps := v2.1.swaps + 1 } (x :: xs) ys (k + 1)
    else (s, x :: xs, y :: ys, k, false)
  | _, s, xs, ys, k => (s, xs, ys, k, false)

/-- Cancellable drain loop (used for both remaining sides). -/
def mergeDrainC : CState → List Nat → Nat → CState × Bool
  | s, [], _ => (s, false)
  | s, x :: xs, k =>
    if s.is_running then
      let s := { s with arr := s.arr.set k x, swaps := s.swaps + 1 }
      let v := visualize_step s
      if v.2 = false then (v.1, true)
      else mergeDrainC v.1 xs (k + 1)
    else (s, false)

/-- Cancellable `merge(self, left, mid, right)`: a `return` from any of the
three loops skips the remaining ones. -/
def mergeC (s : CState) (left mid right : Nat) : CState :=
  let left_arr := (s.arr.drop left).take (mid + 1 - left)
  let right_arr := (s.arr.drop (mid + 1)).take (right + 1 - (mid + 1))
  let m := mergeMainC (left_arr.length + right_arr.length) s left_arr right_arr left
  if m.2.2.2.2 then m.1
  else
    let d1 := mergeDrainC m.1 m.2.1 m.2.2.2.1
    if d1.2 then d1.1
    else (mergeDrainC d1.1 m.2.2.1 (m.2.2.2.1 + (m.2.1).length)).1

/-- Cancellable `merge_sort(self, left, right)` (the guard also checks
`self.is_running`). -/
def merge_sortCF : Nat → CState → Nat → Nat → CState
  | 0, s, _, _ => s
  | fuel + 1, s, left, right =>
    if left < right ∧ s.is_running then
      let mid := (left + right) / 2
      let s := merge_sortCF fuel s left mid
      let s := merge_sortCF fuel s (mid + 1) right
      mergeC s left mid right
    else s

/-- A Merge Sort run that is stopped after `k` successful suspension
checks. -/
def mergeCancelRun (l : List Nat) (k : Nat) : CState :=
  merge_sortCF l.length ⟨l, 0, 0, true, k⟩ 0 (l.length - 1)

/-! ## The `bubble_sort_steps` generator (`bubble_sort_visual.py`,
lines 11-39), over an explicit store of list cells

Python lists are heap cells; the store maps each cell address to its
current contents.  `bubble_sort_steps` receives the address of the
caller's list, allocates a fresh cell for its working copy `a = arr[:]`,
and every write of the algorithm targets that fresh cell.  Snapshots
(`a.copy()`) are the cell's current value. -/

/-- The heap of list cells; an address is an index. -/
abbrev Store := List (List Nat)

/-- Read the cell at `addr`. -/
def bsRead (st : Store) (addr : Nat) : List Nat := st.getD addr []

/-- The `action` field of a yielded step. -/
inductive BAction where
  | compare
  | swap
  | done
deriving Repr, DecidableEq

/-- One yielded tuple `(action, i, j, array_snapshot)`; the indices are
integers because the `done` step uses `-1`. -/
structure BStep where
  action : BAction
  i : Int
  j : Int
  snapshot : List Nat
deriving Repr, DecidableEq

/-- Inner loop `for j in range(n - passnum - 1)` of `bubble_sort_steps`:
yields a `compare` step, swaps inside the working cell and yields a `swap`
step when out of order.  Returns the store, the `made_swap` flag and the
yielded steps in order. -/
def bsInner (aAddr : Nat) : Store → Nat → Nat → Bool → Store × Bool × List BStep
  | st, _, 0, made => (st, made, [])
  | st, j, rem + 1, made =>
    let a := bsRead st aAddr
    let cmp : BStep := ⟨.compare, (j : Int), (j + 1 : Nat), a⟩
    if lget a j > lget a (j + 1) then
      let st := st.set aAddr (lswap a j (j + 1))
      let sw : BStep := ⟨.swap, (j : Int), (j + 1 : Nat), bsRead st aAddr⟩
      let r := bsInner aAddr st (j + 1) rem true
      (r.1, r.2.1, cmp :: sw :: r.2.2)
    else
      let r := bsInner aAddr st (j + 1) rem made
      (r.1, r.2.1, cmp :: r.2.2)

/-- Outer loop `for passnum in range(n - 1)` with the early exit when a
pass made no swap. -/
def bsOuter (aAddr n : Nat) : Store → Nat → Nat → Store × List BStep
  | st, _, 0 => (st, [])
  | st, passnum, rem + 1 =>
    let r := bsInner aAddr st 0 (n - passnum - 1) false
    if r.2.1 then
      let r2 := bsOuter aAddr n r.1 (passnum + 1) rem
      (r2.1, r.2.2 ++ r2.2)
    else (r.1, r.2.2)

/-- `bubble_sort_steps(arr)`, fully exhausted: copies the caller's cell
into a fresh cell, sorts there, and ends with the `done` step. -/
def bubble_sort_steps (st : Store) (arrAddr : Nat) : Store × List BStep :=
  let arr := bsRead st arrAddr
  let aAddr := st.length
  let st := st ++ [arr]
  let n := arr.length
  if n ≤ 1 then (st, [⟨.done, -1, -1, bsRead st aAddr⟩])
  else
    let r := bsOuter aAddr n st 0 (n - 1)
    (r.1, r.2 ++ [⟨.done, -1, -1, bsRead r.1 aAddr⟩])

/-! ## Characterisation helpers (proof-side definitions) -/

/-- Ordinary two-list merge preferring the left side on ties: the value
sequence the `merge` loops write at `left, left+1, ...`. -/
def mergeL : List Nat → List Nat → List Nat
  | [], ys => ys
  | xs, [] => xs
  | x :: xs, y :: ys =>
    if x ≤ y then x :: mergeL xs (y :: ys) else y :: mergeL (x :: xs) ys
termination_by xs ys => xs.length + ys.length

/-- `v` repeated `c₀` times, then `v+1` repeated `c₁` times, ...: the value
sequence the counting-sort rebuild loop writes at `0, 1, ...`. -/
def flatRep (v : Nat) : List Nat → List Nat
  | [] => []
  | c :: rest => List.replicate c v ++ flatRep (v + 1) rest

/-- The concatenation, for digits `d, d+1, ...` (`fuel` of them), of the
elements of `l` whose digit at `exp` is that value, in order: the output
of one stable counting pass of radix sort. -/
def bconcatFrom (exp : Nat) (l : List Nat) : Nat → Nat → List Nat
  | 0, _ => []
  | fuel + 1, d => l.filter (fun x => digOf exp x == d) ++ bconcatFrom exp l fuel (d + 1)

/-- The segment `l[a..b]` (inclusive), as read by `merge`. -/
def slice (l : List Nat) (a b : Nat) : List Nat := (l.drop a).take (b + 1 - a)

/-- Heap parent index. -/
def hparent (k : Nat) : Nat := (k - 1) / 2

/-- `k` lies in the subtree rooted at `i` of the implicit binary heap. -/
def inSub (i k : Nat) : Prop := ∃ m, hparent^[m] k = i

/-- The max-heap ordering at node `k` for heap size `n`. -/
def localHeap (l : List Nat) (n k : Nat) : Prop :=
  (2 * k + 1 < n → lget l (2 * k + 1) ≤ lget l k) ∧
  (2 * k + 2 < n → lget l (2 * k + 2) ≤ lget l k)

/-- The max-heap ordering at every node in `[j, n)`. -/
def heapFrom (l : List Nat) (n j : Nat) : Prop :=
  ∀ k, j ≤ k → k < n → localHeap l n k

/-- The number of elements of `l` whose digit at `exp` equals `d`. -/
def cntEq (exp : Nat) (l : List Nat) (d : Nat) : Nat :=
  List.countP (fun x => digOf exp x == d) l

/-- The number of elements of `l` whose digit at `exp` is below `d`. -/
def cntLt (exp : Nat) (l : List Nat) (d : Nat) : Nat :=
  List.countP (fun x => decide (digOf exp x < d)) l

/-- The sum of `len` consecutive entries of `c` starting at `a`. -/
def sumSeg (c : List Nat) : Nat → Nat → Nat
  | _, 0 => 0
  | a, len + 1 => lget c a + sumSeg c (a + 1) len

/-- The index `largest` selected by one `heapify` step: the larger of node
`i` and its in-range children, ties resolved exactly as the code does. -/
def hsel (s : SState) (n i : Nat) : Nat :=
  let l1 :=
    if 2 * i + 1 < n then
      (if lget s.arr (2 * i + 1) > lget s.arr i then 2 * i + 1 else i)
    else i
  if 2 * i + 2 < n then
    (if lget s.arr (2 * i + 2) > lget s.arr l1 then 2 * i + 2 else l1)
  else l1

/-- Modelled from the spec: the number of element-vs-element comparisons
Insertion Sort actually performs — each evaluation of the guard
`self.array[j] > key` with `j >= 0`, including the final failing one that
ends the shifting loop (when the loop is not ended by `j < 0`).  The array
evolves exactly as in `insWhile`/`insOuter`. -/
def insWhileActual (key : Nat) : List Nat → Nat → Nat
  | _, 0 => 0
  | arr, jp + 1 =>
    if lget arr jp > key then
      1 + insWhileActual key (arr.set (jp + 1) (lget arr jp)) jp
    else 1

/-- Modelled from the spec: the outer accumulation of
`insWhileActual` over the run of Insertion Sort. -/
def insOuterActual : SState → Nat → Nat → Nat
  | _, _, 0 => 0
  | s, i, rem + 1 =>
    let key := lget s.arr i
    let here := insWhileActual key s.arr i
    let r := insWhile key s i
    let s := { r.1 with arr := r.1.arr.set r.2 key }
    here + insOuterActual s (i + 1) rem

/-- Modelled from the spec: the element-vs-element comparisons a full
Insertion Sort run actually performs. -/
def actualComparisonsInsertion (l : List Nat) : Nat :=
  insOuterActual ⟨l, 0, 0⟩ 1 (l.length - 1)

/-! ## Basic lemmas about the array primitives -/

theorem lget_set_self {l : List Nat} {i : Nat} (h : i < l.length) (v : Nat) :
    lget (l.set i v) i = v := by
  unfold lget
  rw [List.getD_eq_getElem _ _ (by simpa using h)]
  simp

theorem lget_set_ne {l : List Nat} {i j : Nat} (h : i ≠ j) (v : Nat) :
    lget (l.set i v) j = lget l j := by
  unfold lget
  by_cases hj : j < l.length
  · rw [List.getD_eq_getElem _ _ (by simpa using hj), List.getD_eq_getElem _ _ hj]
    exact List.getElem_set_ne h _
  · rw [List.getD_eq_default _ _ (by simpa using Nat.le_of_not_lt hj),
      List.getD_eq_default _ _ (Nat.le_of_not_lt hj)]

theorem set_lget_self (l : List Nat) (i : Nat) : l.set i (lget l i) = l := by
  induction l generalizing i with
  | nil => rfl
  | cons h t ih =>
    cases i with
    | zero => rfl
    | succ m => simpa [lget, List.getD_cons_succ] using congrArg (h :: ·) (ih m)

theorem length_lswap (l : List Nat) (i j : Nat) : (lswap l i j).length = l.length := by
  simp [lswap]

theorem lget_lswap_fst {l : List Nat} {i j : Nat} (hij : i ≠ j) (hi : i < l.length) :
    lget (lswap l i j) i = lget l j := by
  rw [lswap, lget_set_ne (Ne.symm hij)]
  exact lget_set_self hi _

theorem lget_lswap_snd {l : List Nat} {i j : Nat} (hj : j < l.length) :
    lget (lswap l i j) j = lget l i := by
  rw [lswap, lget_set_self (by simpa using hj)]

theorem lget_lswap_other {l : List Nat} {i j k : Nat} (hki : k ≠ i) (hkj : k ≠ j) :
    lget (lswap l i j) k = lget l k := by
  rw [lswap, lget_set_ne (Ne.symm hkj), lget_set_ne (Ne.symm hki)]

theorem cons_set_perm : ∀ (t : List Nat) (k : Nat) (x : Nat), k < t.length →
    List.Perm (t.getD k 0 :: t.set k x) (x :: t) := by
  intro t
  induction t with
  | nil => intro k x h; simp at h
  | cons h t ih =>
    intro k x hk
    cases k with
    | zero => simpa using List.Perm.swap x h t
    | succ m =>
      have hm : m < t.length := by simpa using hk
      have e : (h :: t).getD (m + 1) 0 :: (h :: t).set (m + 1) x
          = t.getD m 0 :: h :: t.set m x := by simp [List.getD_cons_succ]
      rw [e]
      exact ((List.Perm.swap h _ _).trans ((ih m x hm).cons h)).trans (List.Perm.swap x h t)

theorem lswap_perm : ∀ (l : List Nat) (i j : Nat), i < l.length → j < l.length →
    List.Perm (lswap l i j) l := by
  intro l
  induction l with
  | nil => intro i j h; simp at h
  | cons h t ih =>
    intro i j hi hj
    match i, j with
    | 0, 0 => simp [lswap, lget, set_lget_self]
    | 0, m + 1 =>
      have hm : m < t.length := by simpa using hj
      have : lswap (h :: t) 0 (m + 1) = t.getD m 0 :: t.set m h := by
        simp [lswap, lget, List.getD_cons_succ, List.getD_cons_zero]
      rw [this]
      exact cons_set_perm t m h hm
    | m + 1, 0 =>
      have hm : m < t.length := by simpa using hi
      have : lswap (h :: t) (m + 1) 0 = t.getD m 0 :: t.set m h := by
        simp [lswap, lget, List.getD_cons_succ, List.getD_cons_zero]
      rw [this]
      exact cons_set_perm t m h hm
    | a + 1, b + 1 =>
      have : lswap (h :: t) (a + 1) (b + 1) = h :: lswap t a b := by
        simp [lswap, lget, List.getD_cons_succ]
      rw [this]
      exact (ih a b (by simpa using hi) (by simpa using hj)).cons h

theorem length_setSeq (ws : List Nat) : ∀ (l : List Nat) (k : Nat),
    (setSeq l k ws).length = l.length := by
  induction ws with
  | nil => intro l k; rfl
  | cons w ws ih => intro l k; rw [setSeq, ih]; simp

theorem setSeq_eq (ws : List Nat) : ∀ (l : List Nat) (k : Nat),
    k + ws.length ≤ l.length →
    setSeq l k ws = l.take k ++ ws ++ l.drop (k + ws.length) := by
  induction ws with
  | nil => intro l k _; simp [setSeq]
  | cons w ws ih =>
    intro l k h
    have hk : k < l.length := by simp at h; omega
    rw [setSeq, ih _ (k + 1) (by simp at h ⊢; omega)]
    have htake : (l.set k w).take (k + 1) = l.take k ++ [w] := by
      rw [List.set_eq_take_cons_drop w hk, List.take_append_eq_append_take]
      have h1 : (l.take k).length = k := by simp; omega
      rw [List.take_take]
      have h2 : min (k + 1) k = k := by omega
      rw [h2, h1]
      simp
    have hdrop : (l.set k w).drop (k + 1 + ws.length) = l.drop (k + 1 + ws.length) := by
      rw [List.drop_set]
      simp [Nat.lt_add_right ws.length (Nat.lt_succ_self k)]
    rw [htake, hdrop]
    have harith : k + 1 + ws.length = k + (ws.length + 1) := by omega
    simp [harith]

theorem setSeq_all {l ws : List Nat} (h : ws.length = l.length) :
    setSeq l 0 ws = ws := by
  rw [setSeq_eq ws l 0 (by omega)]
  simp [h]

theorem sortedLe_iff (l : List Nat) :
    l.Sorted (· ≤ ·) ↔ ∀ p q, p < q → q < l.length → lget l p ≤ lget l q := by
  rw [List.Sorted, List.pairwise_iff_get]
  constructor
  · intro h p q hpq hq
    have hp : p < l.length := lt_trans hpq hq
    rw [lget, List.getD_eq_get _ _ hp, lget, List.getD_eq_get _ _ hq]
    exact h ⟨p, hp⟩ ⟨q, hq⟩ hpq
  · intro h i j hij
    have hval : (i : Nat) < (j : Nat) := hij
    have := h i j hval j.isLt
    rwa [lget, List.getD_eq_get _ _ i.isLt, lget, List.getD_eq_get _ _ j.isLt] at this

/-! ## Claim C2: Bubble Sort on `[5,2,9,1,3]` -/

/-- C2: running Bubble Sort to completion on `[5,2,9,1,3]` produces
`[1,2,3,5,9]` with the comparisons counter at 10 and the swaps counter
at 6. -/
theorem claim_C2_bubble_concrete :
    bubbleRun [5, 2, 9, 1, 3] = ⟨[1, 2, 3, 5, 9], 10, 6⟩ := by
  decide

/-! ## Claim C8: speed-to-delay mapping -/

/-- C8: for every speed value in `[1, 100]` the delay is
`max(1, 101 - speed)`, which in that range equals `101 - speed`; in
particular speed 100 gives delay 1 and speed 1 gives delay 100. -/
theorem claim_C8_speed_delay (v : Int) (h1 : 1 ≤ v) (h2 : v ≤ 100) :
    on_speed_change v = 101 - v ∧ on_speed_change 100 = 1 ∧
    on_speed_change 1 = 100 := by
  refine ⟨?_, by decide, by decide⟩
  rw [on_speed_change]
  omega

/-- Witness for C8 at the concrete speed 50. -/
theorem claim_C8_witness :
    on_speed_change 50 = 51 ∧ on_speed_change 100 = 1 := by
  have h := claim_C8_speed_delay 50 (by decide) (by decide)
  exact ⟨by rw [h.1]; decide, h.2.1⟩

/-! ## Claim C9: the custom-array parser -/

theorem parseNums_error {parts : List Int} (h : ∃ x ∈ parts, x < 1) :
    parseNums parts = .error () := by
  induction parts with
  | nil => simp at h
  | cons p rest ih =>
    rcases h with ⟨x, hx, hlt⟩
    rw [parseNums]
    by_cases hp : p < 1
    · simp [hp]
    · rcases List.mem_cons.mp hx with rfl | hmem
      · exact absurd hlt hp
      · rw [if_neg hp, ih ⟨x, hmem, hlt⟩]
        rfl

theorem parseNums_ok {parts : List Int} (h : ∀ x ∈ parts, 1 ≤ x) :
    parseNums parts = .ok (parts.map (fun x => if x > 1000 then 1000 else x)) := by
  induction parts with
  | nil => rfl
  | cons p rest ih =>
    have hp : ¬ p < 1 := not_lt.mpr (h p (List.mem_cons_self p rest))
    rw [parseNums, if_neg hp, ih (fun x hx => h x (List.mem_cons_of_mem p hx))]
    rfl

theorem parseNums_length {parts ns : List Int} (h : parseNums parts = .ok ns) :
    ns.length = parts.length := by
  induction parts generalizing ns with
  | nil =>
    rw [parseNums] at h
    cases h
    rfl
  | cons p rest ih =>
    rw [parseNums] at h
    by_cases hp : p < 1
    · rw [if_pos hp] at h; cases h
    · rw [if_neg hp] at h
      cases hr : parseNums rest with
      | error e => rw [hr] at h; cases h
      | ok ms =>
        rw [hr] at h
        cases h
        simpa using ih hr

/-- C9: the parser rejects any input containing an integer below 1 and any
input of fewer than 2 tokens, leaving the whole state (array and counters)
unchanged; an accepted input replaces the array by the clamped-at-1000
values truncated to the first 200 and resets both counters. -/
theorem claim_C9_custom_array (parts : List Int) (s : VisState) :
    ((∃ x ∈ parts, x < 1) → process_custom_array parts s = s) ∧
    (parts.length < 2 → process_custom_array parts s = s) ∧
    ((∀ x ∈ parts, 1 ≤ x) → 2 ≤ parts.length →
      (process_custom_array parts s).array
          = (parts.map (fun x => if x > 1000 then 1000 else x)).take 200 ∧
      (process_custom_array parts s).comparisons = 0 ∧
      (process_custom_array parts s).swaps = 0) := by
  refine ⟨?_, ?_, ?_⟩
  · intro h
    rw [process_custom_array, parseNums_error h]
  · intro h
    rw [process_custom_array]
    cases hr : parseNums parts with
    | error e => rfl
    | ok ns =>
      have : ns.length < 2 := by rw [parseNums_length hr]; exact h
      simp [this]
  · intro hpos hlen
    rw [process_custom_array, parseNums_ok hpos]
    have hl : (parts.map (fun x => if x > 1000 then 1000 else x)).length = parts.length := by
      simp
    have h2 : ¬ (parts.map (fun x => if x > 1000 then 1000 else x)).length < 2 := by
      omega
    simp only [h2, if_false]
    refine ⟨?_, by trivial, by trivial⟩
    by_cases hgt : (parts.map (fun x => if x > 1000 then 1000 else x)).length > 200
    · simp only [hgt, if_true]
    · simp only [hgt, if_false]
      exact (List.take_of_length_le (by omega)).symm

/-- Witness for C9 at concrete token lists: a non-positive entry is
rejected, a single entry is rejected (state untouched both times), and an
accepted list is clamped at 1000. -/
theorem claim_C9_witness :
    process_custom_array [5, -1] ⟨[9], 1, 2, false, false, "s"⟩
        = ⟨[9], 1, 2, false, false, "s"⟩ ∧
    process_custom_array [7] ⟨[9], 1, 2, false, false, "s"⟩
        = ⟨[9], 1, 2, false, false, "s"⟩ ∧
    (process_custom_array [5, 2000] ⟨[9], 1, 2, false, false, "s"⟩).array
        = [5, 1000] := by
  refine ⟨?_, ?_, ?_⟩
  · exact (claim_C9_custom_array [5, -1] _).1 ⟨-1, by decide, by decide⟩
  · exact (claim_C9_custom_array [7] _).2.1 (by decide)
  · have h := ((claim_C9_custom_array [5, 2000]
        ⟨[9], 1, 2, false, false, "s"⟩).2.2 (by decide) (by decide)).1
    rw [h]
    decide

/-! ## Claim C6: `start_sorting` -/

/-- Counterexample for C6: calling Start while a run is active returns with
the state bit-for-bit unchanged (status text included) and no worker
launched — no `AlreadyRunning` error is surfaced anywhere. -/
theorem claim_C6_counterexample :
    start_sorting ⟨[2, 1], 5, 3, true, false, "Sorting..."⟩
      = (⟨[2, 1], 5, 3, true, false, "Sorting..."⟩, false) := by
  rfl

/-- C6 (amended): Start while a run is active is a silent no-op — the state
is unchanged and no worker is launched (no error value exists to surface);
Start while idle resets both counters to zero, keeps the array, marks the
run active and launches the worker. -/
theorem claim_C6_start (s : VisState) :
    (s.is_running = true → start_sorting s = (s, false)) ∧
    (s.is_running = false →
      (start_sorting s).2 = true ∧
      (start_sorting s).1.comparisons = 0 ∧
      (start_sorting s).1.swaps = 0 ∧
      (start_sorting s).1.is_running = true ∧
      (start_sorting s).1.array = s.array) := by
  constructor
  · intro h
    rw [start_sorting, if_pos h]
  · intro h
    rw [start_sorting, if_neg (by rw [h]; exact Bool.false_ne_true)]
    exact ⟨rfl, rfl, rfl, rfl, rfl⟩

/-- Witness for C6 at two concrete controller states. -/
theorem claim_C6_witness :
    start_sorting ⟨[1, 2], 7, 7, true, false, "x"⟩
        = (⟨[1, 2], 7, 7, true, false, "x"⟩, false) ∧
    (start_sorting ⟨[1, 2], 7, 7, false, false, "x"⟩).1.comparisons = 0 := by
  have h1 := (claim_C6_start ⟨[1, 2], 7, 7, true, false, "x"⟩).1 rfl
  have h2 := ((claim_C6_start ⟨[1, 2], 7, 7, false, false, "x"⟩).2 rfl).2.1
  exact ⟨h1, h2⟩

/-! ## Bubble Sort correctness -/

theorem chain_le (l : List Nat) (m : Nat)
    (h : ∀ k, k < m → lget l k ≤ lget l (k + 1)) :
    ∀ d p, p + d ≤ m → lget l p ≤ lget l (p + d) := by
  intro d
  induction d with
  | zero => intro p _; exact le_refl _
  | succ e ih =>
    intro p hp
    have h1 : lget l p ≤ lget l (p + e) := ih p (by omega)
    have h2 : lget l (p + e) ≤ lget l (p + e + 1) := h (p + e) (by omega)
    have : p + (e + 1) = p + e + 1 := by omega
    rw [this]
    exact le_trans h1 h2

theorem bubbleInner_spec : ∀ (rem j : Nat) (s : SState) (sw : Bool),
    j + rem < s.arr.length →
    (bubbleInner s j rem sw).1.arr.length = s.arr.length ∧
    List.Perm (bubbleInner s j rem sw).1.arr s.arr ∧
    (∀ k, k < j ∨ j + rem < k →
      lget (bubbleInner s j rem sw).1.arr k = lget s.arr k) ∧
    ((∀ k, k < j → lget s.arr k ≤ lget s.arr j) →
      ∀ k, k < j + rem →
        lget (bubbleInner s j rem sw).1.arr k
          ≤ lget (bubbleInner s j rem sw).1.arr (j + rem)) ∧
    (∀ b, (∀ k, k ≤ j + rem → lget s.arr k ≤ b) →
      ∀ k, k ≤ j + rem → lget (bubbleInner s j rem sw).1.arr k ≤ b) ∧
    ((bubbleInner s j rem sw).2 = false → sw = false ∧
      (bubbleInner s j rem sw).1.arr = s.arr ∧
      (∀ k, j ≤ k → k < j + rem → lget s.arr k ≤ lget s.arr (k + 1))) := by
  intro rem
  induction rem with
  | zero =>
    intro j s sw _
    refine ⟨rfl, List.Perm.refl _, fun k _ => rfl, ?_, fun b hb k hk => hb k hk, ?_⟩
    · intro hmax k hk
      exact hmax k (by omega)
    · intro hs
      exact ⟨hs, rfl, fun k h1 h2 => absurd (lt_of_le_of_lt h1 h2) (lt_irrefl _)⟩
  | succ rem ih =>
    intro j s sw h
    have hj : j < s.arr.length := by omega
    have hj1 : j + 1 < s.arr.length := by omega
    rw [bubbleInner]
    by_cases hgt : lget s.arr j > lget s.arr (j + 1)
    · simp only [hgt, if_true]
      set s2 : SState :=
        { s with comparisons := s.comparisons + 1,
                 arr := lswap s.arr j (j + 1), swaps := s.swaps + 1 } with hs2
      have harr2 : s2.arr = lswap s.arr j (j + 1) := rfl
      have hlen2 : s2.arr.length = s.arr.length := by
        rw [harr2, length_lswap]
      have hb2 : (j + 1) + rem < s2.arr.length := by omega
      obtain ⟨ihlen, ihperm, ihun, ihmax, ihbound, ihsw⟩ := ih (j + 1) s2 true hb2
      have hidx : (j + 1) + rem = j + (rem + 1) := by omega
      have hswap_fst : lget s2.arr j = lget s.arr (j + 1) := by
        rw [harr2]; exact lget_lswap_fst (by omega) hj
      have hswap_snd : lget s2.arr (j + 1) = lget s.arr j := by
        rw [harr2]; exact lget_lswap_snd hj1
      have hswap_other : ∀ k, k ≠ j → k ≠ j + 1 → lget s2.arr k = lget s.arr k := by
        intro k h1 h2
        rw [harr2]; exact lget_lswap_other h1 h2
      refine ⟨by rw [ihlen, hlen2], ?_, ?_, ?_, ?_, ?_⟩
      · exact ihperm.trans (by rw [harr2]; exact lswap_perm _ _ _ hj hj1)
      · intro k hk
        have : lget (bubbleInner s2 (j + 1) rem true).1.arr k = lget s2.arr k := by
          apply ihun
          rcases hk with hk | hk
          · exact Or.inl (by omega)
          · exact Or.inr (by omega)
        rw [this]
        rcases hk with hk | hk
        · exact hswap_other k (by omega) (by omega)
        · exact hswap_other k (by omega) (by omega)
      · intro hmax k hk
        rw [← hidx] at hk ⊢
        refine ihmax ?_ k hk
        intro k' hk'
        rw [hswap_snd]
        rcases Nat.lt_or_ge k' j with h' | h'
        · rw [hswap_other k' (by omega) (by omega)]
          exact le_trans (hmax k' h') (le_refl _)
        · have : k' = j := by omega
          subst this
          rw [hswap_fst]
          exact le_of_lt hgt
      · intro b hb k hk
        rw [← hidx] at hk
        refine ihbound b ?_ k hk
        intro k' hk'
        rcases Nat.lt_or_ge k' j with h' | h'
        · rw [hswap_other k' (by omega) (by omega)]
          exact hb k' (by omega)
        · rcases Nat.eq_or_lt_of_le h' with h'' | h''
          · rw [← h'', hswap_fst]
            exact hb (j + 1) (by omega)
          · rcases Nat.eq_or_lt_of_le (Nat.succ_le_of_lt h'') with h3 | h3
            · rw [← h3, hswap_snd]
              exact hb j (by omega)
            · rw [hswap_other k' (by omega) (by omega)]
              exact hb k' (by omega)
      · intro hfalse
        obtain ⟨h1, _, _⟩ := ihsw hfalse
        exact absurd h1 (by simp)
    · simp only [hgt, if_false]
      set s1 : SState := { s with comparisons := s.comparisons + 1 } with hs1
      have harr1 : s1.arr = s.arr := rfl
      have hb1 : (j + 1) + rem < s1.arr.length := by
        rw [harr1]; omega
      obtain ⟨ihlen, ihperm, ihun, ihmax, ihbound, ihsw⟩ := ih (j + 1) s1 sw hb1
      have hidx : (j + 1) + rem = j + (rem + 1) := by omega
      have hle : lget s.arr j ≤ lget s.arr (j + 1) := le_of_not_lt hgt
      refine ⟨by rw [ihlen, harr1], by rw [harr1] at ihperm; exact ihperm, ?_, ?_, ?_, ?_⟩
      · intro k hk
        rw [← harr1]
        apply ihun
        rcases hk with hk | hk
        · exact Or.inl (by omega)
        · exact Or.inr (by omega)
      · intro hmax k hk
        rw [← hidx] at hk ⊢
        refine ihmax ?_ k hk
        intro k' hk'
        rw [harr1]
        rcases Nat.lt_or_ge k' j with h' | h'
        · exact le_trans (hmax k' h') hle
        · have : k' = j := by omega
          subst this
          exact hle
      · intro b hb k hk
        rw [← hidx] at hk
        apply ihbound
        · intro k' hk'
          rw [harr1]
          exact hb k' (by omega)
        · exact hk
      · intro hfalse
        obtain ⟨h1, h2, h3⟩ := ihsw hfalse
        rw [harr1] at h2 h3
        refine ⟨h1, h2, ?_⟩
        intro k hk1 hk2
        rcases Nat.eq_or_lt_of_le hk1 with h' | h'
        · rw [← h']
          exact hle
        · exact h3 k h' (by omega)

theorem bubbleOuter_spec (n : Nat) : ∀ (rem i : Nat) (s : SState),
    s.arr.length = n → i + rem = n →
    (∀ p q, n - i ≤ p → p < q → q < n → lget s.arr p ≤ lget s.arr q) →
    (∀ p q, p < n - i → n - i ≤ q → q < n → lget s.arr p ≤ lget s.arr q) →
    (bubbleOuter n s i rem).arr.length = n ∧
    List.Perm (bubbleOuter n s i rem).arr s.arr ∧
    (∀ p q, p < q → q < n →
      lget (bubbleOuter n s i rem).arr p ≤ lget (bubbleOuter n s i rem).arr q) := by
  intro rem
  induction rem with
  | zero =>
    intro i s hlen hi hsuf _
    refine ⟨hlen, List.Perm.refl _, ?_⟩
    intro p q hpq hq
    exact hsuf p q (by omega) hpq hq
  | succ rem ih =>
    intro i s hlen hi hsuf hsplit
    have hn : 0 < n := by omega
    have hmrem : n - i - 1 = rem := by omega
    have hni : n - i = rem + 1 := by omega
    have hinner : 0 + (n - i - 1) < s.arr.length := by omega
    obtain ⟨ilen, iperm, iun, imax, ibound, isw⟩ :=
      bubbleInner_spec (n - i - 1) 0 s false hinner
    rw [bubbleOuter]
    cases hflag : (bubbleInner s 0 (n - i - 1) false).2 with
    | true =>
      simp only [hflag, if_true]
      have hlen1 : (bubbleInner s 0 (n - i - 1) false).1.arr.length = n := by
        rw [ilen, hlen]
      have hsuf1 : ∀ p q, n - (i + 1) ≤ p → p < q → q < n →
          lget (bubbleInner s 0 (n - i - 1) false).1.arr p
            ≤ lget (bubbleInner s 0 (n - i - 1) false).1.arr q := by
        intro p q hp hpq hq
        have hq' : lget (bubbleInner s 0 (n - i - 1) false).1.arr q = lget s.arr q := by
          apply iun
          right
          omega
        rcases Nat.eq_or_lt_of_le hp with hpe | hpl
        · rw [hq']
          have : ∀ k, k ≤ 0 + (n - i - 1) → lget s.arr k ≤ lget s.arr q := by
            intro k hk
            exact hsplit k q (by omega) (by omega) hq
          have hb := ibound (lget s.arr q) this p (by omega)
          exact hb
        · have hp' : lget (bubbleInner s 0 (n - i - 1) false).1.arr p = lget s.arr p := by
            apply iun
            right
            omega
          rw [hp', hq']
          exact hsuf p q (by omega) hpq hq
      have hsplit1 : ∀ p q, p < n - (i + 1) → n - (i + 1) ≤ q → q < n →
          lget (bubbleInner s 0 (n - i - 1) false).1.arr p
            ≤ lget (bubbleInner s 0 (n - i - 1) false).1.arr q := by
        intro p q hp hq hqn
        rcases Nat.eq_or_lt_of_le hq with hqe | hql
        · have := imax (fun k hk => absurd hk (Nat.not_lt_zero k)) p (by omega)
          have he : 0 + (n - i - 1) = q := by omega
          rwa [he] at this
        · have hq' : lget (bubbleInner s 0 (n - i - 1) false).1.arr q = lget s.arr q := by
            apply iun
            right
            omega
          rw [hq']
          have : ∀ k, k ≤ 0 + (n - i - 1) → lget s.arr k ≤ lget s.arr q := by
            intro k hk
            exact hsplit k q (by omega) (by omega) hqn
          exact ibound (lget s.arr q) this p (by omega)
      obtain ⟨rlen, rperm, rsorted⟩ :=
        ih (i + 1) (bubbleInner s 0 (n - i - 1) false).1 hlen1 (by omega) hsuf1 hsplit1
      exact ⟨rlen, rperm.trans iperm, rsorted⟩
    | false =>
      simp only [hflag, Bool.false_eq_true, if_false]
      obtain ⟨-, harr, hadj⟩ := isw hflag
      refine ⟨by rw [ilen, hlen], by rw [harr], ?_⟩
      intro p q hpq hq
      rw [harr]
      rcases le_or_lt q (n - i - 1) with hqm | hqm
      · have := chain_le s.arr (n - i - 1)
          (fun k hk => hadj k (Nat.zero_le k) (by omega)) (q - p) p (by omega)
        have he : p + (q - p) = q := by omega
        rwa [he] at this
      · rcases Nat.lt_or_ge p (n - i) with hp | hp
        · exact hsplit p q (by omega) (by omega) hq
        · exact hsuf p q (by omega) hpq hq

theorem bubble_sort_correct (s : SState) :
    List.Perm (bubble_sort s).arr s.arr ∧ (bubble_sort s).arr.Sorted (· ≤ ·) := by
  obtain ⟨rlen, rperm, rsorted⟩ :=
    bubbleOuter_spec s.arr.length s.arr.length 0 s rfl (by omega)
      (fun p q hp hpq hq => absurd hp (by omega))
      (fun p q hp hq hqn => absurd hq (by omega))
  rw [bubble_sort]
  refine ⟨rperm, ?_⟩
  rw [sortedLe_iff]
  intro p q hpq hq
  exact rsorted p q hpq (by rw [← rlen]; exact hq)

/-! ## Selection Sort correctness -/

theorem selInner_spec : ∀ (rem j : Nat) (s : SState) (m : Nat),
    (selInner s j rem m).1.arr = s.arr ∧
    ((selInner s j rem m).2 = m ∨
      (j ≤ (selInner s j rem m).2 ∧ (selInner s j rem m).2 < j + rem)) ∧
    lget s.arr (selInner s j rem m).2 ≤ lget s.arr m ∧
    (∀ k, j ≤ k → k < j + rem → lget s.arr (selInner s j rem m).2 ≤ lget s.arr k) := by
  intro rem
  induction rem with
  | zero =>
    intro j s m
    exact ⟨rfl, Or.inl rfl, le_refl _, fun k h1 h2 => absurd (lt_of_le_of_lt h1 h2) (by omega)⟩
  | succ rem ih =>
    intro j s m
    rw [selInner]
    by_cases hlt : lget s.arr j < lget s.arr m
    · simp only [hlt, if_true]
      obtain ⟨harr, hpos, hmin, hall⟩ := ih (j + 1) { s with comparisons := s.comparisons + 1 } j
      refine ⟨harr, ?_, ?_, ?_⟩
      · right
        rcases hpos with he | ⟨h1, h2⟩
        · rw [he]; omega
        · omega
      · exact le_trans hmin (le_of_lt hlt)
      · intro k hk1 hk2
        rcases Nat.eq_or_lt_of_le hk1 with he | hgt
        · rw [← he]; exact hmin
        · exact hall k hgt (by omega)
    · simp only [hlt, if_false]
      obtain ⟨harr, hpos, hmin, hall⟩ := ih (j + 1) { s with comparisons := s.comparisons + 1 } m
      refine ⟨harr, ?_, hmin, ?_⟩
      · rcases hpos with he | ⟨h1, h2⟩
        · exact Or.inl he
        · right; omega
      · intro k hk1 hk2
        rcases Nat.eq_or_lt_of_le hk1 with he | hgt
        · rw [← he]
          exact le_trans hmin (le_of_not_lt hlt)
        · exact hall k hgt (by omega)

theorem selOuter_spec (n : Nat) : ∀ (rem i : Nat) (s : SState),
    s.arr.length = n → i + rem = n →
    (∀ p q, p < q → q < i → q < n → lget s.arr p ≤ lget s.arr q) →
    (∀ p q, p < i → i ≤ q → q < n → lget s.arr p ≤ lget s.arr q) →
    (selOuter n s i rem).arr.length = n ∧
    List.Perm (selOuter n s i rem).arr s.arr ∧
    (∀ p q, p < q → q < n →
      lget (selOuter n s i rem).arr p ≤ lget (selOuter n s i rem).arr q) := by
  intro rem
  induction rem with
  | zero =>
    intro i s hlen hi hpre _
    exact ⟨hlen, List.Perm.refl _, fun p q hpq hq => hpre p q hpq (by omega) hq⟩
  | succ rem ih =>
    intro i s hlen hi hpre hsplit
    have hin : i < n := by omega
    simp only [selOuter]
    obtain ⟨harr, hpos, hmin0, hall⟩ := selInner_spec (n - (i + 1)) (i + 1) s i
    set r := selInner s (i + 1) (n - (i + 1)) i with hr
    have hm : r.2 = i ∨ (i + 1 ≤ r.2 ∧ r.2 < n) := by
      rcases hpos with he | ⟨h1, h2⟩
      · exact Or.inl he
      · right
        constructor
        · exact h1
        · omega
    have hmlt : r.2 < n := by
      rcases hm with he | ⟨_, h2⟩
      · rw [he]; exact hin
      · exact h2
    have hmge : i ≤ r.2 := by
      rcases hm with he | ⟨h1, _⟩
      · rw [he]
      · omega
    have hminall : ∀ k, i ≤ k → k < n → lget s.arr r.2 ≤ lget s.arr k := by
      intro k hk1 hk2
      rcases Nat.eq_or_lt_of_le hk1 with he | hgt
      · rw [← he]; exact hmin0
      · exact hall k hgt (by omega)
    -- the state after the conditional swap
    by_cases hne : r.2 ≠ i
    · rw [if_pos hne]
      set s2 : SState := { r.1 with arr := lswap r.1.arr i r.2, swaps := r.1.swaps + 1 }
        with hs2
      have harr2 : s2.arr = lswap s.arr i r.2 := by rw [hs2]; simp only [harr]
      have hA : lget s2.arr i = lget s.arr r.2 := by
        rw [harr2]
        exact lget_lswap_fst (fun h => hne (h.symm)) (by omega)
      have hC : lget s2.arr r.2 = lget s.arr i := by
        rw [harr2]
        exact lget_lswap_snd (by omega)
      have hB : ∀ k, k ≠ i → k ≠ r.2 → lget s2.arr k = lget s.arr k := by
        intro k h1 h2
        rw [harr2]
        exact lget_lswap_other h1 h2
      have hlen2 : s2.arr.length = n := by rw [harr2, length_lswap, hlen]
      have hperm2 : List.Perm s2.arr s.arr := by
        rw [harr2]
        exact lswap_perm _ _ _ (by omega) (by omega)
      have hpre2 : ∀ p q, p < q → q < i + 1 → q < n → lget s2.arr p ≤ lget s2.arr q := by
        intro p q hpq hq hqn
        rcases Nat.lt_or_ge q i with hqi | hqi
        · rw [hB p (by omega) (by omega), hB q (by omega) (by omega)]
          exact hpre p q hpq hqi hqn
        · have hqe : q = i := by omega
          subst hqe
          rw [hB p (by omega) (by omega), hA]
          exact hsplit p r.2 hpq hmge hmlt
      have hsplit2 : ∀ p q, p < i + 1 → i + 1 ≤ q → q < n →
          lget s2.arr p ≤ lget s2.arr q := by
        intro p q hp hq hqn
        rcases Nat.lt_or_ge p i with hpi | hpi
        · rw [hB p (by omega) (by omega)]
          by_cases hqm : q = r.2
          · rw [hqm, hC]
            exact hsplit p i hpi (le_refl i) hin
          · rw [hB q (by omega) hqm]
            exact hsplit p q hpi (by omega) hqn
        · have hpe : p = i := by omega
          rw [hpe, hA]
          by_cases hqm : q = r.2
          · rw [hqm, hC]
            exact hminall i (le_refl i) hin
          · rw [hB q (by omega) hqm]
            exact hminall q (by omega) hqn
      obtain ⟨rlen, rperm, rsorted⟩ := ih (i + 1) s2 hlen2 (by omega) hpre2 hsplit2
      exact ⟨rlen, rperm.trans hperm2, rsorted⟩
    · rw [if_neg hne]
      have hie : r.2 = i := not_not.mp hne
      have hpre2 : ∀ p q, p < q → q < i + 1 → q < n → lget r.1.arr p ≤ lget r.1.arr q := by
        intro p q hpq hq hqn
        rw [harr]
        rcases Nat.lt_or_ge q i with hqi | hqi
        · exact hpre p q hpq hqi hqn
        · have hqe : q = i := by omega
          subst hqe
          exact hsplit p q hpq (le_refl _) hqn
      have hsplit2 : ∀ p q, p < i + 1 → i + 1 ≤ q → q < n →
          lget r.1.arr p ≤ lget r.1.arr q := by
        intro p q hp hq hqn
        rw [harr]
        rcases Nat.lt_or_ge p i with hpi | hpi
        · exact hsplit p q hpi (by omega) hqn
        · have hpe : p = i := by omega
          subst hpe
          have := hminall q (by omega) hqn
          rw [hie] at this
          exact this
      obtain ⟨rlen, rperm, rsorted⟩ :=
        ih (i + 1) r.1 (by rw [harr, hlen]) (by omega) hpre2 hsplit2
      refine ⟨rlen, rperm.trans (by rw [harr]), rsorted⟩

theorem selection_sort_correct (s : SState) :
    List.Perm (selection_sort s).arr s.arr ∧ (selection_sort s).arr.Sorted (· ≤ ·) := by
  obtain ⟨rlen, rperm, rsorted⟩ :=
    selOuter_spec s.arr.length s.arr.length 0 s rfl (by omega)
      (fun p q hpq hq hqn => absurd hq (by omega))
      (fun p q hp hq hqn => absurd hp (by omega))
  rw [selection_sort]
  refine ⟨rperm, ?_⟩
  rw [sortedLe_iff]
  intro p q hpq hq
  exact rsorted p q hpq (by rw [← rlen]; exact hq)

/-! ## More lemmas on indexed reads -/

theorem lget_append_left {l1 l2 : List Nat} {k : Nat} (h : k < l1.length) :
    lget (l1 ++ l2) k = lget l1 k :=
  List.getD_append l1 l2 0 k h

theorem lget_append_right {l1 l2 : List Nat} {k : Nat} (h : l1.length ≤ k) :
    lget (l1 ++ l2) k = lget l2 (k - l1.length) :=
  List.getD_append_right l1 l2 0 k h

theorem lget_take {l : List Nat} {m k : Nat} (h : k < m) :
    lget (l.take m) k = lget l k := by
  by_cases hk : k < l.length
  · rw [lget, List.getD_eq_getElem _ _ (by simp; omega), lget, List.getD_eq_getElem _ _ hk]
    exact List.getElem_take l
  · rw [lget, List.getD_eq_default _ _ (by simp; omega), lget,
      List.getD_eq_default _ _ (by omega)]

theorem lget_drop (l : List Nat) (m k : Nat) :
    lget (l.drop m) k = lget l (m + k) := by
  by_cases hk : m + k < l.length
  · rw [lget, List.getD_eq_getElem _ _ (by simp; omega), lget, List.getD_eq_getElem _ _ hk]
    exact List.getElem_drop l
  · rw [lget, List.getD_eq_default _ _ (by simp; omega), lget,
      List.getD_eq_default _ _ (by omega)]

theorem lget_cons_zero (x : Nat) (t : List Nat) : lget (x :: t) 0 = x := rfl

theorem lget_cons_succ (x : Nat) (t : List Nat) (k : Nat) :
    lget (x :: t) (k + 1) = lget t k := rfl

theorem take_succ_lget {l : List Nat} {n : Nat} (h : n < l.length) :
    l.take (n + 1) = l.take n ++ [lget l n] := by
  rw [List.take_succ, List.getElem?_eq_getElem h]
  rw [lget, List.getD_eq_getElem _ _ h]
  rfl

theorem drop_cons_lget {l : List Nat} {n : Nat} (h : n < l.length) :
    l.drop n = lget l n :: l.drop (n + 1) := by
  rw [List.drop_eq_getElem_cons h, lget, List.getD_eq_getElem _ _ h]

/-! ## Insertion Sort correctness -/

theorem insWhile_spec (a0 : List Nat) (i key : Nat) (hi : i < a0.length) :
    ∀ (jp : Nat) (s : SState), jp ≤ i →
    s.arr = a0.take (jp + 1) ++ ((a0.drop jp).take (i - jp) ++ a0.drop (i + 1)) →
    (∀ k, jp ≤ k → k < i → lget a0 k > key) →
    (insWhile key s jp).2 ≤ jp ∧
    (insWhile key s jp).1.arr
      = a0.take ((insWhile key s jp).2 + 1)
        ++ ((a0.drop (insWhile key s jp).2).take (i - (insWhile key s jp).2)
            ++ a0.drop (i + 1)) ∧
    ((insWhile key s jp).2 = 0 ∨ lget a0 ((insWhile key s jp).2 - 1) ≤ key) ∧
    (∀ k, (insWhile key s jp).2 ≤ k → k < i → lget a0 k > key) ∧
    (insWhile key s jp).1.comparisons + s.swaps
      = s.comparisons + (insWhile key s jp).1.swaps := by
  intro jp
  induction jp with
  | zero =>
    intro s _ hshape hprops
    exact ⟨le_refl _, hshape, Or.inl rfl, hprops, rfl⟩
  | succ jp ih =>
    intro s hjp hshape hprops
    have hjlen : jp + 1 < a0.length := by omega
    have htlen : (a0.take (jp + 1 + 1)).length = jp + 2 := by
      simp
      omega
    have hread : lget s.arr jp = lget a0 jp := by
      rw [hshape,
        @lget_append_left (a0.take (jp + 1 + 1))
          ((a0.drop (jp + 1)).take (i - (jp + 1)) ++ a0.drop (i + 1)) jp
          (by rw [htlen]; omega),
        @lget_take a0 (jp + 1 + 1) jp (by omega)]
    rw [insWhile]
    by_cases hgt : lget s.arr jp > key
    · simp only [hgt, if_true]
      have hshape2 : (s.arr.set (jp + 1) (lget s.arr jp))
          = a0.take (jp + 1) ++ ((a0.drop jp).take (i - jp) ++ a0.drop (i + 1)) := by
        rw [hread, hshape]
        rw [List.set_append,
          if_pos (show jp + 1 < (a0.take (jp + 1 + 1)).length by rw [htlen]; omega)]
        rw [take_succ_lget hjlen, List.set_append]
        have hlen1 : (a0.take (jp + 1)).length = jp + 1 := by simp; omega
        rw [if_neg (show ¬ jp + 1 < (a0.take (jp + 1)).length by rw [hlen1]; omega)]
        rw [hlen1]
        have he0 : jp + 1 - (jp + 1) = 0 := by omega
        rw [he0]
        show a0.take (jp + 1) ++ [lget a0 jp] ++ _ = _
        have hseg : (a0.drop jp).take (i - jp)
            = lget a0 jp :: (a0.drop (jp + 1)).take (i - (jp + 1)) := by
          rw [drop_cons_lget (show jp < a0.length by omega)]
          have he1 : i - jp = (i - (jp + 1)) + 1 := by omega
          rw [he1]
          rfl
        rw [hseg]
        simp
      have hprops2 : ∀ k, jp ≤ k → k < i → lget a0 k > key := by
        intro k hk1 hk2
        rcases Nat.eq_or_lt_of_le hk1 with he | hl
        · rw [← he]
          rw [hread] at hgt
          exact hgt
        · exact hprops k hl hk2
      obtain ⟨h1, h2, h3, h4, h5⟩ := ih
        { s with comparisons := s.comparisons + 1,
                 arr := s.arr.set (jp + 1) (lget s.arr jp),
                 swaps := s.swaps + 1 }
        (by omega) hshape2 hprops2
      refine ⟨le_trans h1 (by omega), h2, h3, h4, ?_⟩
      simp only [] at h5
      omega
    · simp only [hgt, if_false]
      refine ⟨le_refl _, hshape, ?_, hprops, by trivial⟩
      right
      have he : jp + 1 - 1 = jp := by omega
      rw [he, ← hread]
      exact le_of_not_lt hgt

theorem insStep_spec (s : SState) (i : Nat) (hi : i < s.arr.length) :
    (insWhile (lget s.arr i) s i).2 ≤ i ∧
    ((insWhile (lget s.arr i) s i).1.arr.set (insWhile (lget s.arr i) s i).2
        (lget s.arr i)).length = s.arr.length ∧
    List.Perm ((insWhile (lget s.arr i) s i).1.arr.set (insWhile (lget s.arr i) s i).2
        (lget s.arr i)) s.arr ∧
    (∀ k, k < (insWhile (lget s.arr i) s i).2 →
      lget ((insWhile (lget s.arr i) s i).1.arr.set (insWhile (lget s.arr i) s i).2
        (lget s.arr i)) k = lget s.arr k) ∧
    lget ((insWhile (lget s.arr i) s i).1.arr.set (insWhile (lget s.arr i) s i).2
        (lget s.arr i)) (insWhile (lget s.arr i) s i).2 = lget s.arr i ∧
    (∀ k, (insWhile (lget s.arr i) s i).2 < k → k ≤ i →
      lget ((insWhile (lget s.arr i) s i).1.arr.set (insWhile (lget s.arr i) s i).2
        (lget s.arr i)) k = lget s.arr (k - 1)) ∧
    (∀ k, i < k →
      lget ((insWhile (lget s.arr i) s i).1.arr.set (insWhile (lget s.arr i) s i).2
        (lget s.arr i)) k = lget s.arr k) ∧
    ((insWhile (lget s.arr i) s i).2 = 0 ∨
      lget s.arr ((insWhile (lget s.arr i) s i).2 - 1) ≤ lget s.arr i) ∧
    (∀ k, (insWhile (lget s.arr i) s i).2 ≤ k → k < i →
      lget s.arr k > lget s.arr i) ∧
    (insWhile (lget s.arr i) s i).1.comparisons + s.swaps
      = s.comparisons + (insWhile (lget s.arr i) s i).1.swaps := by
  set a0 := s.arr with ha0
  set key := lget a0 i with hkey
  have hshape0 : s.arr = a0.take (i + 1) ++ ((a0.drop i).take (i - i) ++ a0.drop (i + 1)) := by
    have h0 : i - i = 0 := by omega
    rw [h0]
    simp only [List.take_zero, List.nil_append]
    have : a0.take (i + 1) ++ a0.drop (i + 1) = a0 := List.take_append_drop (i + 1) a0
    rw [this]
  obtain ⟨hle, hshape, hexit, hprops, hcnt⟩ :=
    insWhile_spec a0 i key hi i s (le_refl i) hshape0
      (fun k h1 h2 => absurd (lt_of_le_of_lt h1 h2) (lt_irrefl i))
  set jf := (insWhile key s i).2 with hjf
  set t := (insWhile key s i).1 with ht
  have hjflen : jf < a0.length := by omega
  have htlen1 : (a0.take (jf + 1)).length = jf + 1 := by simp; omega
  have htlenjf : (a0.take jf).length = jf := by simp; omega
  have hseglen : ((a0.drop jf).take (i - jf)).length = i - jf := by simp; omega
  -- the final array in explicit form
  have hfinal : t.arr.set jf key
      = a0.take jf ++ (key :: ((a0.drop jf).take (i - jf) ++ a0.drop (i + 1))) := by
    rw [hshape]
    rw [List.set_append, if_pos (show jf < (a0.take (jf + 1)).length by rw [htlen1]; omega)]
    rw [take_succ_lget hjflen, List.set_append,
      if_neg (show ¬ jf < (a0.take jf).length by rw [htlenjf]; omega)]
    rw [htlenjf]
    have he0 : jf - jf = 0 := by omega
    rw [he0]
    simp
  have hwA : ∀ k, k < jf → lget (t.arr.set jf key) k = lget a0 k := by
    intro k hk
    rw [hfinal, lget_append_left (by rw [htlenjf]; omega), lget_take (by omega)]
  have hwB : lget (t.arr.set jf key) jf = key := by
    rw [hfinal, lget_append_right (by rw [htlenjf])]
    rw [htlenjf]
    have : jf - jf = 0 := by omega
    rw [this, lget_cons_zero]
  have hwC : ∀ k, jf < k → k ≤ i → lget (t.arr.set jf key) k = lget a0 (k - 1) := by
    intro k hk1 hk2
    rw [hfinal, lget_append_right (by rw [htlenjf]; omega), htlenjf]
    have he1 : k - jf = (k - jf - 1) + 1 := by omega
    rw [he1, lget_cons_succ]
    rw [lget_append_left (by rw [hseglen]; omega), lget_take (by omega), lget_drop]
    have he2 : jf + (k - jf - 1) = k - 1 := by omega
    rw [he2]
  have hwD : ∀ k, i < k → lget (t.arr.set jf key) k = lget a0 k := by
    intro k hk
    rw [hfinal, lget_append_right (by rw [htlenjf]; omega), htlenjf]
    have he1 : k - jf = (k - jf - 1) + 1 := by omega
    rw [he1, lget_cons_succ]
    rw [lget_append_right (by rw [hseglen]; omega), hseglen, lget_drop]
    have he2 : i + 1 + (k - jf - 1 - (i - jf)) = k := by omega
    rw [he2]
  have hperm : List.Perm (t.arr.set jf key) a0 := by
    rw [hfinal]
    have hsplit : a0 = a0.take jf
        ++ ((a0.drop jf).take (i - jf) ++ (key :: a0.drop (i + 1))) := by
      conv_lhs => rw [← List.take_append_drop jf a0]
      congr 1
      conv_lhs => rw [← List.take_append_drop (i - jf) (a0.drop jf)]
      congr 1
      rw [List.drop_drop]
      have he3 : jf + (i - jf) = i := by omega
      rw [he3]
      rw [drop_cons_lget hi, hkey]
    conv_rhs => rw [hsplit]
    apply List.Perm.append_left
    exact (List.perm_middle).symm
  refine ⟨hle, ?_, hperm, hwA, by rw [hwB], hwC, hwD, ?_, ?_, hcnt⟩
  · rw [hperm.length_eq]
  · exact hexit
  · intro k h1 h2
    exact hprops k h1 h2

theorem insOuter_spec (n : Nat) : ∀ (rem i : Nat) (s : SState),
    s.arr.length = n → i + rem = n → 1 ≤ i →
    (∀ p q, p < q → q < i → lget s.arr p ≤ lget s.arr q) →
    (insOuter s i rem).arr.length = n ∧
    List.Perm (insOuter s i rem).arr s.arr ∧
    (∀ p q, p < q → q < n →
      lget (insOuter s i rem).arr p ≤ lget (insOuter s i rem).arr q) ∧
    (insOuter s i rem).comparisons + s.swaps
      = s.comparisons + (insOuter s i rem).swaps := by
  intro rem
  induction rem with
  | zero =>
    intro i s hlen hi _ hpre
    exact ⟨hlen, List.Perm.refl _, fun p q hpq hq => hpre p q hpq (by omega), rfl⟩
  | succ rem ih =>
    intro i s hlen hi h1i hpre
    have hin : i < n := by omega
    simp only [insOuter]
    obtain ⟨hle, hslen, hperm, hwA, hwB, hwC, hwD, hexit, hprops, hcnt⟩ :=
      insStep_spec s i (by omega)
    set key := lget s.arr i with hkey
    set jf := (insWhile key s i).2 with hjf
    set t := (insWhile key s i).1 with ht
    set s2 : SState := { t with arr := t.arr.set jf key } with hs2
    have hs2arr : s2.arr = t.arr.set jf key := rfl
    have hs2len : s2.arr.length = n := by rw [hs2arr, hslen, hlen]
    have hpre2 : ∀ p q, p < q → q < i + 1 → lget s2.arr p ≤ lget s2.arr q := by
      intro p q hpq hq
      rw [hs2arr]
      rcases Nat.lt_or_ge q jf with hqf | hqf
      · rw [hwA p (by omega), hwA q (by omega)]
        exact hpre p q hpq (by omega)
      · rcases Nat.eq_or_lt_of_le hqf with hqe | hql
        · rw [← hqe, hwB, hwA p (by omega)]
          rcases hexit with h0 | hle'
          · exact absurd hpq (by omega)
          · rcases Nat.eq_or_lt_of_le (show p ≤ jf - 1 by omega) with hpe | hpl
            · rw [hpe]
              exact hle'
            · exact le_trans (hpre p (jf - 1) hpl (by omega)) hle'
        · rw [hwC q (by omega) (by omega)]
          rcases Nat.lt_or_ge p jf with hpf | hpf
          · rw [hwA p (by omega)]
            exact hpre p (q - 1) (by omega) (by omega)
          · rcases Nat.eq_or_lt_of_le hpf with hpe | hpl
            · rw [← hpe, hwB]
              exact le_of_lt (hprops (q - 1) (by omega) (by omega))
            · rw [hwC p (by omega) (by omega)]
              exact hpre (p - 1) (q - 1) (by omega) (by omega)
    obtain ⟨rlen, rperm, rsorted, rcnt⟩ := ih (i + 1) s2 hs2len (by omega) (by omega) hpre2
    refine ⟨rlen, rperm.trans (by rw [hs2arr]; exact hperm), rsorted, ?_⟩
    have hc2 : s2.comparisons = t.comparisons := rfl
    have hw2 : s2.swaps = t.swaps := rfl
    rw [hc2, hw2] at rcnt
    omega

theorem insertion_sort_correct (s : SState) :
    List.Perm (insertion_sort s).arr s.arr ∧
    (insertion_sort s).arr.Sorted (· ≤ ·) ∧
    (insertion_sort s).comparisons + s.swaps
      = s.comparisons + (insertion_sort s).swaps := by
  rw [insertion_sort]
  rcases Nat.eq_zero_or_pos s.arr.length with h0 | hpos
  · have he : s.arr.length - 1 = 0 := by omega
    rw [he]
    have harr : s.arr = [] := List.length_eq_zero.mp h0
    exact ⟨List.Perm.refl _, by rw [show (insOuter s 1 0) = s from rfl, harr]; exact
      List.sorted_nil, rfl⟩
  · obtain ⟨rlen, rperm, rsorted, rcnt⟩ :=
      insOuter_spec s.arr.length (s.arr.length - 1) 1 s rfl (by omega) (le_refl 1)
        (fun p q hpq hq => by omega)
    refine ⟨rperm, ?_, rcnt⟩
    rw [sortedLe_iff]
    intro p q hpq hq
    exact rsorted p q hpq (by rw [← rlen]; exact hq)

/-! ## Claim C5: comparison-counter semantics -/

theorem countUp_spec : ∀ (l : List Nat) (s : SState) (count : List Nat),
    (countUp s count l).1.comparisons = s.comparisons + l.length ∧
    (countUp s count l).1.arr = s.arr ∧
    (countUp s count l).1.swaps = s.swaps := by
  intro l
  induction l with
  | nil => intro s count; exact ⟨rfl, rfl, rfl⟩
  | cons v rest ih =>
    intro s count
    rw [countUp]
    obtain ⟨h1, h2, h3⟩ := ih { s with comparisons := s.comparisons + 1 }
      (count.set v (lget count v + 1))
    refine ⟨?_, h2, h3⟩
    rw [h1]
    simp
    omega

theorem rebuildVal_comparisons (v : Nat) : ∀ (c : Nat) (s : SState) (idx : Nat),
    (rebuildVal v s idx c).1.comparisons = s.comparisons := by
  intro c
  induction c with
  | zero => intro s idx; rfl
  | succ c ih =>
    intro s idx
    rw [rebuildVal]
    rw [ih]

theorem rebuildLoop_comparisons : ∀ (cs : List Nat) (s : SState) (idx v : Nat),
    (rebuildLoop s idx v cs).comparisons = s.comparisons := by
  intro cs
  induction cs with
  | nil => intro s idx v; rfl
  | cons c rest ih =>
    intro s idx v
    rw [rebuildLoop, ih, rebuildVal_comparisons]

theorem countingRun_comparisons (l : List Nat) :
    (countingRun l).comparisons = l.length := by
  rw [countingRun, counting_sort]
  by_cases h : (⟨l, 0, 0⟩ : SState).arr = []
  · rw [if_pos h]
    have : l = [] := h
    rw [this]
    simp
  · rw [if_neg h]
    rw [rebuildLoop_comparisons]
    have := (countUp_spec (⟨l, 0, 0⟩ : SState).arr ⟨l, 0, 0⟩
      (List.replicate (maxOf (⟨l, 0, 0⟩ : SState).arr + 1) 0)).1
    rw [this]
    simp

/-- Counterexample for C5: on the input `[1, 2]` Insertion Sort actually
evaluates one element-vs-element comparison (`a[0] > key` fails and ends
the shifting loop), yet the comparisons counter of the run stays 0 — the
counter misses comparisons that are performed. -/
theorem claim_C5_counterexample :
    actualComparisonsInsertion [1, 2] = 1 ∧ (insertionRun [1, 2]).comparisons = 0 := by
  decide

/-- C5 (amended): the comparisons counter does not count every
element-vs-element comparison performed: in Insertion Sort it counts only
the comparisons that are followed by a shift, so it always equals the
writes counter (the final failing guard comparison of each shifting loop
goes uncounted); in Counting Sort it is incremented once per element while
tallying occurrences, although no element-vs-element comparison happens
there at all (it equals the array length). -/
theorem claim_C5_counter_semantics (l : List Nat) :
    (insertionRun l).comparisons = (insertionRun l).swaps ∧
    (countingRun l).comparisons = l.length := by
  constructor
  · have h := (insertion_sort_correct ⟨l, 0, 0⟩).2.2
    simpa using h
  · exact countingRun_comparisons l

/-! ## Merge Sort correctness -/

theorem slice_eq_drop_take (l : List Nat) (a b : Nat) :
    slice l a b = (l.take (b + 1)).drop a := by
  rw [slice, List.drop_take]

theorem slice_length {l : List Nat} {a b : Nat} (hb : b < l.length) (hab : a ≤ b + 1) :
    (slice l a b).length = b + 1 - a := by
  rw [slice]
  simp
  omega

theorem slice_decomp {l : List Nat} {a b : Nat} (hab : a ≤ b + 1) :
    l = l.take a ++ (slice l a b ++ l.drop (b + 1)) := by
  conv_lhs => rw [← List.take_append_drop a l]
  congr 1
  rw [slice]
  conv_lhs => rw [← List.take_append_drop (b + 1 - a) (l.drop a)]
  congr 1
  rw [List.drop_drop]
  congr 1
  omega

theorem slice_split {l : List Nat} {left mid right : Nat}
    (h1 : left ≤ mid) (h2 : mid ≤ right) :
    slice l left right = slice l left mid ++ slice l (mid + 1) right := by
  rw [slice, slice, slice]
  have he : right + 1 - left = (mid + 1 - left) + (right - mid) := by omega
  rw [he, List.take_add, List.drop_drop]
  have he2 : left + (mid + 1 - left) = mid + 1 := by omega
  rw [he2]
  have he3 : right - mid = right + 1 - (mid + 1) := by omega
  rw [he3]

theorem slice_congr_take {l1 l2 : List Nat} {a b : Nat}
    (h : l1.take (b + 1) = l2.take (b + 1)) : slice l1 a b = slice l2 a b := by
  rw [slice_eq_drop_take, slice_eq_drop_take, h]

theorem slice_congr_drop {l1 l2 : List Nat} {a b : Nat}
    (h : l1.drop a = l2.drop a) : slice l1 a b = slice l2 a b := by
  rw [slice, slice, h]

theorem sorted_of_length_le_one {l : List Nat} (h : l.length ≤ 1) :
    l.Sorted (· ≤ ·) := by
  match l, h with
  | [], _ => exact List.sorted_nil
  | [a], _ => exact List.sorted_singleton a

theorem mergeL_nil_left (ys : List Nat) : mergeL [] ys = ys := by
  simp [mergeL]

theorem mergeL_nil_right (xs : List Nat) : mergeL xs [] = xs := by
  cases xs <;> simp [mergeL]

theorem mergeL_cons_cons (x y : Nat) (xs ys : List Nat) :
    mergeL (x :: xs) (y :: ys)
      = if x ≤ y then x :: mergeL xs (y :: ys) else y :: mergeL (x :: xs) ys := by
  simp [mergeL]

theorem mergeL_perm : ∀ (xs ys : List Nat), List.Perm (mergeL xs ys) (xs ++ ys) := by
  intro xs
  induction xs with
  | nil => intro ys; rw [mergeL_nil_left]; simp
  | cons x xs ihx =>
    intro ys
    induction ys with
    | nil => rw [mergeL_nil_right]; simp
    | cons y ys ihy =>
      rw [mergeL_cons_cons]
      by_cases h : x ≤ y
      · rw [if_pos h]
        exact (ihx (y :: ys)).cons x
      · rw [if_neg h]
        exact ((ihy.cons y).trans (List.Perm.swap x y _)).trans
          ((List.perm_middle.symm).cons x)

theorem mergeL_length (xs ys : List Nat) :
    (mergeL xs ys).length = xs.length + ys.length := by
  have := (mergeL_perm xs ys).length_eq
  simpa using this

theorem mergeL_mem {z : Nat} : ∀ {xs ys : List Nat}, z ∈ mergeL xs ys → z ∈ xs ∨ z ∈ ys := by
  intro xs ys hz
  have := (mergeL_perm xs ys).mem_iff.mp hz
  exact List.mem_append.mp this

theorem mergeL_sorted : ∀ (xs ys : List Nat), xs.Sorted (· ≤ ·) → ys.Sorted (· ≤ ·) →
    (mergeL xs ys).Sorted (· ≤ ·) := by
  intro xs
  induction xs with
  | nil => intro ys _ hy; rw [mergeL_nil_left]; exact hy
  | cons x xs ihx =>
    intro ys hx hy
    induction ys with
    | nil => rw [mergeL_nil_right]; exact hx
    | cons y ys ihy =>
      rw [mergeL_cons_cons]
      obtain ⟨hxb, hxs⟩ := List.sorted_cons.mp hx
      obtain ⟨hyb, hys⟩ := List.sorted_cons.mp hy
      by_cases h : x ≤ y
      · rw [if_pos h]
        rw [List.sorted_cons]
        refine ⟨?_, ihx (y :: ys) hxs hy⟩
        intro b hb
        rcases mergeL_mem hb with hbx | hby
        · exact hxb b hbx
        · rcases List.mem_cons.mp hby with rfl | hbin
          · exact h
          · exact le_trans h (hyb b hbin)
      · rw [if_neg h]
        rw [List.sorted_cons]
        refine ⟨?_, ihy hys⟩
        intro b hb
        rcases mergeL_mem hb with hbx | hby
        · rcases List.mem_cons.mp hbx with rfl | hbin
          · exact le_of_not_le h
          · exact le_trans (le_of_not_le h) (hxb b hbin)
        · exact hyb b hby

theorem mergeL_sorted_append : ∀ (xs ys : List Nat),
    (xs ++ ys).Sorted (· ≤ ·) → mergeL xs ys = xs ++ ys := by
  intro xs
  induction xs with
  | nil => intro ys _; rw [mergeL_nil_left]; rfl
  | cons x xs ihx =>
    intro ys hs
    cases ys with
    | nil => rw [mergeL_nil_right, List.append_nil]
    | cons y ys =>
      rw [mergeL_cons_cons]
      obtain ⟨hxb, hrest⟩ := List.sorted_cons.mp hs
      have hxy : x ≤ y := hxb y (by simp)
      rw [if_pos hxy, ihx (y :: ys) hrest]
      rfl

theorem mergeLoop_arr : ∀ (fuel : Nat) (xs ys : List Nat) (s : SState) (k : Nat),
    xs.length + ys.length ≤ fuel →
    (mergeLoop fuel s xs ys k).arr = setSeq s.arr k (mergeL xs ys) := by
  intro fuel
  induction fuel with
  | zero =>
    intro xs ys s k h
    match xs, ys with
    | [], [] => rw [mergeLoop, mergeL_nil_left]; rfl
    | x :: xs, _ => simp at h
    | [], y :: ys => simp at h
  | succ fuel ih =>
    intro xs ys s k h
    match xs, ys with
    | [], [] => rw [mergeLoop, mergeL_nil_left]; rfl
    | [], y :: ys =>
      rw [mergeLoop, mergeL_nil_left]
      have hrec := ih [] ys
        { s with arr := s.arr.set k y, swaps := s.swaps + 1 } (k + 1)
        (by simp at h ⊢; omega)
      rw [mergeL_nil_left] at hrec
      rw [hrec]
      rfl
    | x :: xs, [] =>
      rw [mergeLoop, mergeL_nil_right]
      have hrec := ih xs []
        { s with arr := s.arr.set k x, swaps := s.swaps + 1 } (k + 1)
        (by simp at h ⊢; omega)
      rw [mergeL_nil_right] at hrec
      rw [hrec]
      rfl
    | x :: xs, y :: ys =>
      rw [mergeLoop, mergeL_cons_cons]
      by_cases hxy : x ≤ y
      · simp only [hxy, if_true]
        rw [ih xs (y :: ys) _ (k + 1) (by simp at h ⊢; omega)]
        rfl
      · simp only [hxy, if_false]
        rw [ih (x :: xs) ys _ (k + 1) (by simp at h ⊢; omega)]
        rfl

theorem take_eq_of_take_eq {l1 l2 : List Nat} {m k : Nat}
    (h : l1.take m = l2.take m) (hk : k ≤ m) : l1.take k = l2.take k := by
  have h1 : l1.take k = (l1.take m).take k := by
    rw [List.take_take]
    congr 1
    omega
  have h2 : l2.take k = (l2.take m).take k := by
    rw [List.take_take]
    congr 1
    omega
  rw [h1, h2, h]

theorem drop_eq_of_drop_eq {l1 l2 : List Nat} {m k : Nat}
    (h : l1.drop m = l2.drop m) (hk : m ≤ k) : l1.drop k = l2.drop k := by
  have h1 : l1.drop k = (l1.drop m).drop (k - m) := by
    rw [List.drop_drop]
    congr 1
    omega
  have h2 : l2.drop k = (l2.drop m).drop (k - m) := by
    rw [List.drop_drop]
    congr 1
    omega
  rw [h1, h2, h]

theorem mergeStep_arr (s : SState) (left mid right : Nat)
    (h1 : left ≤ mid) (h2 : mid ≤ right) (h3 : right < s.arr.length) :
    (mergeStep s left mid right).arr
      = s.arr.take left
        ++ mergeL (slice s.arr left mid) (slice s.arr (mid + 1) right)
        ++ s.arr.drop (right + 1) := by
  rw [mergeStep, mergeLoop_arr _ _ _ _ _ (le_refl _)]
  have hlA : (s.arr.drop left).take (mid + 1 - left) = slice s.arr left mid := rfl
  have hrA : (s.arr.drop (mid + 1)).take (right + 1 - (mid + 1))
      = slice s.arr (mid + 1) right := rfl
  rw [hlA, hrA]
  have hlen : (mergeL (slice s.arr left mid) (slice s.arr (mid + 1) right)).length
      = right + 1 - left := by
    rw [mergeL_length, slice_length (by omega) (by omega), slice_length h3 (by omega)]
    omega
  have hle' : left
      + (mergeL (slice s.arr left mid) (slice s.arr (mid + 1) right)).length
      ≤ s.arr.length := by
    rw [hlen]
    omega
  rw [setSeq_eq _ _ _ hle']
  have he : left + (mergeL (slice s.arr left mid) (slice s.arr (mid + 1) right)).length
      = right + 1 := by
    rw [hlen]
    omega
  rw [he]

theorem mergeStep_length (s : SState) (left mid right : Nat) :
    (mergeStep s left mid right).arr.length = s.arr.length := by
  rw [mergeStep, mergeLoop_arr _ _ _ _ _ (le_refl _), length_setSeq]

theorem merge_sortF_spec : ∀ (fuel : Nat) (s : SState) (left right : Nat),
    right < s.arr.length → right + 1 - left ≤ fuel →
    (merge_sortF fuel s left right).arr.length = s.arr.length ∧
    (merge_sortF fuel s left right).arr.take left = s.arr.take left ∧
    (merge_sortF fuel s left right).arr.drop (right + 1) = s.arr.drop (right + 1) ∧
    List.Perm (slice (merge_sortF fuel s left right).arr left right)
      (slice s.arr left right) ∧
    (slice (merge_sortF fuel s left right).arr left right).Sorted (· ≤ ·) := by
  intro fuel
  induction fuel with
  | zero =>
    intro s left right hr hf
    have he : slice s.arr left right = [] := by
      rw [slice]
      have : right + 1 - left = 0 := by omega
      rw [this, List.take_zero]
    have h00 : merge_sortF 0 s left right = s := rfl
    refine ⟨rfl, rfl, rfl, List.Perm.refl _, ?_⟩
    rw [h00, he]
    exact List.sorted_nil
  | succ fuel ih =>
    intro s left right hr hf
    rw [merge_sortF]
    by_cases hlr : left < right
    · simp only [hlr, if_true]
      have hm1 : left ≤ (left + right) / 2 := by omega
      have hm2 : (left + right) / 2 < right := by omega
      set mid := (left + right) / 2 with hmid
      obtain ⟨L1, T1, D1, P1, S1⟩ := ih s left mid (by omega) (by omega)
      set s1 := merge_sortF fuel s left mid with hs1
      obtain ⟨L2, T2, D2, P2, S2⟩ := ih s1 (mid + 1) right (by omega) (by omega)
      set s2 := merge_sortF fuel s1 (mid + 1) right with hs2
      have hlen2 : s2.arr.length = s.arr.length := by rw [L2, L1]
      have hlA : slice s2.arr left mid = slice s1.arr left mid := slice_congr_take T2
      have hlA_sorted : (slice s2.arr left mid).Sorted (· ≤ ·) := by rw [hlA]; exact S1
      have hstep := mergeStep_arr s2 left mid right hm1 (le_of_lt hm2) (by omega)
      set M := mergeL (slice s2.arr left mid) (slice s2.arr (mid + 1) right) with hM
      have hMlen : M.length = right + 1 - left := by
        rw [hM, mergeL_length, slice_length (by omega) (by omega),
          slice_length (by omega) (by omega)]
        omega
      have htakelen : (s2.arr.take left).length = left := by simp; omega
      refine ⟨?_, ?_, ?_, ?_, ?_⟩
      · rw [mergeStep_length, hlen2]
      · rw [hstep, List.append_assoc, List.take_left' htakelen]
        have e1 : s2.arr.take left = s1.arr.take left :=
          take_eq_of_take_eq T2 (by omega)
        have e2 : s1.arr.take left = s.arr.take left :=
          take_eq_of_take_eq T1 (by omega)
        rw [e1, e2]
      · rw [hstep]
        have hlen3 : (s2.arr.take left ++ M).length = right + 1 := by
          simp only [List.length_append, htakelen, hMlen]
          omega
        rw [List.drop_left' hlen3]
        have e1 : s2.arr.drop (right + 1) = s1.arr.drop (right + 1) := D2
        have e2 : s1.arr.drop (right + 1) = s.arr.drop (right + 1) :=
          drop_eq_of_drop_eq D1 (by omega)
        rw [e1, e2]
      · have hsliceR : slice (mergeStep s2 left mid right).arr left right = M := by
          rw [hstep, slice, List.append_assoc, List.drop_left' htakelen,
            List.take_left' (by rw [hMlen])]
        rw [hsliceR]
        refine (mergeL_perm _ _).trans ?_
        have hP1 : List.Perm (slice s2.arr left mid) (slice s.arr left mid) := by
          rw [hlA]
          exact P1
        have hP2 : List.Perm (slice s2.arr (mid + 1) right) (slice s.arr (mid + 1) right) := by
          refine P2.trans ?_
          rw [@slice_congr_drop _ s.arr _ _ D1]
        refine (hP1.append hP2).trans ?_
        rw [← slice_split hm1 (le_of_lt hm2)]
      · have hsliceR : slice (mergeStep s2 left mid right).arr left right = M := by
          rw [hstep, slice, List.append_assoc, List.drop_left' htakelen,
            List.take_left' (by rw [hMlen])]
        rw [hsliceR, hM]
        exact mergeL_sorted _ _ hlA_sorted S2
    · simp only [hlr, if_false]
      have hle1 : (slice s.arr left right).length ≤ 1 := by
        rw [slice]
        simp
        omega
      exact ⟨by trivial, by trivial, by trivial, List.Perm.refl _, sorted_of_length_le_one hle1⟩

theorem merge_sort_correct (s : SState) :
    List.Perm (merge_sort s).arr s.arr ∧ (merge_sort s).arr.Sorted (· ≤ ·) := by
  rw [merge_sort]
  rcases Nat.eq_zero_or_pos s.arr.length with h0 | hpos
  · rw [h0]
    have harr : s.arr = [] := List.length_eq_zero.mp h0
    rw [merge_sortF]
    exact ⟨List.Perm.refl _, by rw [harr]; exact List.sorted_nil⟩
  · obtain ⟨L, T, D, P, S⟩ :=
      merge_sortF_spec s.arr.length s 0 (s.arr.length - 1) (by omega) (by omega)
    set R := merge_sortF s.arr.length s 0 (s.arr.length - 1) with hR
    have hsliceR : slice R.arr 0 (s.arr.length - 1) = R.arr := by
      rw [slice]
      simp only [List.drop_zero]
      have : s.arr.length - 1 + 1 - 0 = s.arr.length := by omega
      rw [this, ← L]
      simp
    have hsliceS : slice s.arr 0 (s.arr.length - 1) = s.arr := by
      rw [slice]
      simp only [List.drop_zero]
      have : s.arr.length - 1 + 1 - 0 = s.arr.length := by omega
      rw [this]
      simp
    rw [hsliceR, hsliceS] at P
    rw [hsliceR] at S
    exact ⟨P, S⟩

theorem merge_sortF_id : ∀ (fuel : Nat) (s : SState) (left right : Nat),
    right < s.arr.length → s.arr.Sorted (· ≤ ·) →
    (merge_sortF fuel s left right).arr = s.arr := by
  intro fuel
  induction fuel with
  | zero => intro s left right _ _; rfl
  | succ fuel ih =>
    intro s left right hr hs
    rw [merge_sortF]
    by_cases hlr : left < right
    · simp only [hlr, if_true]
      have hm1 : left ≤ (left + right) / 2 := by omega
      have hm2 : (left + right) / 2 < right := by omega
      set mid := (left + right) / 2 with hmid
      have e1 : (merge_sortF fuel s left mid).arr = s.arr := ih s left mid (by omega) hs
      have e2 : (merge_sortF fuel (merge_sortF fuel s left mid) (mid + 1) right).arr
          = s.arr := by
        rw [ih (merge_sortF fuel s left mid) (mid + 1) right (by rw [e1]; omega)
          (by rw [e1]; exact hs), e1]
      set s2 := merge_sortF fuel (merge_sortF fuel s left mid) (mid + 1) right with hs2
      have hstep := mergeStep_arr s2 left mid right hm1 (le_of_lt hm2) (by rw [e2]; omega)
      rw [hstep, e2]
      have hsortedSlice : (slice s.arr left right).Sorted (· ≤ ·) := by
        rw [slice]
        exact List.Pairwise.sublist (List.take_sublist _ _)
          (List.Pairwise.sublist (List.drop_sublist _ _) hs)
      have hsplit : slice s.arr left mid ++ slice s.arr (mid + 1) right
          = slice s.arr left right := (slice_split hm1 (le_of_lt hm2)).symm
      rw [mergeL_sorted_append _ _ (by rw [hsplit]; exact hsortedSlice), hsplit]
      rw [List.append_assoc]
      exact (slice_decomp (by omega)).symm
    · simp only [hlr, if_false]

/-! ## Claim C3: Merge Sort on an already sorted array -/

/-- Counterexample for C3: the input `[1, 2]` is already sorted, yet a
Merge Sort run on it performs 2 writes (each merge placement counts one),
not zero. -/
theorem claim_C3_counterexample :
    List.Sorted (· ≤ ·) [1, 2] ∧ (mergeRun [1, 2]).swaps = 2 := by
  constructor
  · decide
  · decide

/-- C3 (amended): running Merge Sort on an already sorted array leaves the
array unchanged (so a second run reproduces the first run's output), but
the run still performs writes — one per element placement of each merge —
so the writes counter of the second run is not zero for arrays of length
at least 2. -/
theorem claim_C3_sorted_identity (l : List Nat) (h : l.Sorted (· ≤ ·)) :
    (mergeRun l).arr = l := by
  rw [mergeRun, merge_sort]
  rcases Nat.eq_zero_or_pos (l : List Nat).length with h0 | hpos
  · have : (⟨l, 0, 0⟩ : SState).arr.length = 0 := h0
    rw [this, merge_sortF]
  · exact merge_sortF_id _ _ 0 _ (by simp; omega) h

/-- Witness for C3 (amended) at the sorted input `[1, 2]`. -/
theorem claim_C3_witness : (mergeRun [1, 2]).arr = [1, 2] :=
  claim_C3_sorted_identity [1, 2] (by decide)

/-! ## Quick Sort correctness -/

theorem partLoop_spec (pivot low high : Nat) : ∀ (rem bi j : Nat) (s : SState),
    low ≤ bi → bi ≤ j → j + rem = high → high < s.arr.length →
    (∀ k, low ≤ k → k < bi → lget s.arr k ≤ pivot) →
    (∀ k, bi ≤ k → k < j → lget s.arr k > pivot) →
    (partLoop pivot s bi j rem).1.arr.length = s.arr.length ∧
    List.Perm (partLoop pivot s bi j rem).1.arr s.arr ∧
    (∀ k, k < low ∨ high ≤ k → lget (partLoop pivot s bi j rem).1.arr k = lget s.arr k) ∧
    bi ≤ (partLoop pivot s bi j rem).2 ∧ (partLoop pivot s bi j rem).2 ≤ high ∧
    (∀ k, low ≤ k → k < (partLoop pivot s bi j rem).2 →
      lget (partLoop pivot s bi j rem).1.arr k ≤ pivot) ∧
    (∀ k, (partLoop pivot s bi j rem).2 ≤ k → k < high →
      lget (partLoop pivot s bi j rem).1.arr k > pivot) ∧
    (∀ b, (∀ k, low ≤ k → k ≤ high → lget s.arr k ≤ b) →
      ∀ k, low ≤ k → k ≤ high → lget (partLoop pivot s bi j rem).1.arr k ≤ b) ∧
    (∀ b, (∀ k, low ≤ k → k ≤ high → b ≤ lget s.arr k) →
      ∀ k, low ≤ k → k ≤ high → b ≤ lget (partLoop pivot s bi j rem).1.arr k) := by
  intro rem
  induction rem with
  | zero =>
    intro bi j s hlb hbj hjr hh hR1 hR2
    have hje : j = high := by omega
    subst hje
    exact ⟨rfl, List.Perm.refl _, fun k _ => rfl, le_refl _, hbj,
      hR1, hR2, fun b hb k h1 h2 => hb k h1 h2, fun b hb k h1 h2 => hb k h1 h2⟩
  | succ rem ih =>
    intro bi j s hlb hbj hjr hh hR1 hR2
    have hjh : j < high := by omega
    have hjlen : j < s.arr.length := by omega
    have hbilen : bi < s.arr.length := by omega
    rw [partLoop]
    by_cases hle : lget s.arr j ≤ pivot
    · simp only [hle, if_true]
      set s2 : SState := { s with
        comparisons := s.comparisons + 1,
        arr := lswap s.arr bi j,
        swaps := s.swaps + 1 } with hs2
      have harr2 : s2.arr = lswap s.arr bi j := rfl
      have hlen2 : s2.arr.length = s.arr.length := by rw [harr2, length_lswap]
      have hget_bi : lget s2.arr bi = lget s.arr j := by
        rw [harr2]
        by_cases hbe : bi = j
        · rw [hbe]
          exact lget_lswap_snd hjlen
        · exact lget_lswap_fst hbe hbilen
      have hget_j : lget s2.arr j = lget s.arr bi := by
        rw [harr2]
        exact lget_lswap_snd hjlen
      have hget_other : ∀ k, k ≠ bi → k ≠ j → lget s2.arr k = lget s.arr k := by
        intro k h1 h2
        rw [harr2]
        exact lget_lswap_other h1 h2
      have hR1' : ∀ k, low ≤ k → k < bi + 1 → lget s2.arr k ≤ pivot := by
        intro k h1 h2
        rcases Nat.lt_or_ge k bi with hk | hk
        · rw [hget_other k (by omega) (by omega)]
          exact hR1 k h1 hk
        · have : k = bi := by omega
          rw [this, hget_bi]
          exact hle
      have hR2' : ∀ k, bi + 1 ≤ k → k < j + 1 → lget s2.arr k > pivot := by
        intro k h1 h2
        rcases Nat.lt_or_ge k j with hk | hk
        · rw [hget_other k (by omega) (by omega)]
          exact hR2 k (by omega) hk
        · have hkj : k = j := by omega
          have hbij : bi < j := by omega
          rw [hkj, hget_j]
          exact hR2 bi (le_refl _) hbij
      obtain ⟨L, P, U, B1, B2, Q1, Q2, BU, BL⟩ :=
        ih (bi + 1) (j + 1) s2 (by omega) (by omega) (by omega)
          (by rw [hlen2]; omega) hR1' hR2'
      refine ⟨by rw [L, hlen2], P.trans (by rw [harr2]; exact lswap_perm _ _ _ hbilen hjlen),
        ?_, by omega, B2, Q1, Q2, ?_, ?_⟩
      · intro k hk
        rw [U k hk, hget_other k (by omega) (by omega)]
      · intro b hb k h1 h2
        refine BU b ?_ k h1 h2
        intro k' h1' h2'
        by_cases hkb : k' = bi
        · rw [hkb, hget_bi]
          exact hb j (by omega) (by omega)
        · by_cases hkj : k' = j
          · rw [hkj, hget_j]
            exact hb bi (by omega) (by omega)
          · rw [hget_other k' hkb hkj]
            exact hb k' h1' h2'
      · intro b hb k h1 h2
        refine BL b ?_ k h1 h2
        intro k' h1' h2'
        by_cases hkb : k' = bi
        · rw [hkb, hget_bi]
          exact hb j (by omega) (by omega)
        · by_cases hkj : k' = j
          · rw [hkj, hget_j]
            exact hb bi (by omega) (by omega)
          · rw [hget_other k' hkb hkj]
            exact hb k' h1' h2'
    · simp only [hle, if_false]
      set s1 : SState := { s with comparisons := s.comparisons + 1 } with hs1
      have harr1 : s1.arr = s.arr := rfl
      have hR2' : ∀ k, bi ≤ k → k < j + 1 → lget s1.arr k > pivot := by
        intro k h1 h2
        rw [harr1]
        rcases Nat.lt_or_ge k j with hk | hk
        · exact hR2 k h1 hk
        · have : k = j := by omega
          rw [this]
          exact lt_of_not_le hle
      obtain ⟨L, P, U, B1, B2, Q1, Q2, BU, BL⟩ :=
        ih bi (j + 1) s1 (by omega) (by omega) (by omega)
          (by rw [show s1.arr = s.arr from rfl]; omega)
          (fun k h1 h2 => by rw [harr1]; exact hR1 k h1 h2) hR2'
      rw [harr1] at P U BU BL
      exact ⟨L, P, U, B1, B2, Q1, Q2, BU, BL⟩

theorem partitionStep_spec (s : SState) (low high : Nat)
    (hlh : low ≤ high) (hh : high < s.arr.length) :
    (partitionStep s low high).1.arr.length = s.arr.length ∧
    List.Perm (partitionStep s low high).1.arr s.arr ∧
    (∀ k, k < low ∨ high < k →
      lget (partitionStep s low high).1.arr k = lget s.arr k) ∧
    low ≤ (partitionStep s low high).2 ∧ (partitionStep s low high).2 ≤ high ∧
    lget (partitionStep s low high).1.arr (partitionStep s low high).2
      = lget s.arr high ∧
    (∀ k, low ≤ k → k < (partitionStep s low high).2 →
      lget (partitionStep s low high).1.arr k ≤ lget s.arr high) ∧
    (∀ k, (partitionStep s low high).2 < k → k ≤ high →
      lget s.arr high < lget (partitionStep s low high).1.arr k) ∧
    (∀ b, (∀ k, low ≤ k → k ≤ high → lget s.arr k ≤ b) →
      ∀ k, low ≤ k → k ≤ high → lget (partitionStep s low high).1.arr k ≤ b) ∧
    (∀ b, (∀ k, low ≤ k → k ≤ high → b ≤ lget s.arr k) →
      ∀ k, low ≤ k → k ≤ high → b ≤ lget (partitionStep s low high).1.arr k) := by
  obtain ⟨L, P, U, B1, B2, Q1, Q2, BU, BL⟩ :=
    partLoop_spec (lget s.arr high) low high (high - low) low low s
      (le_refl _) (le_refl _) (by omega) hh
      (fun k h1 h2 => by omega) (fun k h1 h2 => by omega)
  set pr := partLoop (lget s.arr high) s low low (high - low) with hpr
  have hfst : (partitionStep s low high).1.arr = lswap pr.1.arr pr.2 high := rfl
  have hsnd : (partitionStep s low high).2 = pr.2 := rfl
  have hbilen : pr.2 < pr.1.arr.length := by rw [L]; omega
  have hhlen : high < pr.1.arr.length := by rw [L]; exact hh
  have hpivhi : lget pr.1.arr high = lget s.arr high := U high (Or.inr (le_refl _))
  have hget_p : lget (lswap pr.1.arr pr.2 high) pr.2 = lget s.arr high := by
    by_cases hpe : pr.2 = high
    · rw [hpe, lget_lswap_snd hhlen]
      exact hpivhi
    · rw [lget_lswap_fst hpe hbilen, hpivhi]
  have hget_hi : pr.2 ≠ high →
      lget (lswap pr.1.arr pr.2 high) high = lget pr.1.arr pr.2 := by
    intro _
    exact lget_lswap_snd hhlen
  have hget_other : ∀ k, k ≠ pr.2 → k ≠ high →
      lget (lswap pr.1.arr pr.2 high) k = lget pr.1.arr k := by
    intro k h1 h2
    exact lget_lswap_other h1 h2
  rw [hfst, hsnd]
  refine ⟨by rw [length_lswap, L], (lswap_perm _ _ _ hbilen hhlen).trans P,
    ?_, B1, B2, hget_p, ?_, ?_, ?_, ?_⟩
  · intro k hk
    rw [hget_other k (by omega) (by omega)]
    exact U k (by omega)
  · intro k h1 h2
    rw [hget_other k (by omega) (by omega)]
    exact Q1 k h1 h2
  · intro k h1 h2
    by_cases hke : k = high
    · have hpne : pr.2 ≠ high := by omega
      rw [hke, hget_hi hpne]
      exact Q2 pr.2 (le_refl _) (by omega)
    · rw [hget_other k (by omega) hke]
      exact Q2 k (by omega) (by omega)
  · intro b hb k h1 h2
    have hb' : ∀ k, low ≤ k → k ≤ high → lget pr.1.arr k ≤ b := BU b hb
    by_cases hkp : k = pr.2
    · rw [hkp, hget_p]
      exact hb high hlh (le_refl _)
    · by_cases hkh : k = high
      · by_cases hpe : pr.2 = high
        · omega
        · rw [hkh, hget_hi hpe]
          exact hb' pr.2 B1 B2
      · rw [hget_other k hkp hkh]
        exact hb' k h1 h2
  · intro b hb k h1 h2
    have hb' : ∀ k, low ≤ k → k ≤ high → b ≤ lget pr.1.arr k := BL b hb
    by_cases hkp : k = pr.2
    · rw [hkp, hget_p]
      exact hb high hlh (le_refl _)
    · by_cases hkh : k = high
      · by_cases hpe : pr.2 = high
        · omega
        · rw [hkh, hget_hi hpe]
          exact hb' pr.2 B1 B2
      · rw [hget_other k hkp hkh]
        exact hb' k h1 h2

theorem quick_sortF_stop (fuel : Nat) (s : SState) (low high : Nat)
    (h : ¬ low < high) : quick_sortF fuel s low high = s := by
  cases fuel with
  | zero => rw [quick_sortF]
  | succ fuel => rw [quick_sortF, if_neg h]

theorem quick_sortF_spec : ∀ (fuel : Nat) (s : SState) (low high : Nat),
    high < s.arr.length → high + 1 - low ≤ fuel →
    (quick_sortF fuel s low high).arr.length = s.arr.length ∧
    List.Perm (quick_sortF fuel s low high).arr s.arr ∧
    (∀ k, k < low ∨ high < k →
      lget (quick_sortF fuel s low high).arr k = lget s.arr k) ∧
    (∀ i j, low ≤ i → i ≤ j → j ≤ high →
      lget (quick_sortF fuel s low high).arr i
        ≤ lget (quick_sortF fuel s low high).arr j) ∧
    (∀ b, (∀ k, low ≤ k → k ≤ high → lget s.arr k ≤ b) →
      ∀ k, low ≤ k → k ≤ high → lget (quick_sortF fuel s low high).arr k ≤ b) ∧
    (∀ b, (∀ k, low ≤ k → k ≤ high → b ≤ lget s.arr k) →
      ∀ k, low ≤ k → k ≤ high → b ≤ lget (quick_sortF fuel s low high).arr k) := by
  intro fuel
  induction fuel with
  | zero =>
    intro s low high hh hf
    rw [quick_sortF]
    exact ⟨rfl, List.Perm.refl _, fun k _ => rfl, fun i j h1 h2 h3 => by omega,
      fun b hb => hb, fun b hb => hb⟩
  | succ fuel ih =>
    intro s low high hh hf
    by_cases hlh : low < high
    · obtain ⟨pL, pP, pU, pB1, pB2, pPiv, pQ1, pQ2, pBU, pBL⟩ :=
        partitionStep_spec s low high (le_of_lt hlh) hh
      simp only [quick_sortF]
      rw [if_pos hlh]
      set r := partitionStep s low high with hr
      set p := r.2 with hp
      obtain ⟨aL, aP, aU, aS, aBU, aBL⟩ :=
        ih r.1 low (p - 1) (by rw [pL]; omega) (by omega)
      set A := quick_sortF fuel r.1 low (p - 1) with hA
      have hlenA : A.arr.length = s.arr.length := by rw [aL, pL]
      obtain ⟨bL, bP, bU, bS, bBU, bBL⟩ :=
        ih A (p + 1) high (by rw [hlenA]; exact hh) (by omega)
      set B := quick_sortF fuel A (p + 1) high with hB
      have hAU : ∀ k, p ≤ k → lget A.arr k = lget r.1.arr k := by
        intro k hk
        rcases Nat.eq_zero_or_pos p with h0 | hpos
        · rw [hA, quick_sortF_stop fuel r.1 low (p - 1) (by omega)]
        · exact aU k (Or.inr (by omega))
      have hBlo : ∀ k, k ≤ p → lget B.arr k = lget A.arr k := by
        intro k hk
        exact bU k (Or.inl (by omega))
      have hBpiv : lget B.arr p = lget s.arr high := by
        rw [hBlo p (le_refl _), hAU p (le_refl _)]
        exact pPiv
      have hBleft : ∀ k, low ≤ k → k < p → lget B.arr k ≤ lget s.arr high := by
        intro k h1 h2
        have hppos : 0 < p := by omega
        rw [hBlo k (by omega)]
        exact aBU (lget s.arr high)
          (fun q hq1 hq2 => pQ1 q hq1 (by omega)) k h1 (by omega)
      have hBright : ∀ k, p < k → k ≤ high → lget s.arr high < lget B.arr k := by
        intro k h1 h2
        have := bBL (lget s.arr high + 1)
          (fun q hq1 hq2 => by
            rw [hAU q (by omega)]
            exact pQ2 q (by omega) hq2) k (by omega) h2
        omega
      refine ⟨by rw [bL, hlenA], bP.trans (aP.trans pP), ?_, ?_, ?_, ?_⟩
      · intro k hk
        rw [bU k (by omega), aU k (by omega), pU k (by omega)]
      · intro i j h1 h2 h3
        rcases lt_trichotomy i p with hi | hi | hi
        · rcases lt_trichotomy j p with hj | hj | hj
          · have hppos : 0 < p := by omega
            rw [hBlo i (by omega), hBlo j (by omega)]
            exact aS i j h1 h2 (by omega)
          · rw [hj, hBpiv]
            exact hBleft i h1 hi
          · exact le_of_lt (lt_of_le_of_lt (hBleft i h1 hi) (hBright j hj h3))
        · rcases eq_or_lt_of_le h2 with hj | hj
          · rw [← hj]
          · rw [hi, hBpiv]
            exact le_of_lt (hBright j (by omega) h3)
        · exact bS i j (by omega) h2 h3
      · intro b hb k h1 h2
        have hrb : ∀ k, low ≤ k → k ≤ high → lget r.1.arr k ≤ b := pBU b hb
        have hab : ∀ k, low ≤ k → k ≤ high → lget A.arr k ≤ b := by
          intro q hq1 hq2
          rcases le_or_lt p q with hq | hq
          · rw [hAU q hq]
            exact hrb q hq1 hq2
          · have hppos : 0 < p := by omega
            exact aBU b (fun u hu1 hu2 => hrb u hu1 (by omega)) q hq1 (by omega)
        rcases le_or_lt k p with hk | hk
        · rw [hBlo k hk]
          exact hab k h1 h2
        · exact bBU b (fun u hu1 hu2 => hab u (by omega) hu2) k (by omega) h2
      · intro b hb k h1 h2
        have hrb : ∀ k, low ≤ k → k ≤ high → b ≤ lget r.1.arr k := pBL b hb
        have hab : ∀ k, low ≤ k → k ≤ high → b ≤ lget A.arr k := by
          intro q hq1 hq2
          rcases le_or_lt p q with hq | hq
          · rw [hAU q hq]
            exact hrb q hq1 hq2
          · have hppos : 0 < p := by omega
            exact aBL b (fun u hu1 hu2 => hrb u hu1 (by omega)) q hq1 (by omega)
        rcases le_or_lt k p with hk | hk
        · rw [hBlo k hk]
          exact hab k h1 h2
        · exact bBL b (fun u hu1 hu2 => hab u (by omega) hu2) k (by omega) h2
    · rw [quick_sortF, if_neg hlh]
      refine ⟨rfl, List.Perm.refl _, fun k _ => rfl, ?_,
        fun b hb => hb, fun b hb => hb⟩
      intro i j h1 h2 h3
      have hij : i = j := by omega
      rw [hij]

theorem quick_sort_correct (s : SState) :
    List.Perm (quick_sort s).arr s.arr ∧ (quick_sort s).arr.Sorted (· ≤ ·) := by
  rw [quick_sort]
  rcases Nat.eq_zero_or_pos s.arr.length with h0 | hpos
  · rw [h0, quick_sortF]
    have harr : s.arr = [] := List.length_eq_zero.mp h0
    exact ⟨List.Perm.refl _, by rw [harr]; exact List.sorted_nil⟩
  · obtain ⟨L, P, U, S, _, _⟩ :=
      quick_sortF_spec s.arr.length s 0 (s.arr.length - 1) (by omega) (by omega)
    refine ⟨P, ?_⟩
    rw [sortedLe_iff]
    intro p q hpq hq
    rw [L] at hq
    exact S p q (by omega) (le_of_lt hpq) (by omega)

/-- **C7.** Quick Sort uses the Lomuto partition scheme: the pivot is the last
element of the range and after the scan it is swapped to the returned boundary
position, every element left of the boundary is `≤` the pivot and every element
of the range right of it is `>` the pivot, and the recursion proceeds on
`[low, pivotIndex - 1]` and `[pivotIndex + 1, high]`; in particular the input
`[64, 34, 25, 12, 22, 11, 90]` sorts to `[11, 12, 22, 25, 34, 64, 90]`. -/
theorem claim_C7_lomuto :
    (quickRun [64, 34, 25, 12, 22, 11, 90]).arr = [11, 12, 22, 25, 34, 64, 90] ∧
    (∀ s low high, low ≤ high → high < s.arr.length →
      low ≤ (partitionStep s low high).2 ∧
      (partitionStep s low high).2 ≤ high ∧
      lget (partitionStep s low high).1.arr (partitionStep s low high).2
        = lget s.arr high ∧
      (∀ k, low ≤ k → k < (partitionStep s low high).2 →
        lget (partitionStep s low high).1.arr k ≤ lget s.arr high) ∧
      (∀ k, (partitionStep s low high).2 < k → k ≤ high →
        lget s.arr high < lget (partitionStep s low high).1.arr k)) ∧
    (∀ fuel s low high, low < high →
      quick_sortF (fuel + 1) s low high =
        quick_sortF fuel
          (quick_sortF fuel (partitionStep s low high).1 low
            ((partitionStep s low high).2 - 1))
          ((partitionStep s low high).2 + 1) high) := by
  refine ⟨by decide, ?_, ?_⟩
  · intro s low high h1 h2
    obtain ⟨_, _, _, B1, B2, piv, Q1, Q2, _, _⟩ := partitionStep_spec s low high h1 h2
    exact ⟨B1, B2, piv, Q1, Q2⟩
  · intro fuel s low high h
    simp only [quick_sortF]
    rw [if_pos h]

/-! ## Heap Sort correctness -/

theorem hparent_le (k : Nat) : hparent k ≤ k := by
  rw [hparent]; omega

theorem hparent_iter_le : ∀ (m k : Nat), hparent^[m] k ≤ k := by
  intro m
  induction m with
  | zero => intro k; rw [Function.iterate_zero_apply]
  | succ m ih =>
    intro k
    rw [Function.iterate_succ_apply]
    exact le_trans (ih (hparent k)) (hparent_le k)

theorem hparent_iter_zero : ∀ (m k : Nat), k ≤ m → hparent^[m] k = 0 := by
  intro m
  induction m with
  | zero => intro k hk; rw [Function.iterate_zero_apply]; omega
  | succ m ih =>
    intro k hk
    rw [Function.iterate_succ_apply]
    refine ih (hparent k) ?_
    rw [hparent]
    omega

theorem inSub_refl (i : Nat) : inSub i i := ⟨0, rfl⟩

theorem inSub_le {i k : Nat} (h : inSub i k) : i ≤ k := by
  obtain ⟨m, hm⟩ := h
  rw [← hm]
  exact hparent_iter_le m k

theorem inSub_step {i k : Nat} (h : inSub i k) (hne : k ≠ i) :
    inSub i (hparent k) := by
  obtain ⟨m, hm⟩ := h
  cases m with
  | zero => rw [Function.iterate_zero_apply] at hm; exact absurd hm hne
  | succ m =>
    rw [Function.iterate_succ_apply] at hm
    exact ⟨m, hm⟩

theorem inSub_trans {i j k : Nat} (h1 : inSub i j) (h2 : inSub j k) :
    inSub i k := by
  obtain ⟨m1, hm1⟩ := h1
  obtain ⟨m2, hm2⟩ := h2
  exact ⟨m1 + m2, by rw [Function.iterate_add_apply, hm2, hm1]⟩

theorem hparent_child {i c : Nat} (h : c = 2 * i + 1 ∨ c = 2 * i + 2) :
    hparent c = i := by
  rw [hparent]; omega

theorem inSub_child {i c : Nat} (h : c = 2 * i + 1 ∨ c = 2 * i + 2) :
    inSub i c :=
  ⟨1, by rw [Function.iterate_one]; exact hparent_child h⟩

theorem inSub_zero (k : Nat) : inSub 0 k :=
  ⟨k, hparent_iter_zero k k (le_refl _)⟩

theorem not_inSub_child {v i c : Nat} (hvi : i < v)
    (hc : c = 2 * i + 1 ∨ c = 2 * i + 2) (hcv : c ≠ v) : ¬ inSub v c := by
  intro hs
  have := inSub_step hs hcv
  rw [hparent_child hc] at this
  exact absurd (inSub_le this) (by omega)

theorem heap_path_le (l : List Nat) (n r : Nat)
    (H : ∀ t, r ≤ t → t < n → localHeap l n t) :
    ∀ (m k : Nat), hparent^[m] k = r → k < n → lget l k ≤ lget l r := by
  intro m
  induction m with
  | zero =>
    intro k hk _
    rw [Function.iterate_zero_apply] at hk
    rw [hk]
  | succ m ih =>
    intro k hk hkn
    by_cases hkr : k = r
    · rw [hkr]
    · have hk1 : 1 ≤ k := by
        rcases Nat.eq_zero_or_pos k with h0 | h1
        · exfalso
          rw [h0, Function.iterate_fixed
            (show hparent 0 = 0 by rw [hparent]) (m + 1)] at hk
          omega
        · exact h1
      rw [Function.iterate_succ_apply] at hk
      have hp : hparent k = (k - 1) / 2 := rfl
      have hrp : r ≤ hparent k := by
        rw [← hk]
        exact hparent_iter_le m (hparent k)
      have hpn : hparent k < n := lt_of_le_of_lt (hparent_le k) hkn
      have hloc := H (hparent k) hrp hpn
      have hchild : k = 2 * hparent k + 1 ∨ k = 2 * hparent k + 2 := by
        rw [hp]; omega
      have hkp : lget l k ≤ lget l (hparent k) := by
        rcases hchild with hc | hc
        · have h := hloc.1 (by omega)
          rw [← hc] at h
          exact h
        · have h := hloc.2 (by omega)
          rw [← hc] at h
          exact h
      exact le_trans hkp (ih (hparent k) hk hpn)

theorem hsel_spec (s : SState) (n i : Nat) :
    (hsel s n i = i ∨ (hsel s n i = 2 * i + 1 ∧ 2 * i + 1 < n) ∨
      (hsel s n i = 2 * i + 2 ∧ 2 * i + 2 < n)) ∧
    lget s.arr i ≤ lget s.arr (hsel s n i) ∧
    (2 * i + 1 < n → lget s.arr (2 * i + 1) ≤ lget s.arr (hsel s n i)) ∧
    (2 * i + 2 < n → lget s.arr (2 * i + 2) ≤ lget s.arr (hsel s n i)) ∧
    (hsel s n i = i → localHeap s.arr n i) := by
  simp only [hsel]
  by_cases hl : 2 * i + 1 < n
  · rw [if_pos hl]
    by_cases hc1 : lget s.arr (2 * i + 1) > lget s.arr i
    · rw [if_pos hc1]
      by_cases hr : 2 * i + 2 < n
      · rw [if_pos hr]
        by_cases hc2 : lget s.arr (2 * i + 2) > lget s.arr (2 * i + 1)
        · rw [if_pos hc2]
          exact ⟨Or.inr (Or.inr ⟨rfl, hr⟩), by omega, fun _ => by omega,
            fun _ => le_refl _, fun h => absurd h (by omega)⟩
        · rw [if_neg hc2]
          exact ⟨Or.inr (Or.inl ⟨rfl, hl⟩), by omega, fun _ => le_refl _,
            fun _ => by omega, fun h => absurd h (by omega)⟩
      · rw [if_neg hr]
        exact ⟨Or.inr (Or.inl ⟨rfl, hl⟩), by omega, fun _ => le_refl _,
          fun h => absurd h hr, fun h => absurd h (by omega)⟩
    · rw [if_neg hc1]
      by_cases hr : 2 * i + 2 < n
      · rw [if_pos hr]
        by_cases hc2 : lget s.arr (2 * i + 2) > lget s.arr i
        · rw [if_pos hc2]
          exact ⟨Or.inr (Or.inr ⟨rfl, hr⟩), by omega, fun _ => by omega,
            fun _ => le_refl _, fun h => absurd h (by omega)⟩
        · rw [if_neg hc2]
          exact ⟨Or.inl rfl, le_refl _, fun _ => by omega, fun _ => by omega,
            fun _ => ⟨fun _ => by omega, fun _ => by omega⟩⟩
      · rw [if_neg hr]
        exact ⟨Or.inl rfl, le_refl _, fun _ => by omega, fun h => absurd h hr,
          fun _ => ⟨fun _ => by omega, fun h => absurd h hr⟩⟩
  · rw [if_neg hl]
    by_cases hr : 2 * i + 2 < n
    · rw [if_pos hr]
      by_cases hc2 : lget s.arr (2 * i + 2) > lget s.arr i
      · rw [if_pos hc2]
        exact ⟨Or.inr (Or.inr ⟨rfl, hr⟩), by omega, fun h => absurd h hl,
          fun _ => le_refl _, fun h => absurd h (by omega)⟩
      · rw [if_neg hc2]
        exact ⟨Or.inl rfl, le_refl _, fun h => absurd h hl, fun _ => by omega,
          fun _ => ⟨fun h => absurd h hl, fun _ => by omega⟩⟩
    · rw [if_neg hr]
      exact ⟨Or.inl rfl, le_refl _, fun h => absurd h hl, fun h => absurd h hr,
        fun _ => ⟨fun h => absurd h hl, fun h => absurd h hr⟩⟩

theorem heapifyF_succ (fuel n i : Nat) (s : SState) :
    ∃ s' : SState, s'.arr = s.arr ∧
    heapifyF (fuel + 1) s n i =
      (if hsel s n i ≠ i then
        heapifyF fuel
          { s' with arr := lswap s.arr i (hsel s n i), swaps := s'.swaps + 1 }
          n (hsel s n i)
      else s') := by
  rw [heapifyF]
  simp only [hsel]
  by_cases hl : 2 * i + 1 < n
  · simp only [hl, if_true]
    by_cases hc1 : lget s.arr (2 * i + 1) > lget s.arr i
    · simp only [hc1, if_true]
      by_cases hr : 2 * i + 2 < n
      · simp only [hr, if_true]
        by_cases hc2 : lget s.arr (2 * i + 2) > lget s.arr (2 * i + 1)
        · simp only [hc2, if_true]
          exact ⟨{ s with comparisons := s.comparisons + 1 + 1 }, rfl, rfl⟩
        · simp only [hc2, if_false]
          exact ⟨{ s with comparisons := s.comparisons + 1 + 1 }, rfl, rfl⟩
      · simp only [hr, if_false]
        exact ⟨{ s with comparisons := s.comparisons + 1 }, rfl, rfl⟩
    · simp only [hc1, if_false]
      by_cases hr : 2 * i + 2 < n
      · simp only [hr, if_true]
        by_cases hc2 : lget s.arr (2 * i + 2) > lget s.arr i
        · simp only [hc2, if_true]
          exact ⟨{ s with comparisons := s.comparisons + 1 + 1 }, rfl, rfl⟩
        · simp only [hc2, if_false]
          exact ⟨{ s with comparisons := s.comparisons + 1 + 1 }, rfl, rfl⟩
      · simp only [hr, if_false]
        exact ⟨{ s with comparisons := s.comparisons + 1 }, rfl, rfl⟩
  · simp only [hl, if_false]
    by_cases hr : 2 * i + 2 < n
    · simp only [hr, if_true]
      by_cases hc2 : lget s.arr (2 * i + 2) > lget s.arr i
      · simp only [hc2, if_true]
        exact ⟨{ s with comparisons := s.comparisons + 1 }, rfl, rfl⟩
      · simp only [hc2, if_false]
        exact ⟨{ s with comparisons := s.comparisons + 1 }, rfl, rfl⟩
    · simp only [hr, if_false]
      exact ⟨s, rfl, rfl⟩

theorem heapifyF_spec : ∀ (fuel i n : Nat) (s : SState),
    n ≤ s.arr.length → i < n → n - i ≤ fuel →
    (heapifyF fuel s n i).arr.length = s.arr.length ∧
    List.Perm (heapifyF fuel s n i).arr s.arr ∧
    (∀ k, ¬ inSub i k → lget (heapifyF fuel s n i).arr k = lget s.arr k) ∧
    (∀ k, n ≤ k → lget (heapifyF fuel s n i).arr k = lget s.arr k) ∧
    ((∀ k, i < k → k < n → localHeap s.arr n k) →
      ∀ k, i ≤ k → k < n → localHeap (heapifyF fuel s n i).arr n k) ∧
    (∀ b, (∀ k, k < n → inSub i k → lget s.arr k ≤ b) →
      ∀ k, k < n → inSub i k → lget (heapifyF fuel s n i).arr k ≤ b) := by
  intro fuel
  induction fuel with
  | zero =>
    intro i n s hn hi hf
    exact absurd hi (by omega)
  | succ fuel ih =>
    intro i n s hn hi hf
    obtain ⟨s', hs'arr, hstep⟩ := heapifyF_succ fuel n i s
    obtain ⟨hmem, hgi, hgl, hgr, heqi⟩ := hsel_spec s n i
    rw [hstep]
    by_cases hv : hsel s n i ≠ i
    · rw [if_pos hv]
      set v := hsel s n i with hvdef
      have hvi : i < v := by rcases hmem with h | ⟨h, _⟩ | ⟨h, _⟩ <;> omega
      have hvn : v < n := by rcases hmem with h | ⟨h, h2⟩ | ⟨h, h2⟩ <;> omega
      have hchild : v = 2 * i + 1 ∨ v = 2 * i + 2 := by
        rcases hmem with h | ⟨h, _⟩ | ⟨h, _⟩
        · omega
        · exact Or.inl h
        · exact Or.inr h
      have hvle : v ≤ 2 * i + 2 := by rcases hchild with h | h <;> omega
      have hilen : i < s.arr.length := by omega
      have hvlen : v < s.arr.length := by omega
      set s2 : SState :=
        { s' with arr := lswap s.arr i v, swaps := s'.swaps + 1 } with hs2
      have harr2 : s2.arr = lswap s.arr i v := rfl
      have hlen2 : s2.arr.length = s.arr.length := by rw [harr2, length_lswap]
      have g2i : lget s2.arr i = lget s.arr v := by
        rw [harr2]; exact lget_lswap_fst (by omega) hilen
      have g2v : lget s2.arr v = lget s.arr i := by
        rw [harr2]; exact lget_lswap_snd hvlen
      have g2o : ∀ k, k ≠ i → k ≠ v → lget s2.arr k = lget s.arr k := by
        intro k h1 h2
        rw [harr2]; exact lget_lswap_other h1 h2
      have hsub_iv : inSub i v := inSub_child hchild
      have hnsub_vi : ¬ inSub v i := fun h => absurd (inSub_le h) (by omega)
      obtain ⟨L, P, U, U2, H, BU⟩ :=
        ih v n s2 (by rw [hlen2]; exact hn) hvn (by omega)
      refine ⟨by rw [L, hlen2],
        P.trans (by rw [harr2]; exact lswap_perm _ _ _ hilen hvlen), ?_, ?_, ?_, ?_⟩
      · intro k hk
        have hknotv : ¬ inSub v k := fun h => hk (inSub_trans hsub_iv h)
        rw [U k hknotv,
          g2o k (fun h => hk (by rw [h]; exact inSub_refl i))
            (fun h => hk (by rw [h]; exact hsub_iv))]
      · intro k hk
        rw [U2 k hk, g2o k (by omega) (by omega)]
      · intro Hpre k hk1 hk2
        have Hpre2 : ∀ t, v < t → t < n → localHeap s2.arr n t := by
          intro t ht1 ht2
          have h0 := Hpre t (by omega) ht2
          constructor
          · intro hc
            rw [g2o (2 * t + 1) (by omega) (by omega), g2o t (by omega) (by omega)]
            exact h0.1 hc
          · intro hc
            rw [g2o (2 * t + 2) (by omega) (by omega), g2o t (by omega) (by omega)]
            exact h0.2 hc
        have Hres := H Hpre2
        have Hv : ∀ t, v ≤ t → t < n → localHeap s.arr n t :=
          fun t ht1 ht2 => Hpre t (by omega) ht2
        have hbv : ∀ t, t < n → inSub v t → lget s2.arr t ≤ lget s.arr v := by
          intro t htn hts
          by_cases htv : t = v
          · rw [htv, g2v]; exact hgi
          · rw [g2o t (fun h => hnsub_vi (by rw [← h]; exact hts)) htv]
            obtain ⟨m, hm⟩ := hts
            exact heap_path_le s.arr n v Hv m t hm htn
        rcases le_or_lt v k with hvk | hkv
        · exact Hres k hvk hk2
        · rcases eq_or_lt_of_le hk1 with hik | hik
          · rw [← hik]
            have hri : lget (heapifyF fuel s2 n v).arr i = lget s.arr v := by
              rw [U i hnsub_vi, g2i]
            constructor
            · intro hc
              by_cases hcv : 2 * i + 1 = v
              · have hres := BU (lget s.arr v) hbv (2 * i + 1) (by omega)
                  (by rw [hcv]; exact inSub_refl v)
                rw [hri]
                exact hres
              · have hnsub : ¬ inSub v (2 * i + 1) :=
                  not_inSub_child hvi (Or.inl rfl) hcv
                rw [hri, U _ hnsub, g2o _ (by omega) hcv]
                exact hgl hc
            · intro hc
              by_cases hcv : 2 * i + 2 = v
              · have hres := BU (lget s.arr v) hbv (2 * i + 2) (by omega)
                  (by rw [hcv]; exact inSub_refl v)
                rw [hri]
                exact hres
              · have hnsub : ¬ inSub v (2 * i + 2) :=
                  not_inSub_child hvi (Or.inr rfl) hcv
                rw [hri, U _ hnsub, g2o _ (by omega) hcv]
                exact hgr hc
          · have hks : ¬ inSub v k := fun h => absurd (inSub_le h) (by omega)
            have hc1s : ¬ inSub v (2 * k + 1) := by
              intro h
              have hstep2 := inSub_step h (by omega)
              rw [hparent_child (Or.inl rfl)] at hstep2
              exact absurd (inSub_le hstep2) (by omega)
            have hc2s : ¬ inSub v (2 * k + 2) := by
              intro h
              have hstep2 := inSub_step h (by omega)
              rw [hparent_child (Or.inr rfl)] at hstep2
              exact absurd (inSub_le hstep2) (by omega)
            have h0 := Hpre k hik hk2
            constructor
            · intro hc
              rw [U _ hc1s, U k hks, g2o _ (by omega) (by omega),
                g2o k (by omega) (by omega)]
              exact h0.1 hc
            · intro hc
              rw [U _ hc2s, U k hks, g2o _ (by omega) (by omega),
                g2o k (by omega) (by omega)]
              exact h0.2 hc
      · intro b hb k hkn hks
        by_cases hsubv : inSub v k
        · refine BU b ?_ k hkn hsubv
          intro t htn hts
          by_cases htv : t = v
          · rw [htv, g2v]
            exact hb i hi (inSub_refl i)
          · rw [g2o t (fun h => hnsub_vi (by rw [← h]; exact hts)) htv]
            exact hb t htn (inSub_trans hsub_iv hts)
        · rw [U k hsubv]
          by_cases hki : k = i
          · rw [hki, g2i]
            exact hb v (by omega) hsub_iv
          · by_cases hkv2 : k = v
            · exact absurd (by rw [hkv2]; exact inSub_refl v) hsubv
            · rw [g2o k hki hkv2]
              exact hb k hkn hks
    · rw [if_neg hv]
      rw [not_not] at hv
      have harr : s'.arr = s.arr := hs'arr
      refine ⟨by rw [harr], by rw [harr], fun k _ => by rw [harr],
        fun k _ => by rw [harr], ?_, fun b hb k h1 h2 => by rw [harr]; exact hb k h1 h2⟩
      · intro Hpre k hk1 hk2
        have hg : ∀ k, lget s'.arr k = lget s.arr k := fun k => by rw [harr]
        rcases eq_or_lt_of_le hk1 with he | hlt
        · rw [← he]
          have h0 := heqi hv
          constructor
          · intro hc; rw [hg, hg]; exact h0.1 hc
          · intro hc; rw [hg, hg]; exact h0.2 hc
        · have h0 := Hpre k hlt hk2
          constructor
          · intro hc; rw [hg, hg]; exact h0.1 hc
          · intro hc; rw [hg, hg]; exact h0.2 hc

theorem buildLoop_spec : ∀ (cnt n : Nat) (s : SState),
    n ≤ s.arr.length → cnt ≤ n →
    (∀ k, cnt ≤ k → k < n → localHeap s.arr n k) →
    (buildLoop n s cnt).arr.length = s.arr.length ∧
    List.Perm (buildLoop n s cnt).arr s.arr ∧
    (∀ k, n ≤ k → lget (buildLoop n s cnt).arr k = lget s.arr k) ∧
    (∀ k, k < n → localHeap (buildLoop n s cnt).arr n k) := by
  intro cnt
  induction cnt with
  | zero =>
    intro n s hn hc Hpre
    rw [buildLoop]
    exact ⟨rfl, List.Perm.refl _, fun k _ => rfl, fun k hk => Hpre k (by omega) hk⟩
  | succ cnt ih =>
    intro n s hn hc Hpre
    rw [buildLoop]
    obtain ⟨L, P, U, U2, H, BU⟩ := heapifyF_spec n cnt n s hn (by omega) (by omega)
    set h1 := heapifyF n s n cnt with hh1
    have Hmid : ∀ k, cnt ≤ k → k < n → localHeap h1.arr n k :=
      H (fun t ht1 ht2 => Hpre t (by omega) ht2)
    obtain ⟨L2, P2, U22, H2⟩ := ih n h1 (by rw [L]; exact hn) (by omega) Hmid
    exact ⟨by rw [L2, L], P2.trans P, fun k hk => by rw [U22 k hk, U2 k hk], H2⟩

theorem extractLoop_spec : ∀ (m n : Nat) (s : SState),
    n ≤ s.arr.length → m < n →
    (∀ k, k < m + 1 → localHeap s.arr (m + 1) k) →
    (∀ p q, m + 1 ≤ p → p ≤ q → q < n → lget s.arr p ≤ lget s.arr q) →
    (∀ p q, p < m + 1 → m + 1 ≤ q → q < n → lget s.arr p ≤ lget s.arr q) →
    (extractLoop n s m).arr.length = s.arr.length ∧
    List.Perm (extractLoop n s m).arr s.arr ∧
    (∀ k, n ≤ k → lget (extractLoop n s m).arr k = lget s.arr k) ∧
    (∀ p q, p ≤ q → q < n →
      lget (extractLoop n s m).arr p ≤ lget (extractLoop n s m).arr q) := by
  intro m
  induction m with
  | zero =>
    intro n s hn hm Hheap Hsort Hle
    rw [extractLoop]
    refine ⟨rfl, List.Perm.refl _, fun k _ => rfl, ?_⟩
    intro p q hpq hq
    rcases Nat.eq_zero_or_pos p with hp0 | hp1
    · rcases Nat.eq_zero_or_pos q with hq0 | hq1
      · rw [hp0, hq0]
      · rw [hp0]
        exact Hle 0 q (by omega) (by omega) hq
    · exact Hsort p q (by omega) hpq hq
  | succ m ih =>
    intro n s hn hm Hheap Hsort Hle
    simp only [extractLoop]
    set s1 : SState :=
      { s with arr := lswap s.arr 0 (m + 1), swaps := s.swaps + 1 } with hs1
    have harr1 : s1.arr = lswap s.arr 0 (m + 1) := rfl
    have h0len : (0 : Nat) < s.arr.length := by omega
    have hm1len : m + 1 < s.arr.length := by omega
    have hlen1 : s1.arr.length = s.arr.length := by rw [harr1, length_lswap]
    have g10 : lget s1.arr 0 = lget s.arr (m + 1) := by
      rw [harr1]; exact lget_lswap_fst (by omega) h0len
    have g1m : lget s1.arr (m + 1) = lget s.arr 0 := by
      rw [harr1]; exact lget_lswap_snd hm1len
    have g1o : ∀ k, k ≠ 0 → k ≠ m + 1 → lget s1.arr k = lget s.arr k := by
      intro k h1 h2; rw [harr1]; exact lget_lswap_other h1 h2
    have hroot : ∀ k, k < m + 1 + 1 → lget s.arr k ≤ lget s.arr 0 := by
      intro k hk
      exact heap_path_le s.arr (m + 1 + 1) 0 (fun t _ ht2 => Hheap t ht2) k k
        (hparent_iter_zero k k (le_refl _)) hk
    obtain ⟨L, P, U, U2, H, BU⟩ :=
      heapifyF_spec n 0 (m + 1) s1 (by rw [hlen1]; omega) (by omega) (by omega)
    set s2 := heapifyF n s1 (m + 1) 0 with hs2
    have hlen2 : s2.arr.length = s.arr.length := by rw [L, hlen1]
    have Hpre2 : ∀ k, 0 < k → k < m + 1 → localHeap s1.arr (m + 1) k := by
      intro k h1 h2
      have h0 := Hheap k (by omega)
      constructor
      · intro hc
        rw [g1o (2 * k + 1) (by omega) (by omega), g1o k (by omega) (by omega)]
        exact h0.1 (by omega)
      · intro hc
        rw [g1o (2 * k + 2) (by omega) (by omega), g1o k (by omega) (by omega)]
        exact h0.2 (by omega)
    have Hheap2 : ∀ k, k < m + 1 → localHeap s2.arr (m + 1) k :=
      fun k hk => H Hpre2 k (by omega) hk
    have hbound : ∀ k, k < m + 1 → lget s2.arr k ≤ lget s.arr 0 := by
      intro k hk
      refine BU (lget s.arr 0) ?_ k hk (inSub_zero k)
      intro t ht _
      by_cases ht0 : t = 0
      · rw [ht0, g10]
        exact hroot (m + 1) (by omega)
      · rw [g1o t ht0 (by omega)]
        exact hroot t (by omega)
    have ihHsort : ∀ p q, m + 1 ≤ p → p ≤ q → q < n →
        lget s2.arr p ≤ lget s2.arr q := by
      intro p q h1 h2 h3
      rw [U2 p h1, U2 q (by omega)]
      rcases eq_or_lt_of_le h1 with he | hlt
      · rcases eq_or_lt_of_le h2 with he2 | hlt2
        · rw [he2]
        · rw [← he, g1m, g1o q (by omega) (by omega)]
          exact Hle 0 q (by omega) (by omega) h3
      · rw [g1o p (by omega) (by omega), g1o q (by omega) (by omega)]
        exact Hsort p q (by omega) h2 h3
    have ihHle : ∀ p q, p < m + 1 → m + 1 ≤ q → q < n →
        lget s2.arr p ≤ lget s2.arr q := by
      intro p q h1 h2 h3
      have hpb : lget s2.arr p ≤ lget s.arr 0 := hbound p h1
      rw [U2 q h2]
      rcases eq_or_lt_of_le h2 with he | hlt
      · rw [← he, g1m]
        exact hpb
      · rw [g1o q (by omega) (by omega)]
        exact le_trans hpb (Hle 0 q (by omega) (by omega) h3)
    obtain ⟨L3, P3, U3, S3⟩ :=
      ih n s2 (by rw [hlen2]; exact hn) (by omega) Hheap2 ihHsort ihHle
    refine ⟨by rw [L3, hlen2],
      P3.trans (P.trans (by rw [harr1]; exact lswap_perm _ _ _ h0len hm1len)),
      ?_, S3⟩
    intro k hk
    rw [U3 k hk, U2 k (by omega), g1o k (by omega) (by omega)]

theorem heap_sort_correct (s : SState) :
    List.Perm (heap_sort s).arr s.arr ∧ (heap_sort s).arr.Sorted (· ≤ ·) := by
  rcases Nat.eq_zero_or_pos s.arr.length with h0 | hpos
  · have harr : s.arr = [] := List.length_eq_zero.mp h0
    have hid : heap_sort s = s := by
      simp only [heap_sort]
      rw [h0, show (0 : Nat) / 2 = 0 from rfl, buildLoop,
        show (0 : Nat) - 1 = 0 from rfl, extractLoop]
    rw [hid, harr]
    exact ⟨List.Perm.refl _, List.sorted_nil⟩
  · simp only [heap_sort]
    have hleaf : ∀ k, s.arr.length / 2 ≤ k → k < s.arr.length →
        localHeap s.arr s.arr.length k := by
      intro k h1 h2
      exact ⟨fun hc => absurd hc (by omega), fun hc => absurd hc (by omega)⟩
    obtain ⟨L1, P1, U1, H1⟩ :=
      buildLoop_spec (s.arr.length / 2) s.arr.length s (le_refl _) (by omega) hleaf
    set B := buildLoop s.arr.length s (s.arr.length / 2) with hB
    rcases Nat.eq_zero_or_pos (s.arr.length - 1) with h1 | h1
    · rw [h1, extractLoop]
      refine ⟨P1, ?_⟩
      rw [sortedLe_iff]
      intro p q hpq hq
      rw [L1] at hq
      omega
    · obtain ⟨L3, P3, U3, S3⟩ :=
        extractLoop_spec (s.arr.length - 1) s.arr.length B (le_of_eq L1.symm)
          (by omega)
          (fun k hk => by
            have he : s.arr.length - 1 + 1 = s.arr.length := by omega
            rw [he]
            exact H1 k (by omega))
          (fun p q hp hpq hq => by omega)
          (fun p q hp hq hqn => by omega)
      refine ⟨P3.trans P1, ?_⟩
      rw [sortedLe_iff]
      intro p q hpq hq
      rw [L3, L1] at hq
      exact S3 p q (le_of_lt hpq) hq

/-! ## Counting Sort correctness -/

theorem setSeq_append : ∀ (a b l : List Nat) (k : Nat),
    setSeq l k (a ++ b) = setSeq (setSeq l k a) (k + a.length) b := by
  intro a
  induction a with
  | nil => intro b l k; simp [setSeq]
  | cons x xs ih =>
    intro b l k
    rw [List.cons_append, setSeq, setSeq, ih]
    have : k + 1 + xs.length = k + (xs.length + 1) := by omega
    rw [this]
    rfl

theorem countUp_len : ∀ (l : List Nat) (s : SState) (count : List Nat),
    (countUp s count l).2.length = count.length := by
  intro l
  induction l with
  | nil => intro s count; rfl
  | cons x rest ih =>
    intro s count
    rw [countUp, ih]
    simp

theorem countHist : ∀ (l : List Nat) (s : SState) (count : List Nat),
    (∀ x, x ∈ l → x < count.length) →
    ∀ v, lget (countUp s count l).2 v = lget count v + List.count v l := by
  intro l
  induction l with
  | nil => intro s count _ v; simp [countUp]
  | cons x rest ih =>
    intro s count hmem v
    rw [countUp]
    have hxlen : x < count.length := hmem x (List.mem_cons_self x rest)
    have hres := ih { s with comparisons := s.comparisons + 1 }
      (count.set x (lget count x + 1))
      (fun y hy => by rw [List.length_set]; exact hmem y (List.mem_cons_of_mem x hy)) v
    rw [hres, List.count_cons]
    by_cases hvx : v = x
    · rw [hvx, lget_set_self hxlen,
        if_pos (show (x == x) = true by simp)]
      omega
    · rw [lget_set_ne (Ne.symm hvx),
        if_neg (show ¬ (x == v) = true by simp only [beq_iff_eq]; omega)]
      omega

theorem rebuildVal_spec : ∀ (c : Nat) (v : Nat) (s : SState) (idx : Nat),
    (rebuildVal v s idx c).1.arr = setSeq s.arr idx (List.replicate c v) ∧
    (rebuildVal v s idx c).2 = idx + c := by
  intro c
  induction c with
  | zero => intro v s idx; exact ⟨rfl, rfl⟩
  | succ c ih =>
    intro v s idx
    rw [rebuildVal, List.replicate_succ, setSeq]
    obtain ⟨h1, h2⟩ := ih v { s with arr := s.arr.set idx v, swaps := s.swaps + 1 } (idx + 1)
    exact ⟨h1, by rw [h2]; omega⟩

theorem rebuildLoop_arr : ∀ (cs : List Nat) (s : SState) (idx v : Nat),
    (rebuildLoop s idx v cs).arr = setSeq s.arr idx (flatRep v cs) := by
  intro cs
  induction cs with
  | nil => intro s idx v; rfl
  | cons c rest ih =>
    intro s idx v
    rw [rebuildLoop, flatRep, setSeq_append]
    obtain ⟨h1, h2⟩ := rebuildVal_spec c v s idx
    rw [ih, h1, h2]
    simp

theorem count_flatRep : ∀ (cs : List Nat) (v x : Nat),
    List.count x (flatRep v cs) = if v ≤ x then lget cs (x - v) else 0 := by
  intro cs
  induction cs with
  | nil =>
    intro v x
    simp [flatRep, lget]
  | cons c rest ih =>
    intro v x
    rw [flatRep, List.count_append, ih (v + 1) x]
    by_cases hvx : x = v
    · rw [hvx]
      rw [if_pos (le_refl v), if_neg (by omega)]
      rw [List.count_replicate, if_pos (show (v == v) = true by simp)]
      simp [lget]
    · have hrep : List.count x (List.replicate c v) = 0 := by
        rw [List.count_replicate,
          if_neg (show ¬ (v == x) = true by simp only [beq_iff_eq]; omega)]
      rw [hrep]
      by_cases hle : v ≤ x
      · rw [if_pos (by omega), if_pos hle]
        have hx1 : x - v = (x - (v + 1)) + 1 := by omega
        rw [hx1]
        simp [lget, List.getD_cons_succ]
      · rw [if_neg (by omega), if_neg hle]

theorem mem_flatRep_ge : ∀ (cs : List Nat) (v x : Nat), x ∈ flatRep v cs → v ≤ x := by
  intro cs
  induction cs with
  | nil => intro v x h; simp [flatRep] at h
  | cons c rest ih =>
    intro v x h
    rw [flatRep, List.mem_append] at h
    rcases h with h | h
    · rw [List.eq_of_mem_replicate h]
    · exact le_trans (by omega) (ih (v + 1) x h)

theorem sorted_replicate (c v : Nat) : (List.replicate c v).Sorted (· ≤ ·) := by
  induction c with
  | zero => exact List.sorted_nil
  | succ c ih =>
    rw [List.replicate_succ, List.sorted_cons]
    exact ⟨fun y hy => by rw [List.eq_of_mem_replicate hy], ih⟩

theorem flatRep_sorted : ∀ (cs : List Nat) (v : Nat), (flatRep v cs).Sorted (· ≤ ·) := by
  intro cs
  induction cs with
  | nil => intro v; exact List.sorted_nil
  | cons c rest ih =>
    intro v
    rw [flatRep, List.Sorted, List.pairwise_append]
    exact ⟨sorted_replicate c v, ih (v + 1),
      fun x hx y hy => by
        rw [List.eq_of_mem_replicate hx]
        exact le_trans (by omega) (mem_flatRep_ge rest (v + 1) y hy)⟩

theorem maxOf_ge : ∀ (l : List Nat) (x : Nat), x ∈ l → x ≤ maxOf l := by
  intro l
  induction l with
  | nil => intro x h; simp at h
  | cons h t ih =>
    intro x hx
    rw [List.mem_cons] at hx
    rw [maxOf, List.foldr_cons]
    rcases hx with hx | hx
    · rw [hx]; exact le_max_left _ _
    · exact le_trans (ih x hx) (le_max_right _ _)

theorem lget_replicate_zero (n v : Nat) : lget (List.replicate n 0) v = 0 := by
  rcases lt_or_ge v n with h | h
  · rw [lget, List.getD_eq_getElem _ _ (by simpa using h), List.getElem_replicate]
  · rw [lget, List.getD_eq_default _ _ (by simpa using h)]

theorem counting_sort_correct (s : SState) :
    List.Perm (counting_sort s).arr s.arr ∧
    (counting_sort s).arr.Sorted (· ≤ ·) := by
  by_cases h0 : s.arr = []
  · rw [counting_sort, if_pos h0]
    exact ⟨List.Perm.refl _, by rw [h0]; exact List.sorted_nil⟩
  · have hstep : (counting_sort s).arr =
        setSeq s.arr 0
          (flatRep 0 (countUp s (List.replicate (maxOf s.arr + 1) 0) s.arr).2) := by
      simp only [counting_sort]
      rw [if_neg h0, rebuildLoop_arr,
        (countUp_spec s.arr s (List.replicate (maxOf s.arr + 1) 0)).2.1]
    set hist := (countUp s (List.replicate (maxOf s.arr + 1) 0) s.arr).2 with hhist
    have hlenh : hist.length = maxOf s.arr + 1 := by
      rw [hhist, countUp_len]
      simp
    have hcnt : ∀ v, lget hist v = List.count v s.arr := by
      intro v
      rcases lt_or_ge v (maxOf s.arr + 1) with hv | hv
      · rw [hhist, countHist s.arr s _
          (fun x hx => by simpa using Nat.lt_succ_of_le (maxOf_ge s.arr x hx)) v,
          lget_replicate_zero]
        simp
      · have hz : lget hist v = 0 := by
          rw [lget, List.getD_eq_default _ _ (by omega)]
        rw [hz]
        symm
        rw [List.count_eq_zero]
        intro hmem
        exact absurd (maxOf_ge s.arr v hmem) (by omega)
    have hperm : List.Perm (flatRep 0 hist) s.arr := by
      rw [List.perm_iff_count]
      intro a
      rw [count_flatRep, if_pos (Nat.zero_le a), Nat.sub_zero]
      exact hcnt a
    have hlenf : (flatRep 0 hist).length = s.arr.length := hperm.length_eq
    rw [hstep, setSeq_all hlenf]
    exact ⟨hperm, flatRep_sorted hist 0⟩

/-! ## Radix Sort correctness -/

theorem digOf_lt_ten (exp x : Nat) : digOf exp x < 10 := by
  rw [digOf]
  exact Nat.mod_lt _ (by omega)

theorem cntLt_zero (exp : Nat) (l : List Nat) : cntLt exp l 0 = 0 := by
  rw [cntLt]
  induction l with
  | nil => rfl
  | cons x t ih => simp [ih]

theorem cntLt_succ (exp : Nat) (l : List Nat) (d : Nat) :
    cntLt exp l (d + 1) = cntLt exp l d + cntEq exp l d := by
  induction l with
  | nil => rfl
  | cons x t ih =>
    simp only [cntLt, cntEq, List.countP_cons, decide_eq_true_eq, beq_iff_eq] at ih ⊢
    rcases lt_trichotomy (digOf exp x) d with h | h | h
    · rw [if_pos (show digOf exp x < d + 1 by omega), if_pos h, if_neg (by omega)]
      omega
    · rw [if_pos (show digOf exp x < d + 1 by omega), if_neg (by omega), if_pos h]
      omega
    · rw [if_neg (show ¬ digOf exp x < d + 1 by omega), if_neg (by omega),
        if_neg (by omega)]
      omega

theorem cntLt_mono (exp : Nat) (l : List Nat) :
    ∀ {d d' : Nat}, d ≤ d' → cntLt exp l d ≤ cntLt exp l d' := by
  intro d d' h
  induction d' with
  | zero =>
    have : d = 0 := by omega
    rw [this]
  | succ d' ih =>
    rcases Nat.lt_or_ge d (d' + 1) with h2 | h2
    · rw [cntLt_succ]
      exact le_trans (ih (by omega)) (by omega)
    · have : d = d' + 1 := by omega
      rw [this]

theorem cntLt_ten (exp : Nat) (l : List Nat) : cntLt exp l 10 = l.length := by
  rw [cntLt]
  apply List.countP_eq_length.mpr
  intro x _
  simp only [decide_eq_true_eq]
  exact digOf_lt_ten exp x

theorem cntEq_filter_length (exp : Nat) (l : List Nat) (d : Nat) :
    (l.filter (fun x => digOf exp x == d)).length = cntEq exp l d := by
  rw [cntEq, ← List.countP_eq_length_filter]

theorem cntEq_take_le (exp : Nat) (l : List Nat) (m d : Nat) :
    cntEq exp (l.take m) d ≤ cntEq exp l d :=
  List.Sublist.countP_le _ (List.take_sublist m l)

theorem cntEq_take_succ (exp : Nat) (l : List Nat) (m d : Nat) (h : m < l.length) :
    cntEq exp (l.take (m + 1)) d =
      cntEq exp (l.take m) d + (if digOf exp (lget l m) = d then 1 else 0) := by
  rw [cntEq, cntEq, List.take_succ, List.countP_append]
  have hget : l[m]? = some l[m] := List.getElem?_eq_getElem h
  rw [hget]
  have hval : lget l m = l[m] := by rw [lget, List.getD_eq_getElem _ _ h]
  by_cases hd : digOf exp (lget l m) = d
  · rw [if_pos hd]
    simp [List.countP_cons, ← hval, hd]
  · rw [if_neg hd]
    simp [List.countP_cons, ← hval, hd]

theorem sumSeg_snoc (c : List Nat) : ∀ (len a : Nat),
    sumSeg c a (len + 1) = sumSeg c a len + lget c (a + len) := by
  intro len
  induction len with
  | zero => intro a; simp [sumSeg]
  | succ len ih =>
    intro a
    rw [sumSeg, ih (a + 1), sumSeg]
    have : a + 1 + len = a + (len + 1) := by omega
    rw [this]
    omega

theorem sumSeg_congr {c1 c2 : List Nat} : ∀ (len a : Nat),
    (∀ t, a ≤ t → t < a + len → lget c1 t = lget c2 t) →
    sumSeg c1 a len = sumSeg c2 a len := by
  intro len
  induction len with
  | zero => intro a _; rfl
  | succ len ih =>
    intro a h
    rw [sumSeg, sumSeg, h a (le_refl _) (by omega),
      ih (a + 1) (fun t ht1 ht2 => h t (by omega) (by omega))]

theorem psumLoop_spec : ∀ (rem i : Nat) (c : List Nat),
    1 ≤ i → i + rem ≤ c.length →
    (psumLoop c i rem).length = c.length ∧
    (∀ e, e < i → lget (psumLoop c i rem) e = lget c e) ∧
    (∀ e, i ≤ e → e < i + rem →
      lget (psumLoop c i rem) e = sumSeg c (i - 1) (e - i + 2)) := by
  intro rem
  induction rem with
  | zero =>
    intro i c h1 h2
    rw [psumLoop]
    exact ⟨rfl, fun e _ => rfl, fun e he1 he2 => by omega⟩
  | succ rem ih =>
    intro i c h1 h2
    rw [psumLoop]
    set c' := c.set i (lget c i + lget c (i - 1)) with hc'
    have hilen : i < c.length := by omega
    have hlen' : c'.length = c.length := by rw [hc', List.length_set]
    obtain ⟨L, E1, E2⟩ := ih (i + 1) c' (by omega) (by rw [hlen']; omega)
    refine ⟨by rw [L, hlen'], ?_, ?_⟩
    · intro e he
      rw [E1 e (by omega), hc', lget_set_ne (by omega)]
    · intro e he1 he2
      rcases eq_or_lt_of_le he1 with he | he
      · rw [← he, E1 i (by omega), hc', lget_set_self hilen]
        have h2eq : i - i + 2 = 1 + 1 := by omega
        rw [h2eq, sumSeg]
        have hi1 : i - 1 + 1 = i := by omega
        rw [hi1, sumSeg, sumSeg]
        omega
      · have hE2 := E2 e (by omega) (by omega)
        have hidx1 : i + 1 - 1 = i := by omega
        have hidx2 : e - (i + 1) + 2 = (e - i) + 1 := by omega
        rw [hidx1, hidx2] at hE2
        rw [hE2]
        have hL : sumSeg c' i ((e - i) + 1) = lget c' i + sumSeg c' (i + 1) (e - i) := by
          rw [sumSeg]
        have hcongr : sumSeg c' (i + 1) (e - i) = sumSeg c (i + 1) (e - i) :=
          sumSeg_congr (e - i) (i + 1)
            (fun t ht1 ht2 => by rw [hc', lget_set_ne (by omega)])
        have hset : lget c' i = lget c i + lget c (i - 1) := by
          rw [hc', lget_set_self hilen]
        have hR1 : e - i + 2 = ((e - i) + 1) + 1 := by omega
        have hR : sumSeg c (i - 1) (((e - i) + 1) + 1)
            = lget c (i - 1) + (lget c i + sumSeg c (i + 1) (e - i)) := by
          rw [sumSeg]
          have hi1 : i - 1 + 1 = i := by omega
          rw [hi1, sumSeg]
        rw [hL, hcongr, hset, hR1, hR]
        omega

theorem cntEq_cons (exp x : Nat) (t : List Nat) (d : Nat) :
    cntEq exp (x :: t) d = cntEq exp t d + (if digOf exp x = d then 1 else 0) := by
  rw [cntEq, cntEq, List.countP_cons]
  by_cases h : digOf exp x = d
  · rw [if_pos h, if_pos (show (digOf exp x == d) = true by simp [h])]
  · rw [if_neg h, if_neg (show ¬ (digOf exp x == d) = true by simp [h])]

theorem countDigits_pure : ∀ (l : List Nat) (exp : Nat) (s : SState) (count : List Nat),
    (countDigits exp s count l).1.arr = s.arr ∧
    (countDigits exp s count l).2.length = count.length := by
  intro l
  induction l with
  | nil => intro exp s count; exact ⟨rfl, rfl⟩
  | cons x rest ih =>
    intro exp s count
    rw [countDigits]
    obtain ⟨h1, h2⟩ := ih exp { s with comparisons := s.comparisons + 1 }
      (count.set (digOf exp x) (lget count (digOf exp x) + 1))
    exact ⟨h1, by rw [h2, List.length_set]⟩

theorem countDigits_hist : ∀ (l : List Nat) (exp : Nat) (s : SState) (count : List Nat),
    (∀ x, x ∈ l → digOf exp x < count.length) →
    ∀ d, lget (countDigits exp s count l).2 d = lget count d + cntEq exp l d := by
  intro l
  induction l with
  | nil => intro exp s count _ d; simp [countDigits, cntEq]
  | cons x rest ih =>
    intro exp s count hmem d
    rw [countDigits]
    have hxlen : digOf exp x < count.length := hmem x (List.mem_cons_self x rest)
    have hres := ih exp { s with comparisons := s.comparisons + 1 }
      (count.set (digOf exp x) (lget count (digOf exp x) + 1))
      (fun y hy => by rw [List.length_set]; exact hmem y (List.mem_cons_of_mem x hy)) d
    rw [hres, cntEq_cons]
    by_cases hvd : d = digOf exp x
    · rw [hvd, lget_set_self hxlen, if_pos rfl]
      omega
    · rw [lget_set_ne (fun h => hvd h.symm), if_neg (fun h => hvd h.symm)]
      omega

theorem fillLoop_arr : ∀ (m exp : Nat) (a : List Nat) (s : SState)
    (output count : List Nat),
    (fillLoop exp a s output count m).1.arr = s.arr := by
  intro m
  induction m with
  | zero => intro exp a s output count; rfl
  | succ m ih =>
    intro exp a s output count
    simp only [fillLoop]
    rw [ih]

theorem fillLoop_spec : ∀ (m exp : Nat) (a : List Nat) (s : SState)
    (output count : List Nat),
    m ≤ a.length → a.length ≤ output.length → count.length = 10 →
    (∀ d, d < 10 → lget count d = cntLt exp a d + cntEq exp (a.take m) d) →
    (fillLoop exp a s output count m).2.1.length = output.length ∧
    (∀ d j, d < 10 → j < cntEq exp (a.take m) d →
      lget (fillLoop exp a s output count m).2.1 (cntLt exp a d + j) =
        lget ((a.take m).filter (fun x => digOf exp x == d)) j) ∧
    (∀ p, (∀ d, d < 10 →
        ¬ (cntLt exp a d ≤ p ∧ p < cntLt exp a d + cntEq exp (a.take m) d)) →
      lget (fillLoop exp a s output count m).2.1 p = lget output p) := by
  intro m
  induction m with
  | zero =>
    intro exp a s output count hm hao hc10 hcount
    rw [fillLoop]
    refine ⟨rfl, ?_, fun p _ => rfl⟩
    intro d j hd hj
    rw [List.take_zero] at hj
    exact absurd hj (by simp [cntEq])
  | succ m ih =>
    intro exp a s output count hm hao hc10 hcount
    simp only [fillLoop]
    have hma : m < a.length := by omega
    have hd0lt : digOf exp (lget a m) < 10 := digOf_lt_ten _ _
    have hcsd0 : cntEq exp (a.take (m + 1)) (digOf exp (lget a m))
        = cntEq exp (a.take m) (digOf exp (lget a m)) + 1 := by
      rw [cntEq_take_succ exp a m _ hma, if_pos rfl]
    have hcsne : ∀ d, d ≠ digOf exp (lget a m) →
        cntEq exp (a.take (m + 1)) d = cntEq exp (a.take m) d := by
      intro d hd
      rw [cntEq_take_succ exp a m d hma, if_neg (fun h => hd h.symm)]
      omega
    have hp0 : lget count (digOf exp (lget a m)) - 1
        = cntLt exp a (digOf exp (lget a m))
          + cntEq exp (a.take m) (digOf exp (lget a m)) := by
      rw [hcount _ hd0lt, hcsd0]
      omega
    have hstrict : cntEq exp (a.take m) (digOf exp (lget a m))
        < cntEq exp a (digOf exp (lget a m)) := by
      have h1 := cntEq_take_le exp a (m + 1) (digOf exp (lget a m))
      omega
    have hp0lt : lget count (digOf exp (lget a m)) - 1 < output.length := by
      rw [hp0]
      have h2 := cntLt_succ exp a (digOf exp (lget a m))
      have h3 : cntLt exp a (digOf exp (lget a m) + 1) ≤ cntLt exp a 10 :=
        cntLt_mono exp a (by omega)
      have h4 := cntLt_ten exp a
      omega
    have hfilter_succ : a.take (m + 1) = a.take m ++ [lget a m] := by
      have hgv : lget a m = a[m] := by rw [lget, List.getD_eq_getElem _ _ hma]
      rw [List.take_succ, List.getElem?_eq_getElem hma, hgv]
      rfl
    have hfilter_succ_eq :
        (a.take (m + 1)).filter (fun y => digOf exp y == digOf exp (lget a m))
        = (a.take m).filter (fun y => digOf exp y == digOf exp (lget a m))
          ++ [lget a m] := by
      rw [hfilter_succ, List.filter_append]
      congr 1
      rw [List.filter_cons,
        if_pos (show ((digOf exp (lget a m) == digOf exp (lget a m)) = true) by simp),
        List.filter_nil]
    have hfilter_succ_ne : ∀ d, d ≠ digOf exp (lget a m) →
        (a.take (m + 1)).filter (fun y => digOf exp y == d)
        = (a.take m).filter (fun y => digOf exp y == d) := by
      intro d hd
      rw [hfilter_succ, List.filter_append]
      have hnil : [lget a m].filter (fun y => digOf exp y == d) = [] := by
        rw [List.filter_cons,
          if_neg (show ¬ ((digOf exp (lget a m) == d) = true) by
            simp only [beq_iff_eq]; omega),
          List.filter_nil]
      rw [hnil, List.append_nil]
    have hcount' : ∀ d, d < 10 →
        lget (count.set (digOf exp (lget a m))
          (lget count (digOf exp (lget a m)) - 1)) d
        = cntLt exp a d + cntEq exp (a.take m) d := by
      intro d hd
      by_cases hdd : d = digOf exp (lget a m)
      · rw [hdd, lget_set_self (by rw [hc10]; exact hd0lt), hp0]
      · rw [lget_set_ne (fun h => hdd h.symm), hcount d hd, hcsne d hdd]
    have hdisj : ∀ d, d < 10 → d ≠ digOf exp (lget a m) →
        ¬ (cntLt exp a d ≤ lget count (digOf exp (lget a m)) - 1 ∧
           lget count (digOf exp (lget a m)) - 1
             < cntLt exp a d + cntEq exp (a.take m) d) := by
      intro d hd hne
      rw [hp0]
      rcases lt_or_gt_of_ne hne with hlt | hgt
      · have h1 := cntEq_take_le exp a m d
        have h2 := cntLt_succ exp a d
        have h3 : cntLt exp a (d + 1) ≤ cntLt exp a (digOf exp (lget a m)) :=
          cntLt_mono exp a (by omega)
        omega
      · have h2 := cntLt_succ exp a (digOf exp (lget a m))
        have h3 : cntLt exp a (digOf exp (lget a m) + 1) ≤ cntLt exp a d :=
          cntLt_mono exp a (by omega)
        omega
    obtain ⟨L, B, Un⟩ := ih exp a { s with swaps := s.swaps + 1 }
      (output.set (lget count (digOf exp (lget a m)) - 1) (lget a m))
      (count.set (digOf exp (lget a m)) (lget count (digOf exp (lget a m)) - 1))
      (by omega) (by rw [List.length_set]; exact hao)
      (by rw [List.length_set]; exact hc10) hcount'
    refine ⟨by rw [L, List.length_set], ?_, ?_⟩
    · intro d j hd hj
      by_cases hdd : d = digOf exp (lget a m)
      · rw [hdd] at hj ⊢
        rcases lt_or_ge j (cntEq exp (a.take m) (digOf exp (lget a m))) with hjlt | hjge
        · rw [B _ j hd0lt hjlt, hfilter_succ_eq,
            lget_append_left (by rw [cntEq_filter_length]; exact hjlt)]
        · have hjeq : j = cntEq exp (a.take m) (digOf exp (lget a m)) := by
            rw [hcsd0] at hj
            omega
          have hside : ∀ d', d' < 10 →
              ¬ (cntLt exp a d' ≤ lget count (digOf exp (lget a m)) - 1 ∧
                 lget count (digOf exp (lget a m)) - 1
                   < cntLt exp a d' + cntEq exp (a.take m) d') := by
            intro d' hd'
            by_cases hdd' : d' = digOf exp (lget a m)
            · rw [hdd', hp0]
              omega
            · exact hdisj d' hd' hdd'
          have hpos : cntLt exp a (digOf exp (lget a m)) + j
              = lget count (digOf exp (lget a m)) - 1 := by
            rw [hp0, hjeq]
          rw [hpos, Un (lget count (digOf exp (lget a m)) - 1) hside,
            lget_set_self hp0lt, hfilter_succ_eq,
            lget_append_right (by rw [cntEq_filter_length]; omega),
            cntEq_filter_length, hjeq, Nat.sub_self, lget_cons_zero]
      · have hjm : j < cntEq exp (a.take m) d := by
          rw [hcsne d hdd] at hj
          exact hj
        rw [B d j hd hjm, hfilter_succ_ne d hdd]
    · intro p hp
      have hp' : ∀ d, d < 10 →
          ¬ (cntLt exp a d ≤ p ∧ p < cntLt exp a d + cntEq exp (a.take m) d) := by
        intro d hd
        have h1 := hp d hd
        by_cases hdd : d = digOf exp (lget a m)
        · rw [hdd] at h1 ⊢
          rw [hcsd0] at h1
          omega
        · rw [hcsne d hdd] at h1
          exact h1
      rw [Un p hp']
      have hpne : p ≠ lget count (digOf exp (lget a m)) - 1 := by
        intro h
        have h1 := hp (digOf exp (lget a m)) hd0lt
        rw [hcsd0] at h1
        rw [hp0] at h
        omega
      rw [lget_set_ne (fun h => hpne h.symm)]

theorem lget_ext {l1 l2 : List Nat} (hlen : l1.length = l2.length)
    (h : ∀ p, p < l1.length → lget l1 p = lget l2 p) : l1 = l2 := by
  apply List.ext_getElem hlen
  intro i h1 h2
  have hv := h i h1
  rw [lget, List.getD_eq_getElem _ _ h1, lget, List.getD_eq_getElem _ _ h2] at hv
  exact hv

theorem bconcat_length (exp : Nat) (l : List Nat) : ∀ (fuel d : Nat),
    (bconcatFrom exp l fuel d).length + cntLt exp l d = cntLt exp l (d + fuel) := by
  intro fuel
  induction fuel with
  | zero =>
    intro d
    rw [bconcatFrom]
    simp
  | succ fuel ih =>
    intro d
    rw [bconcatFrom, List.length_append, cntEq_filter_length]
    have hrec := ih (d + 1)
    have hidx : d + 1 + fuel = d + (fuel + 1) := by omega
    rw [hidx] at hrec
    have hsucc := cntLt_succ exp l d
    omega

theorem bconcat_get (exp : Nat) (l : List Nat) : ∀ (fuel d0 d j : Nat),
    d0 ≤ d → d < d0 + fuel → j < cntEq exp l d →
    lget (bconcatFrom exp l fuel d0) ((cntLt exp l d - cntLt exp l d0) + j)
      = lget (l.filter (fun x => digOf exp x == d)) j := by
  intro fuel
  induction fuel with
  | zero =>
    intro d0 d j h1 h2 h3
    exact absurd h1 (by omega)
  | succ fuel ih =>
    intro d0 d j h1 h2 h3
    rw [bconcatFrom]
    by_cases hd : d = d0
    · rw [hd]
      have hz : cntLt exp l d0 - cntLt exp l d0 + j = j := by omega
      rw [hz, lget_append_left (by rw [cntEq_filter_length]; rw [hd] at h3; exact h3)]
    · have hd1 : d0 + 1 ≤ d := by omega
      have hmono := cntLt_mono exp l hd1
      have hsucc := cntLt_succ exp l d0
      have hflen : (l.filter (fun x => digOf exp x == d0)).length = cntEq exp l d0 :=
        cntEq_filter_length exp l d0
      have hidx : (cntLt exp l d - cntLt exp l d0) + j
          = (l.filter (fun x => digOf exp x == d0)).length
            + ((cntLt exp l d - cntLt exp l (d0 + 1)) + j) := by
        rw [hflen]
        omega
      rw [hidx, lget_append_right (Nat.le_add_right _ _)]
      have hsub : (l.filter (fun x => digOf exp x == d0)).length
          + ((cntLt exp l d - cntLt exp l (d0 + 1)) + j)
          - (l.filter (fun x => digOf exp x == d0)).length
          = (cntLt exp l d - cntLt exp l (d0 + 1)) + j := by omega
      rw [hsub]
      exact ih (d0 + 1) d j hd1 (by omega) h3

theorem count_bconcatFrom (exp : Nat) (l : List Nat) : ∀ (fuel d0 y : Nat),
    List.count y (bconcatFrom exp l fuel d0)
      = if d0 ≤ digOf exp y ∧ digOf exp y < d0 + fuel then List.count y l else 0 := by
  intro fuel
  induction fuel with
  | zero =>
    intro d0 y
    rw [bconcatFrom, if_neg (by omega)]
    rfl
  | succ fuel ih =>
    intro d0 y
    rw [bconcatFrom, List.count_append, ih (d0 + 1) y]
    by_cases hy : digOf exp y = d0
    · have hfc : List.count y (List.filter (fun x => digOf exp x == d0) l)
          = List.count y l :=
        List.count_filter (by simp [hy])
      rw [hfc, if_neg (by omega), if_pos (by omega)]
      omega
    · have hzero : List.count y (l.filter (fun x => digOf exp x == d0)) = 0 := by
        rw [List.count_eq_zero]
        intro hmem
        have := (List.mem_filter.mp hmem).2
        simp only [beq_iff_eq] at this
        exact hy this
      rw [hzero]
      by_cases hcond : d0 + 1 ≤ digOf exp y ∧ digOf exp y < d0 + 1 + fuel
      · rw [if_pos hcond, if_pos (by omega)]
        omega
      · rw [if_neg hcond, if_neg (by omega)]

theorem bconcat_perm (exp : Nat) (l : List Nat) :
    List.Perm (bconcatFrom exp l 10 0) l := by
  rw [List.perm_iff_count]
  intro y
  rw [count_bconcatFrom, if_pos ⟨Nat.zero_le _, by
    have := digOf_lt_ten exp y
    omega⟩]

theorem mem_bconcatFrom (exp : Nat) (l : List Nat) : ∀ (fuel d0 y : Nat),
    y ∈ bconcatFrom exp l fuel d0 → d0 ≤ digOf exp y ∧ y ∈ l := by
  intro fuel
  induction fuel with
  | zero =>
    intro d0 y h
    rw [bconcatFrom] at h
    exact absurd h (List.not_mem_nil y)
  | succ fuel ih =>
    intro d0 y h
    rw [bconcatFrom, List.mem_append] at h
    rcases h with h | h
    · obtain ⟨hmem, hbeq⟩ := List.mem_filter.mp h
      simp only [beq_iff_eq] at hbeq
      exact ⟨by omega, hmem⟩
    · obtain ⟨hge, hmem⟩ := ih (d0 + 1) y h
      exact ⟨by omega, hmem⟩

theorem cntLt_locate (exp : Nat) (l : List Nat) : ∀ (D p : Nat),
    p < cntLt exp l D →
    ∃ d, d < D ∧ cntLt exp l d ≤ p ∧ p < cntLt exp l (d + 1) := by
  intro D
  induction D with
  | zero =>
    intro p hp
    rw [cntLt_zero] at hp
    omega
  | succ D ih =>
    intro p hp
    rcases lt_or_ge p (cntLt exp l D) with h | h
    · obtain ⟨d, h1, h2, h3⟩ := ih p h
      exact ⟨d, by omega, h2, h3⟩
    · exact ⟨D, by omega, h, hp⟩

theorem pass_arr (s : SState) (exp : Nat) :
    (counting_sort_by_digit s exp).arr = bconcatFrom exp s.arr 10 0 := by
  simp only [counting_sort_by_digit]
  have hcd := countDigits_pure s.arr exp s (List.replicate 10 0)
  set hist := (countDigits exp s (List.replicate 10 0) s.arr).2 with hhist
  set s1 := (countDigits exp s (List.replicate 10 0) s.arr).1 with hs1
  have hlenh : hist.length = 10 := by
    rw [hhist, hcd.2]
    simp
  have harr1 : s1.arr = s.arr := hcd.1
  have hhval : ∀ d, lget hist d = cntEq exp s.arr d := by
    intro d
    rw [hhist, countDigits_hist s.arr exp s _
      (fun x hx => by simpa using digOf_lt_ten exp x) d, lget_replicate_zero]
    omega
  obtain ⟨pL, pE1, pE2⟩ := psumLoop_spec 9 1 hist (le_refl _) (by rw [hlenh])
  set count := psumLoop hist 1 9 with hcount
  have hclen : count.length = 10 := by rw [hcount, pL, hlenh]
  have hsum : ∀ d, d ≤ 9 → sumSeg hist 0 (d + 1) = cntLt exp s.arr (d + 1) := by
    intro d
    induction d with
    | zero =>
      intro _
      rw [sumSeg, sumSeg, hhval 0, cntLt_succ, cntLt_zero]
      omega
    | succ d ihd =>
      intro hd
      rw [sumSeg_snoc]
      have h0 : (0 : Nat) + (d + 1) = d + 1 := by omega
      rw [h0, ihd (by omega), hhval (d + 1), cntLt_succ exp s.arr (d + 1)]
  have hcval : ∀ d, d < 10 → lget count d = cntLt exp s.arr d + cntEq exp s.arr d := by
    intro d hd
    rcases Nat.eq_zero_or_pos d with h0 | hpos
    · rw [h0, hcount, pE1 0 (by omega), hhval 0, cntLt_zero]
      omega
    · rw [hcount, pE2 d (by omega) (by omega)]
      have hx : (1 : Nat) - 1 = 0 := rfl
      have hy : d - 1 + 2 = d + 1 := by omega
      rw [hx, hy, hsum d (by omega), cntLt_succ]
  obtain ⟨fL, fB, fUn⟩ := fillLoop_spec s.arr.length exp s.arr s1
    (List.replicate s.arr.length 0) count (le_refl _) (by simp) hclen
    (fun d hd => by rw [List.take_length]; exact hcval d hd)
  rw [fillLoop_arr, harr1]
  have hOlen : (fillLoop exp s.arr s1 (List.replicate s.arr.length 0) count
      s.arr.length).2.1.length = s.arr.length := by
    rw [fL]
    simp
  rw [setSeq_all hOlen]
  have hBlen : (bconcatFrom exp s.arr 10 0).length = s.arr.length := by
    have h := bconcat_length exp s.arr 10 0
    rw [cntLt_zero] at h
    have h10 : cntLt exp s.arr (0 + 10) = s.arr.length := by
      have he : (0 : Nat) + 10 = 10 := rfl
      rw [he, cntLt_ten]
    omega
  apply lget_ext (by rw [hOlen, hBlen])
  intro p hp
  rw [hOlen] at hp
  have hp10 : p < cntLt exp s.arr 10 := by
    rw [cntLt_ten]
    exact hp
  obtain ⟨d, hd, h1, h2⟩ := cntLt_locate exp s.arr 10 p hp10
  have hsucc := cntLt_succ exp s.arr d
  have hj : p - cntLt exp s.arr d < cntEq exp s.arr d := by omega
  have hO := fB d (p - cntLt exp s.arr d) hd (by rw [List.take_length]; exact hj)
  rw [List.take_length] at hO
  have hidx : cntLt exp s.arr d + (p - cntLt exp s.arr d) = p := by omega
  rw [hidx] at hO
  have hB := bconcat_get exp s.arr 10 0 d (p - cntLt exp s.arr d)
    (Nat.zero_le _) (by omega) hj
  rw [cntLt_zero] at hB
  have hidx2 : cntLt exp s.arr d - 0 + (p - cntLt exp s.arr d) = p := by omega
  rw [hidx2] at hB
  rw [hO, hB]

theorem mod_mul_decomp (e x : Nat) (he : 0 < e) :
    x % (e * 10) = (x / e % 10) * e + x % e := by
  have hx : e * (x / e) + x % e = x := Nat.div_add_mod x e
  have hq : 10 * (x / e / 10) + (x / e) % 10 = x / e := Nat.div_add_mod (x / e) 10
  have hlt : (x / e % 10) * e + x % e < e * 10 := by
    have hr : x / e % 10 < 10 := Nat.mod_lt _ (by omega)
    have hm : x % e < e := Nat.mod_lt _ he
    have hb : (x / e % 10) * e ≤ 9 * e := Nat.mul_le_mul_right e (by omega)
    omega
  have hdecomp : x = (e * 10) * (x / e / 10) + ((x / e % 10) * e + x % e) := by
    calc x = e * (x / e) + x % e := hx.symm
    _ = e * (10 * (x / e / 10) + (x / e) % 10) + x % e := by rw [hq]
    _ = (e * 10) * (x / e / 10) + ((x / e % 10) * e + x % e) := by ring
  calc x % (e * 10)
      = ((e * 10) * (x / e / 10) + ((x / e % 10) * e + x % e)) % (e * 10) := by
        rw [← hdecomp]
    _ = ((x / e % 10) * e + x % e) % (e * 10) := by rw [Nat.mul_add_mod]
    _ = (x / e % 10) * e + x % e := Nat.mod_eq_of_lt hlt

theorem bconcat_sorted (exp : Nat) (l : List Nat) (he : 0 < exp)
    (hs : l.Sorted (fun x y => x % exp ≤ y % exp)) : ∀ (fuel d0 : Nat),
    (bconcatFrom exp l fuel d0).Sorted
      (fun x y => x % (exp * 10) ≤ y % (exp * 10)) := by
  intro fuel
  induction fuel with
  | zero => intro d0; rw [bconcatFrom]; exact List.sorted_nil
  | succ fuel ih =>
    intro d0
    rw [bconcatFrom, List.Sorted, List.pairwise_append]
    refine ⟨?_, ih (d0 + 1), ?_⟩
    · have hps : (l.filter (fun x => digOf exp x == d0)).Pairwise
          (fun x y => x % exp ≤ y % exp) :=
        List.Pairwise.sublist (List.filter_sublist l) hs
      refine List.Pairwise.imp_of_mem ?_ hps
      intro x y hx hy hxy
      have hdx : digOf exp x = d0 := by simpa using (List.mem_filter.mp hx).2
      have hdy : digOf exp y = d0 := by simpa using (List.mem_filter.mp hy).2
      rw [mod_mul_decomp exp x he, mod_mul_decomp exp y he]
      rw [digOf] at hdx hdy
      rw [hdx, hdy]
      omega
    · intro x hx y hy
      have hdx : digOf exp x = d0 := by simpa using (List.mem_filter.mp hx).2
      obtain ⟨hge, _⟩ := mem_bconcatFrom exp l fuel (d0 + 1) y hy
      rw [mod_mul_decomp exp x he, mod_mul_decomp exp y he]
      rw [digOf] at hdx hge
      have hxe : x % exp < exp := Nat.mod_lt _ he
      have h1 : (x / exp % 10 + 1) * exp = (x / exp % 10) * exp + exp := by ring
      have h2 : (x / exp % 10 + 1) * exp ≤ (y / exp % 10) * exp :=
        Nat.mul_le_mul_right exp (by omega)
      omega

theorem sorted_of_mod_sorted {l : List Nat} {e : Nat}
    (hs : l.Sorted (fun x y => x % e ≤ y % e))
    (hb : ∀ x, x ∈ l → x < e) : l.Sorted (· ≤ ·) := by
  refine List.Pairwise.imp_of_mem ?_ hs
  intro x y hx hy hxy
  rwa [Nat.mod_eq_of_lt (hb x hx), Nat.mod_eq_of_lt (hb y hy)] at hxy

theorem sorted_mod_one : ∀ (l : List Nat), l.Sorted (fun x y => x % 1 ≤ y % 1) := by
  intro l
  induction l with
  | nil => exact List.sorted_nil
  | cons x t ih =>
    rw [List.sorted_cons]
    exact ⟨fun y _ => by simp [Nat.mod_one], ih⟩

theorem radixLoop_spec : ∀ (fuel : Nat) (s : SState) (exp max_val : Nat),
    0 < exp →
    (∀ x, x ∈ s.arr → x ≤ max_val) →
    s.arr.Sorted (fun x y => x % exp ≤ y % exp) →
    max_val < exp * 10 ^ fuel →
    List.Perm (radixLoop max_val fuel s exp).arr s.arr ∧
    (radixLoop max_val fuel s exp).arr.Sorted (· ≤ ·) := by
  intro fuel
  induction fuel with
  | zero =>
    intro s exp max_val he hmax hsort hpow
    rw [radixLoop]
    refine ⟨List.Perm.refl _, ?_⟩
    rw [pow_zero, mul_one] at hpow
    exact sorted_of_mod_sorted hsort (fun x hx => by have := hmax x hx; omega)
  | succ fuel ih =>
    intro s exp max_val he hmax hsort hpow
    rw [radixLoop]
    by_cases hcond : max_val / exp > 0
    · rw [if_pos hcond]
      have hparr := pass_arr s exp
      have hperm : List.Perm (counting_sort_by_digit s exp).arr s.arr := by
        rw [hparr]
        exact bconcat_perm exp s.arr
      have hmax' : ∀ x, x ∈ (counting_sort_by_digit s exp).arr → x ≤ max_val :=
        fun x hx => hmax x (hperm.mem_iff.mp hx)
      have hsort' : (counting_sort_by_digit s exp).arr.Sorted
          (fun x y => x % (exp * 10) ≤ y % (exp * 10)) := by
        rw [hparr]
        exact bconcat_sorted exp s.arr he hsort 10 0
      obtain ⟨P, S⟩ := ih (counting_sort_by_digit s exp) (exp * 10) max_val
        (by omega) hmax' hsort'
        (by
          have hpow2 : exp * 10 * 10 ^ fuel = exp * 10 ^ (fuel + 1) := by
            rw [pow_succ]
            ring
          omega)
      exact ⟨P.trans hperm, S⟩
    · rw [if_neg hcond]
      have hexp : max_val < exp := by
        by_contra hle
        have h1 : 1 ≤ max_val / exp := (Nat.one_le_div_iff he).mpr (by omega)
        omega
      exact ⟨List.Perm.refl _,
        sorted_of_mod_sorted hsort (fun x hx => by have := hmax x hx; omega)⟩

theorem radix_sort_correct (s : SState) :
    List.Perm (radix_sort s).arr s.arr ∧ (radix_sort s).arr.Sorted (· ≤ ·) := by
  rw [radix_sort]
  by_cases h0 : s.arr = []
  · rw [if_pos h0]
    exact ⟨List.Perm.refl _, by rw [h0]; exact List.sorted_nil⟩
  · rw [if_neg h0]
    exact radixLoop_spec (maxOf s.arr + 1) s 1 (maxOf s.arr) (by omega)
      (fun x hx => maxOf_ge s.arr x hx) (sorted_mod_one s.arr)
      (by
        have h1 : maxOf s.arr < 10 ^ (maxOf s.arr) :=
          Nat.lt_pow_self (by omega) (maxOf s.arr)
        have h2 : (10 : Nat) ^ (maxOf s.arr) ≤ 10 ^ (maxOf s.arr + 1) :=
          Nat.pow_le_pow_right (by omega) (by omega)
        omega)

/-! ## Shell Sort correctness -/

theorem shWhile_perm (gap temp : Nat) (hgap : 0 < gap) : ∀ (fuel : Nat) (s : SState) (j : Nat),
    j < s.arr.length →
    (shWhile gap temp fuel s j).1.arr.length = s.arr.length ∧
    (shWhile gap temp fuel s j).2 ≤ j ∧
    List.Perm ((shWhile gap temp fuel s j).1.arr.set (shWhile gap temp fuel s j).2 temp)
      (s.arr.set j temp) := by
  intro fuel
  induction fuel with
  | zero =>
    intro s j hj
    rw [shWhile]
    exact ⟨rfl, le_refl _, List.Perm.refl _⟩
  | succ fuel ih =>
    intro s j hj
    rw [shWhile]
    by_cases hc : gap ≤ j ∧ lget s.arr (j - gap) > temp
    · rw [if_pos hc]
      set s2 : SState :=
        { s with comparisons := s.comparisons + 1,
                 arr := s.arr.set j (lget s.arr (j - gap)),
                 swaps := s.swaps + 1 } with hs2
      have harr2 : s2.arr = s.arr.set j (lget s.arr (j - gap)) := rfl
      have hlen2 : s2.arr.length = s.arr.length := by rw [harr2, List.length_set]
      have hjg : j - gap < s2.arr.length := by omega
      obtain ⟨L, J, P⟩ := ih s2 (j - gap) hjg
      have hne : j ≠ j - gap := by omega
      have hkey : s2.arr.set (j - gap) temp = lswap (s.arr.set j temp) (j - gap) j := by
        rw [harr2, lswap]
        have h1 : lget (s.arr.set j temp) j = temp := lget_set_self hj temp
        have h2 : lget (s.arr.set j temp) (j - gap) = lget s.arr (j - gap) :=
          lget_set_ne (Ne.symm (Ne.symm hne)) temp
        rw [h1, h2]
        calc (s.arr.set j (lget s.arr (j - gap))).set (j - gap) temp
            = (s.arr.set (j - gap) temp).set j (lget s.arr (j - gap)) :=
              List.set_comm _ _ s.arr hne
          _ = ((s.arr.set (j - gap) temp).set j temp).set j (lget s.arr (j - gap)) :=
              (List.set_set _ _ _ _).symm
          _ = ((s.arr.set j temp).set (j - gap) temp).set j (lget s.arr (j - gap)) := by
              rw [List.set_comm temp temp s.arr (Ne.symm hne)]
      have hswap : List.Perm (s2.arr.set (j - gap) temp) (s.arr.set j temp) := by
        rw [hkey]
        exact lswap_perm _ _ _ (by rw [List.length_set]; omega)
          (by rw [List.length_set]; exact hj)
      exact ⟨by rw [L, hlen2], by omega, P.trans hswap⟩
    · rw [if_neg hc]
      exact ⟨rfl, le_refl _, List.Perm.refl _⟩

theorem shIter_perm (gap : Nat) (hgap : 0 < gap) : ∀ (rem : Nat) (s : SState) (i : Nat),
    i + rem ≤ s.arr.length →
    (shIter gap s i rem).arr.length = s.arr.length ∧
    List.Perm (shIter gap s i rem).arr s.arr := by
  intro rem
  induction rem with
  | zero =>
    intro s i _
    rw [shIter]
    exact ⟨rfl, List.Perm.refl _⟩
  | succ rem ih =>
    intro s i hlen
    simp only [shIter]
    have hi : i < s.arr.length := by omega
    obtain ⟨L, J, P⟩ := shWhile_perm gap (lget s.arr i) hgap i s i hi
    set r := shWhile gap (lget s.arr i) i s i with hr
    set s2 : SState := { r.1 with arr := r.1.arr.set r.2 (lget s.arr i) } with hs2
    have harr2 : s2.arr = r.1.arr.set r.2 (lget s.arr i) := rfl
    have hperm2 : List.Perm s2.arr s.arr := by
      rw [harr2]
      refine P.trans ?_
      rw [set_lget_self]
    have hlen2 : s2.arr.length = s.arr.length := hperm2.length_eq
    obtain ⟨L3, P3⟩ := ih s2 (i + 1) (by omega)
    exact ⟨by rw [L3, hlen2], P3.trans hperm2⟩

theorem shWhile_one (temp : Nat) : ∀ (fuel : Nat) (s : SState) (j : Nat),
    j ≤ fuel → shWhile 1 temp fuel s j = insWhile temp s j := by
  intro fuel
  induction fuel with
  | zero =>
    intro s j hj
    have hj0 : j = 0 := by omega
    rw [hj0, shWhile, insWhile]
  | succ fuel ih =>
    intro s j hj
    cases j with
    | zero =>
      rw [shWhile, if_neg (fun h => absurd h.1 (by omega)), insWhile]
    | succ jp =>
      rw [shWhile, insWhile]
      have hidx : jp + 1 - 1 = jp := by omega
      rw [hidx]
      by_cases hgt : lget s.arr jp > temp
      · rw [if_pos ⟨by omega, hgt⟩, if_pos hgt]
        exact ih _ jp (by omega)
      · rw [if_neg (fun h => hgt h.2), if_neg hgt]

theorem shIter_one : ∀ (rem : Nat) (s : SState) (i : Nat),
    shIter 1 s i rem = insOuter s i rem := by
  intro rem
  induction rem with
  | zero => intro s i; rw [shIter, insOuter]
  | succ rem ih =>
    intro s i
    simp only [shIter, insOuter]
    rw [shWhile_one (lget s.arr i) i s i (le_refl _), ih]

theorem shGapLoop_spec (n : Nat) : ∀ (fuel : Nat) (s : SState) (gap : Nat),
    n = s.arr.length → gap ≤ fuel → 0 < gap → gap ≤ n →
    List.Perm (shGapLoop n fuel s gap).arr s.arr ∧
    (shGapLoop n fuel s gap).arr.Sorted (· ≤ ·) := by
  intro fuel
  induction fuel with
  | zero =>
    intro s gap hn hf hg _
    exact absurd hg (by omega)
  | succ fuel ih =>
    intro s gap hn hf hg hgn
    rw [shGapLoop, if_pos hg]
    obtain ⟨L1, P1⟩ := shIter_perm gap hg (n - gap) s gap (by omega)
    set s2 := shIter gap s gap (n - gap) with hs2
    by_cases hg2 : 0 < gap / 2
    · obtain ⟨P3, S3⟩ := ih s2 (gap / 2) (by rw [L1]; exact hn) (by omega) hg2 (by omega)
      exact ⟨P3.trans P1, S3⟩
    · have hg1 : gap = 1 := by omega
      subst hg1
      have h12 : (1 : Nat) / 2 = 0 := rfl
      have hstop : shGapLoop n fuel s2 (1 / 2) = s2 := by
        rw [h12]
        cases fuel with
        | zero => rw [shGapLoop]
        | succ fuel => rw [shGapLoop, if_neg (by omega)]
      rw [hstop, hs2, shIter_one (n - 1) s 1]
      obtain ⟨L, P, S, _⟩ := insOuter_spec n (n - 1) 1 s hn.symm (by omega)
        (le_refl _) (fun p q hpq hq => by omega)
      refine ⟨P, ?_⟩
      rw [sortedLe_iff]
      intro p q hpq hq
      rw [L] at hq
      exact S p q hpq hq

theorem shell_sort_correct (s : SState) :
    List.Perm (shell_sort s).arr s.arr ∧ (shell_sort s).arr.Sorted (· ≤ ·) := by
  simp only [shell_sort]
  rcases Nat.eq_zero_or_pos (s.arr.length / 2) with h0 | hpos
  · rw [h0, shGapLoop, if_neg (by omega)]
    refine ⟨List.Perm.refl _, ?_⟩
    exact sorted_of_length_le_one (by omega)
  · exact shGapLoop_spec s.arr.length (s.arr.length / 2 + 1) s (s.arr.length / 2)
      rfl (by omega) hpos (by omega)

/-- **C1.** For every finite input array of naturals, each of the nine
sorting algorithms (bubble, selection, insertion, merge, quick, heap,
counting, radix, shell), run to completion without cancellation, leaves the
array sorted ascending and multiset-equal to (a permutation of) the input. -/
theorem claim_C1_all_nine_sorts (l : List Nat) :
    (List.Perm (bubbleRun l).arr l ∧ (bubbleRun l).arr.Sorted (· ≤ ·)) ∧
    (List.Perm (selectionRun l).arr l ∧ (selectionRun l).arr.Sorted (· ≤ ·)) ∧
    (List.Perm (insertionRun l).arr l ∧ (insertionRun l).arr.Sorted (· ≤ ·)) ∧
    (List.Perm (mergeRun l).arr l ∧ (mergeRun l).arr.Sorted (· ≤ ·)) ∧
    (List.Perm (quickRun l).arr l ∧ (quickRun l).arr.Sorted (· ≤ ·)) ∧
    (List.Perm (heapRun l).arr l ∧ (heapRun l).arr.Sorted (· ≤ ·)) ∧
    (List.Perm (countingRun l).arr l ∧ (countingRun l).arr.Sorted (· ≤ ·)) ∧
    (List.Perm (radixRun l).arr l ∧ (radixRun l).arr.Sorted (· ≤ ·)) ∧
    (List.Perm (shellRun l).arr l ∧ (shellRun l).arr.Sorted (· ≤ ·)) :=
  ⟨bubble_sort_correct ⟨l, 0, 0⟩, selection_sort_correct ⟨l, 0, 0⟩,
    ⟨(insertion_sort_correct ⟨l, 0, 0⟩).1, (insertion_sort_correct ⟨l, 0, 0⟩).2.1⟩,
    merge_sort_correct ⟨l, 0, 0⟩,
    quick_sort_correct ⟨l, 0, 0⟩, heap_sort_correct ⟨l, 0, 0⟩,
    counting_sort_correct ⟨l, 0, 0⟩, radix_sort_correct ⟨l, 0, 0⟩,
    shell_sort_correct ⟨l, 0, 0⟩⟩

/-! ## The step generator never mutates the caller's cell -/

theorem bsRead_set_ne {st : Store} {b a : Nat} (h : b ≠ a) (x : List Nat) :
    bsRead (st.set b x) a = bsRead st a := by
  unfold bsRead
  by_cases ha : a < st.length
  · rw [List.getD_eq_getElem _ _ (by simpa using ha), List.getD_eq_getElem _ _ ha]
    exact List.getElem_set_ne h _
  · rw [List.getD_eq_default _ _ (by simpa using Nat.le_of_not_lt ha),
      List.getD_eq_default _ _ (Nat.le_of_not_lt ha)]

theorem bsRead_append_left {st : Store} {a : Nat} (h : a < st.length)
    (cell : List Nat) : bsRead (st ++ [cell]) a = bsRead st a := by
  unfold bsRead
  rw [List.getD_eq_getElem _ _ (by simp; omega), List.getD_eq_getElem _ _ h]
  exact List.getElem_append_left h

theorem bsInner_frame (aAddr : Nat) : ∀ (rem : Nat) (st : Store) (j : Nat)
    (made : Bool),
    (bsInner aAddr st j rem made).1.length = st.length ∧
    (∀ a, a ≠ aAddr → bsRead (bsInner aAddr st j rem made).1 a = bsRead st a) := by
  intro rem
  induction rem with
  | zero =>
    intro st j made
    exact ⟨rfl, fun a _ => rfl⟩
  | succ rem ih =>
    intro st j made
    rw [bsInner]
    by_cases hc : lget (bsRead st aAddr) j > lget (bsRead st aAddr) (j + 1)
    · simp only [hc, if_true]
      obtain ⟨L, U⟩ := ih (st.set aAddr (lswap (bsRead st aAddr) j (j + 1))) (j + 1) true
      refine ⟨by rw [L, List.length_set], ?_⟩
      intro a ha
      rw [U a ha, bsRead_set_ne (fun h => ha h.symm)]
    · simp only [hc, if_false]
      obtain ⟨L, U⟩ := ih st (j + 1) made
      exact ⟨L, fun a ha => U a ha⟩

theorem bsOuter_frame (aAddr n : Nat) : ∀ (rem : Nat) (st : Store) (passnum : Nat),
    (∀ a, a ≠ aAddr → bsRead (bsOuter aAddr n st passnum rem).1 a = bsRead st a) := by
  intro rem
  induction rem with
  | zero =>
    intro st passnum a _
    rfl
  | succ rem ih =>
    intro st passnum a ha
    rw [bsOuter]
    obtain ⟨L, U⟩ := bsInner_frame aAddr (n - passnum - 1) st 0 false
    by_cases hc : (bsInner aAddr st 0 (n - passnum - 1) false).2.1
    · simp only [hc, if_true]
      rw [ih _ (passnum + 1) a ha, U a ha]
    · simp only [hc, if_false]
      exact U a ha

/-- **C10.** The step generator `bubble_sort_steps` never mutates the list
passed to it: it copies the caller's cell into a fresh cell of the store and
sorts there, so after the generator is fully exhausted every cell that
existed before the call — in particular the caller's list — reads
element-for-element the same as before. -/
theorem claim_C10_no_caller_mutation (st : Store) (arrAddr a : Nat)
    (ha : a < st.length) :
    bsRead (bubble_sort_steps st arrAddr).1 a = bsRead st a := by
  simp only [bubble_sort_steps]
  have hane : a ≠ st.length := by omega
  by_cases hn : (bsRead st arrAddr).length ≤ 1
  · rw [if_pos hn]
    exact bsRead_append_left ha _
  · rw [if_neg hn]
    rw [bsOuter_frame st.length (bsRead st arrAddr).length
      ((bsRead st arrAddr).length - 1) (st ++ [bsRead st arrAddr]) 0 a hane]
    exact bsRead_append_left ha _

/-- The frame property applied at a concrete store: running the generator on
the single-cell store `[[2, 1]]` leaves cell `0` still reading `[2, 1]`. -/
theorem claim_C10_witness :
    0 < ([[2, 1]] : Store).length ∧
    bsRead (bubble_sort_steps [[2, 1]] 0).1 0 = bsRead [[2, 1]] 0 :=
  ⟨by decide, claim_C10_no_caller_mutation [[2, 1]] 0 0 (by decide)⟩

/-! ## Cancellation: Bubble Sort preserves the multiset at every stop
point -/

theorem visualize_step_arr (s : CState) : (visualize_step s).1.arr = s.arr := by
  rw [visualize_step]
  split <;> rfl

theorem bubbleInnerC_perm : ∀ (rem j : Nat) (s : CState) (sw : Bool),
    j + rem < s.arr.length →
    (bubbleInnerC s j rem sw).1.arr.length = s.arr.length ∧
    List.Perm (bubbleInnerC s j rem sw).1.arr s.arr := by
  intro rem
  induction rem with
  | zero => intro j s sw _; exact ⟨rfl, List.Perm.refl _⟩
  | succ rem ih =>
    intro j s sw h
    rw [bubbleInnerC]
    set s1 : CState := { s with comparisons := s.comparisons + 1 } with hs1
    have h1 : (visualize_step s1).1.arr = s.arr := by rw [visualize_step_arr]
    cases hb : (visualize_step s1).2 with
    | false =>
      simp only [eq_self_iff_true, if_true]
      rw [h1]
      exact ⟨rfl, List.Perm.refl _⟩
    | true =>
      simp only [Bool.true_eq_false, if_false]
      by_cases hgt : lget (visualize_step s1).1.arr j > lget (visualize_step s1).1.arr (j + 1)
      · simp only [hgt, if_true]
        set s2 : CState := { (visualize_step s1).1 with
          arr := lswap (visualize_step s1).1.arr j (j + 1),
          swaps := (visualize_step s1).1.swaps + 1 } with hs2
        have h2 : s2.arr = lswap s.arr j (j + 1) := by
          rw [hs2]
          simp only [h1]
        have hperm2 : List.Perm s2.arr s.arr := by
          rw [h2]
          exact lswap_perm _ _ _ (by omega) (by omega)
        have hlen2 : s2.arr.length = s.arr.length := by
          rw [h2, length_lswap]
        have h3 : (visualize_step s2).1.arr = s2.arr := visualize_step_arr s2
        cases hb2 : (visualize_step s2).2 with
        | false =>
          simp only [eq_self_iff_true, if_true]
          rw [h3]
          exact ⟨hlen2, hperm2⟩
        | true =>
          simp only [Bool.true_eq_false, if_false]
          have hlt : (j + 1) + rem < (visualize_step s2).1.arr.length := by
            rw [h3, hlen2]
            omega
          obtain ⟨l1, p1⟩ := ih (j + 1) (visualize_step s2).1 true hlt
          refine ⟨by rw [l1, h3, hlen2], ?_⟩
          rw [h3] at p1
          exact (p1.trans hperm2)
      · simp only [hgt, if_false]
        have hlt : (j + 1) + rem < (visualize_step s1).1.arr.length := by
          rw [h1]
          omega
        obtain ⟨l1, p1⟩ := ih (j + 1) (visualize_step s1).1 sw hlt
        rw [h1] at p1
        exact ⟨by rw [l1, h1], p1⟩

theorem bubbleOuterC_perm (n : Nat) : ∀ (rem i : Nat) (s : CState),
    s.arr.length = n → i + rem = n →
    (bubbleOuterC n s i rem).arr.length = n ∧
    List.Perm (bubbleOuterC n s i rem).arr s.arr := by
  intro rem
  induction rem with
  | zero => intro i s hlen _; exact ⟨hlen, List.Perm.refl _⟩
  | succ rem ih =>
    intro i s hlen hi
    rw [bubbleOuterC]
    have h1 : (visualize_step s).1.arr = s.arr := visualize_step_arr s
    cases hb : (visualize_step s).2 with
    | false =>
      simp only [eq_self_iff_true, if_true]
      rw [h1]
      exact ⟨hlen, List.Perm.refl _⟩
    | true =>
      simp only [Bool.true_eq_false, if_false]
      have hin : 0 + (n - i - 1) < (visualize_step s).1.arr.length := by
        rw [h1, hlen]
        omega
      obtain ⟨ilen, iperm⟩ := bubbleInnerC_perm (n - i - 1) 0 (visualize_step s).1 false hin
      rw [h1] at iperm
      cases hab : (bubbleInnerC (visualize_step s).1 0 (n - i - 1) false).2.2 with
      | true =>
        simp only [hab, if_true]
        exact ⟨by rw [ilen, h1, hlen], iperm⟩
      | false =>
        simp only [hab, Bool.false_eq_true, if_false]
        cases hsw : (bubbleInnerC (visualize_step s).1 0 (n - i - 1) false).2.1 with
        | true =>
          simp only [hsw, if_true]
          obtain ⟨rlen, rperm⟩ :=
            ih (i + 1) (bubbleInnerC (visualize_step s).1 0 (n - i - 1) false).1
              (by rw [ilen, h1, hlen]) (by omega)
          exact ⟨rlen, rperm.trans iperm⟩
        | false =>
          simp only [hsw, Bool.false_eq_true, if_false]
          rw [visualize_step_arr]
          exact ⟨by rw [ilen, h1, hlen], iperm⟩

/-- Counterexample for C4: stopping a Merge Sort run on `[2, 1]` after one
successful suspension check (i.e. at the check following the first
write-back of the merge) leaves the array `[1, 1]` — the element `2` is
lost and `1` duplicated, so the array is not a permutation of the input. -/
theorem claim_C4_counterexample :
    (mergeCancelRun [2, 1] 1).arr = [1, 1] ∧
    ¬ List.Perm (mergeCancelRun [2, 1] 1).arr [2, 1] := by
  decide

/-- C4 (amended): for the swap-based Bubble Sort, the array at every
cancellation point (a stop observed after any number `k` of successful
suspension checks) is a permutation of the input, with no duplicated or
lost elements; for Merge Sort (and the other write-phase algorithms,
counting/radix), a stop during the write-back phase can duplicate and lose
elements, leaving exactly the prefix of writes applied. -/
theorem claim_C4_cancel_perm (l : List Nat) (k : Nat) :
    List.Perm (bubbleCancelRun l k).arr l ∧
    (bubbleCancelRun l k).arr.length = l.length := by
  obtain ⟨hlen, hperm⟩ :=
    bubbleOuterC_perm l.length l.length 0 ⟨l, 0, 0, true, k⟩ rfl (by omega)
  exact ⟨hperm, hlen⟩

end AlgoViz
